import Mathlib

/-!
# Verification of the associativity prover (`src/Associativity.cpp`)

A shallow embedding of the associativity-prover subsystem of the Halide
fork under verification.  The embedding follows the source file
`Associativity.cpp` construct by construct:

* `Expr` mirrors the IR expression nodes the prover manipulates
  (the remaining binary arithmetic / comparison nodes of the full IR are
  handled by the same generic mutator recursion as the ones included here;
  `Let` nodes are absent because `substitute_in_all_lets` runs before every
  consumer, per the stated contract of the canonicalisation passes).
  Call argument vectors are represented by the mutually inductive
  `ExprList` (isomorphic to `List Expr`).
* `convertSelfRef` embeds the `ConvertSelfRef` mutator, with the mutable
  visitor state (`is_conditional`, `is_solvable`, `x_dependencies`,
  `x_part`) threaded explicitly.
* `visitAssociativeBinaryOp`, `extractAssociativeOpSingleElement`,
  `associativeOpPatternMatch`, `findMatch`, `addTransitiveDependencies`,
  `computeSubgraphs` and `proveAssociativity` embed the functions of the
  same names.
* External collaborators that live outside the translated file
  (the simplifier, CSE, let substitution, the linear solver and the
  process-wide fresh-name generator) are parameters of the model,
  collected in `Externals`; the wildcard matcher `expr_match` and the
  pattern table `get_ops_table` are modelled from the spec (their doc
  comments say so explicitly).

`std::set<int>` is modelled by sorted duplicate-free `List Nat` values
(`insertSorted`), matching the ascending iteration order the source relies
on in `get_subvector` and the merge loop.
-/

namespace HalideAssoc

/-- Scalar types of the IR fragment the prover works on: signed and
unsigned integers of a given bit width (booleans are `uint 1`).  Floating
point types are not exercised by any verified claim and are omitted. -/
inductive Ty
  | int (bits : Nat)
  | uint (bits : Nat)
deriving DecidableEq, Repr

def Ty.i32 : Ty := .int 32

def Ty.boolT : Ty := .uint 1

/-- `Type::is_int()`. -/
def Ty.isInt : Ty → Bool
  | .int _ => true
  | .uint _ => false

/-- `Type::bits()`. -/
def Ty.bits : Ty → Nat
  | .int b => b
  | .uint b => b

/-- The numeric value of `Type::max()`. -/
def Ty.maxVal : Ty → Int
  | .int b => Int.ofNat (2 ^ (b - 1) - 1)
  | .uint b => Int.ofNat (2 ^ b - 1)

/-- The numeric value of `Type::min()`. -/
def Ty.minVal : Ty → Int
  | .int b => -Int.ofNat (2 ^ (b - 1))
  | .uint _ => 0

/-- `Call::CallType` (only the constructors the prover inspects). -/
inductive CallType
  | image
  | extcall
  | halide
  | intrinsic
deriving DecidableEq, Repr

mutual

/-- IR expressions. `call` carries the result type, callee name, argument
list, tuple `value_index` and call type, exactly the fields
`ConvertSelfRef::visit(const Call*)` reads. -/
inductive Expr
  | intImm (t : Ty) (v : Int)
  | var (t : Ty) (name : String)
  | cast (t : Ty) (e : Expr)
  | add (a b : Expr)
  | sub (a b : Expr)
  | mul (a b : Expr)
  | min (a b : Expr)
  | max (a b : Expr)
  | and (a b : Expr)
  | or (a b : Expr)
  | not (a : Expr)
  | lt (a b : Expr)
  | select (c t f : Expr)
  | call (t : Ty) (name : String) (args : ExprList) (value_index : Nat) (ctype : CallType)

/-- Argument vectors of calls. -/
inductive ExprList
  | nil
  | cons (head : Expr) (tail : ExprList)

end

deriving instance DecidableEq for Expr
deriving instance DecidableEq for ExprList
deriving instance Repr for Expr
deriving instance Repr for ExprList

def ExprList.ofList : List Expr → ExprList
  | [] => .nil
  | a :: as => .cons a (ExprList.ofList as)

def ExprList.toList : ExprList → List Expr
  | .nil => []
  | .cons a as => a :: as.toList

def ExprList.length : ExprList → Nat
  | .nil => 0
  | .cons _ as => as.length + 1

/-- `Expr::type()`. -/
def Expr.ty : Expr → Ty
  | .intImm t _ => t
  | .var t _ => t
  | .cast t _ => t
  | .add a _ => a.ty
  | .sub a _ => a.ty
  | .mul a _ => a.ty
  | .min a _ => a.ty
  | .max a _ => a.ty
  | .and _ _ => .uint 1
  | .or _ _ => .uint 1
  | .not _ => .uint 1
  | .lt _ _ => .uint 1
  | .select _ t _ => t.ty
  | .call t _ _ _ _ => t

/-- `make_const(t, v)`. -/
def makeConst (t : Ty) (v : Int) : Expr := .intImm t v

/-- `t.max()` as an expression. -/
def Ty.maxExpr (t : Ty) : Expr := .intImm t t.maxVal

/-- `t.min()` as an expression. -/
def Ty.minExpr (t : Ty) : Expr := .intImm t t.minVal

mutual

/-- `expr_uses_var(e, name)`: the expression contains an occurrence of a
variable with the given name (the embedded fragment is binder-free, so
this is a plain occurrence scan). -/
def Expr.usesVar : Expr → String → Bool
  | .intImm _ _, _ => false
  | .var _ n, x => n == x
  | .cast _ e, x => e.usesVar x
  | .add a b, x => a.usesVar x || b.usesVar x
  | .sub a b, x => a.usesVar x || b.usesVar x
  | .mul a b, x => a.usesVar x || b.usesVar x
  | .min a b, x => a.usesVar x || b.usesVar x
  | .max a b, x => a.usesVar x || b.usesVar x
  | .and a b, x => a.usesVar x || b.usesVar x
  | .or a b, x => a.usesVar x || b.usesVar x
  | .not a, x => a.usesVar x
  | .lt a b, x => a.usesVar x || b.usesVar x
  | .select c t f, x => c.usesVar x || t.usesVar x || f.usesVar x
  | .call _ _ args _ _, x => ExprList.usesVar args x

def ExprList.usesVar : ExprList → String → Bool
  | .nil, _ => false
  | .cons a as, x => a.usesVar x || ExprList.usesVar as x

end

/-- `expr_uses_vars(e, scope)`: the expression uses at least one variable
from the scope. -/
def exprUsesVars (e : Expr) (scope : List String) : Bool :=
  scope.any (fun n => e.usesVar n)

mutual

/-- Halide's `substitute(find, replacement, e)`: every subtree structurally
equal to `find` is replaced by `replacement`; replacement is pre-order
(the equality test precedes recursion at every node) and does not descend
into replaced subtrees. -/
def substExpr (find repl : Expr) : Expr → Expr
  | .intImm t v => if Expr.intImm t v = find then repl else .intImm t v
  | .var t n => if Expr.var t n = find then repl else .var t n
  | .cast t e1 =>
      if Expr.cast t e1 = find then repl else .cast t (substExpr find repl e1)
  | .add a b =>
      if Expr.add a b = find then repl
      else .add (substExpr find repl a) (substExpr find repl b)
  | .sub a b =>
      if Expr.sub a b = find then repl
      else .sub (substExpr find repl a) (substExpr find repl b)
  | .mul a b =>
      if Expr.mul a b = find then repl
      else .mul (substExpr find repl a) (substExpr find repl b)
  | .min a b =>
      if Expr.min a b = find then repl
      else .min (substExpr find repl a) (substExpr find repl b)
  | .max a b =>
      if Expr.max a b = find then repl
      else .max (substExpr find repl a) (substExpr find repl b)
  | .and a b =>
      if Expr.and a b = find then repl
      else .and (substExpr find repl a) (substExpr find repl b)
  | .or a b =>
      if Expr.or a b = find then repl
      else .or (substExpr find repl a) (substExpr find repl b)
  | .not a => if Expr.not a = find then repl else .not (substExpr find repl a)
  | .lt a b =>
      if Expr.lt a b = find then repl
      else .lt (substExpr find repl a) (substExpr find repl b)
  | .select c t f =>
      if Expr.select c t f = find then repl
      else .select (substExpr find repl c) (substExpr find repl t) (substExpr find repl f)
  | .call t n args vi ct =>
      if Expr.call t n args vi ct = find then repl
      else .call t n (substArgs find repl args) vi ct

def substArgs (find repl : Expr) : ExprList → ExprList
  | .nil => .nil
  | .cons a as => .cons (substExpr find repl a) (substArgs find repl as)

end

/-- Interpretation of external (non-self) calls, used to give expressions
a denotation: a call's value is a function of its name, evaluated
arguments and value index. -/
abbrev Oracle := String → List Int → Nat → Int

mutual

/-- Denotational semantics of the embedded IR fragment over unbounded
integers (booleans are encoded as 0/1; the concrete inputs of every
theorem below keep values far from the 32-bit boundaries, so two's
complement wrap-around is never exercised). -/
def evalE (orc : Oracle) (env : String → Int) : Expr → Int
  | .intImm _ v => v
  | .var _ n => env n
  | .cast _ e => evalE orc env e
  | .add a b => evalE orc env a + evalE orc env b
  | .sub a b => evalE orc env a - evalE orc env b
  | .mul a b => evalE orc env a * evalE orc env b
  | .min a b => Min.min (evalE orc env a) (evalE orc env b)
  | .max a b => Max.max (evalE orc env a) (evalE orc env b)
  | .and a b => if evalE orc env a ≠ 0 ∧ evalE orc env b ≠ 0 then 1 else 0
  | .or a b => if evalE orc env a ≠ 0 ∨ evalE orc env b ≠ 0 then 1 else 0
  | .not a => if evalE orc env a = 0 then 1 else 0
  | .lt a b => if evalE orc env a < evalE orc env b then 1 else 0
  | .select c t f => if evalE orc env c ≠ 0 then evalE orc env t else evalE orc env f
  | .call _ n args vi _ => orc n (evalArgs orc env args) vi

def evalArgs (orc : Oracle) (env : String → Int) : ExprList → List Int
  | .nil => []
  | .cons a as => evalE orc env a :: evalArgs orc env as

end

/-! ## `std::set<int>` as sorted lists -/

/-- Insertion into a sorted duplicate-free list (`std::set<int>::insert`). -/
def insertSorted (k : Nat) : List Nat → List Nat
  | [] => [k]
  | a :: as =>
    if k < a then k :: a :: as
    else if k = a then a :: as
    else a :: insertSorted k as

/-- Union of two sorted sets, by repeated insertion (the element-wise
insertion loop of `add_transitive_dependencies`). -/
def unionSorted (dst src : List Nat) : List Nat :=
  src.foldl (fun acc k => insertSorted k acc) dst

/-! ## The self-reference rewriter `ConvertSelfRef` -/

/-- The mutable state of the `ConvertSelfRef` visitor: the
`is_conditional` flag (true while the visitor descends into the condition
of a `Select`), the `is_solvable` flag, the accumulated
`x_dependencies` set and the recorded `x_part`. -/
structure ConvState where
  is_conditional : Bool
  is_solvable : Bool
  x_dependencies : List Nat
  x_part : Option Expr
deriving DecidableEq, Repr

/-- The state `ConvertSelfRef` starts from (`is_conditional(false)`,
`is_solvable = true`, empty dependency set, undefined `x_part`). -/
def ConvState.init : ConvState := ⟨false, true, [], none⟩

mutual

/-- `ConvertSelfRef::mutate`, with the visitor state threaded explicitly.
Parameters mirror the constructor arguments: the function name `func`,
the left-hand-side argument vector `args`, the tuple index `value_index`
being proved, and the fresh names `op_x_names`.

Faithfulness notes:
* `visit(const Call*)` early-returns when `is_solvable` is already false;
  the expression it leaves behind is never used by the caller (the whole
  update is rejected), so the model returns the node unchanged.
* the conditional check (`is_conditional && value_index == ...`) precedes
  the argument-equality loop, as in the source;
* the argument loop compares the *mutated* call arguments against `args`
  element by element with `equal`; together with the arity assertion this
  is list equality, which is how the model states it;
* `visit(const Select*)` sets `is_conditional` around the condition only,
  via assignments to the member variable — the flag is *not* saved and
  restored, so the model threads it exactly the same way.
-/
def convertSelfRef (func : String) (args : ExprList) (value_index : Nat)
    (op_x_names : List String) : Expr → ConvState → Expr × ConvState
  | .call t nm cargs vidx ct, s =>
    if !s.is_solvable then (.call t nm cargs vidx ct, s)
    else
      let rargs := convertSelfRefArgs func args value_index op_x_names cargs s
      if ct = CallType.halide ∧ func = nm then
        if rargs.2.is_conditional ∧ vidx = value_index then
          (.call t nm rargs.1 vidx ct, { rargs.2 with is_solvable := false })
        else if rargs.1 = args then
          let e' : Expr := .var t (op_x_names.getD vidx "")
          if vidx = value_index then
            (e', { rargs.2 with x_part := some (.call t nm rargs.1 vidx ct) })
          else
            (e', { rargs.2 with
                   x_dependencies := insertSorted vidx rargs.2.x_dependencies })
        else
          (.call t nm rargs.1 vidx ct, { rargs.2 with is_solvable := false })
      else
        (.call t nm rargs.1 vidx ct, rargs.2)
  | .select c tv fv, s =>
    let rc := convertSelfRef func args value_index op_x_names c
      { s with is_conditional := true }
    let rt := convertSelfRef func args value_index op_x_names tv
      { rc.2 with is_conditional := false }
    let rf := convertSelfRef func args value_index op_x_names fv rt.2
    (.select rc.1 rt.1 rf.1, rf.2)
  | .intImm t v, s => (.intImm t v, s)
  | .var t n, s => (.var t n, s)
  | .cast t e, s =>
    let re1 := convertSelfRef func args value_index op_x_names e s
    (.cast t re1.1, re1.2)
  | .add a b, s =>
    let ra := convertSelfRef func args value_index op_x_names a s
    let rb := convertSelfRef func args value_index op_x_names b ra.2
    (.add ra.1 rb.1, rb.2)
  | .sub a b, s =>
    let ra := convertSelfRef func args value_index op_x_names a s
    let rb := convertSelfRef func args value_index op_x_names b ra.2
    (.sub ra.1 rb.1, rb.2)
  | .mul a b, s =>
    let ra := convertSelfRef func args value_index op_x_names a s
    let rb := convertSelfRef func args value_index op_x_names b ra.2
    (.mul ra.1 rb.1, rb.2)
  | .min a b, s =>
    let ra := convertSelfRef func args value_index op_x_names a s
    let rb := convertSelfRef func args value_index op_x_names b ra.2
    (.min ra.1 rb.1, rb.2)
  | .max a b, s =>
    let ra := convertSelfRef func args value_index op_x_names a s
    let rb := convertSelfRef func args value_index op_x_names b ra.2
    (.max ra.1 rb.1, rb.2)
  | .and a b, s =>
    let ra := convertSelfRef func args value_index op_x_names a s
    let rb := convertSelfRef func args value_index op_x_names b ra.2
    (.and ra.1 rb.1, rb.2)
  | .or a b, s =>
    let ra := convertSelfRef func args value_index op_x_names a s
    let rb := convertSelfRef func args value_index op_x_names b ra.2
    (.or ra.1 rb.1, rb.2)
  | .not a, s =>
    let ra := convertSelfRef func args value_index op_x_names a s
    (.not ra.1, ra.2)
  | .lt a b, s =>
    let ra := convertSelfRef func args value_index op_x_names a s
    let rb := convertSelfRef func args value_index op_x_names b ra.2
    (.lt ra.1 rb.1, rb.2)

def convertSelfRefArgs (func : String) (args : ExprList) (value_index : Nat)
    (op_x_names : List String) : ExprList → ConvState → ExprList × ConvState
  | .nil, s => (.nil, s)
  | .cons a as, s =>
    let ra := convertSelfRef func args value_index op_x_names a s
    let ras := convertSelfRefArgs func args value_index op_x_names as ra.2
    (.cons ra.1 ras.1, ras.2)

end

/-! ## The result data model -/

/-- `AssociativeOp::Replacement`: a fresh variable name together with the
expression it stands for (an empty name with an undefined expression
means "no self-reference at this tuple index"). -/
structure Replacement where
  var : String
  expr : Option Expr
deriving DecidableEq, Repr

/-- `AssociativePattern`: per-element operators and identities in wildcard
form, plus the commutativity flag. -/
structure AssociativePattern where
  ops : List (Option Expr)
  identities : List (Option Expr)
  is_commutative : Bool
deriving DecidableEq, Repr

/-- `AssociativeOp`: the prover result value. -/
structure AssociativeOp where
  pattern : AssociativePattern
  xs : List Replacement
  ys : List Replacement
  is_associative : Bool
deriving DecidableEq, Repr

/-- `AssociativeOp()`: the default (non-associative) result every failure
path returns. -/
def AssociativeOp.dflt : AssociativeOp := ⟨⟨[], [], false⟩, [], [], false⟩

/-- `AssociativeOp(n)`: a size-`n` result with undefined entries. -/
def AssociativeOp.mkSize (n : Nat) : AssociativeOp :=
  ⟨⟨List.replicate n none, List.replicate n none, false⟩,
   List.replicate n ⟨"", none⟩, List.replicate n ⟨"", none⟩, false⟩

/-! ## The wildcard matcher `expr_match` (external, modelled from the spec) -/

/-- Modelled from the spec: wildcard recognition of `expr_match`
(`IRMatch.cpp` is not part of the translated sources).  §4.4: "Variables
in `pattern` with names beginning with `x`/`y` followed by digits are
wildcards; all other identifiers must match structurally." -/
def isWildcardName (s : String) : Bool :=
  match s.data with
  | c :: rest => (c == 'x' || c == 'y') && !rest.isEmpty && rest.all Char.isDigit
  | [] => false

/-- Wildcard bindings accumulated by `expr_match`
(`std::map<std::string, Expr>`; insertion keeps the first binding, later
occurrences must compare equal). -/
abbrev Bindings := List (String × Expr)

def Bindings.find (m : Bindings) (k : String) : Option Expr :=
  (m.find? (fun p => p.1 = k)).map (·.2)

mutual

/-- Modelled from the spec: `expr_match(pattern, subject) →
Option<map<string, Expr>>` (§4.4).  A wildcard variable binds the subject
subtree (a repeated wildcard must re-match an equal subtree); every other
node must match structurally, constructor by constructor. -/
def exprMatch : Expr → Expr → Bindings → Option Bindings
  | .var _ nm, e, m =>
    if isWildcardName nm then
      match m.find nm with
      | some b => if b = e then some m else none
      | none => some (m ++ [(nm, e)])
    else
      match e with
      | .var _ nm2 => if nm = nm2 then some m else none
      | _ => none
  | .intImm t v, e, m => if e = Expr.intImm t v then some m else none
  | .cast t p, e, m =>
    match e with
    | .cast t2 e1 => if t = t2 then exprMatch p e1 m else none
    | _ => none
  | .add p q, e, m =>
    match e with
    | .add a b => (exprMatch p a m).bind (exprMatch q b)
    | _ => none
  | .sub p q, e, m =>
    match e with
    | .sub a b => (exprMatch p a m).bind (exprMatch q b)
    | _ => none
  | .mul p q, e, m =>
    match e with
    | .mul a b => (exprMatch p a m).bind (exprMatch q b)
    | _ => none
  | .min p q, e, m =>
    match e with
    | .min a b => (exprMatch p a m).bind (exprMatch q b)
    | _ => none
  | .max p q, e, m =>
    match e with
    | .max a b => (exprMatch p a m).bind (exprMatch q b)
    | _ => none
  | .and p q, e, m =>
    match e with
    | .and a b => (exprMatch p a m).bind (exprMatch q b)
    | _ => none
  | .or p q, e, m =>
    match e with
    | .or a b => (exprMatch p a m).bind (exprMatch q b)
    | _ => none
  | .lt p q, e, m =>
    match e with
    | .lt a b => (exprMatch p a m).bind (exprMatch q b)
    | _ => none
  | .not p, e, m =>
    match e with
    | .not a => exprMatch p a m
    | _ => none
  | .select pc pt pf, e, m =>
    match e with
    | .select c t f => ((exprMatch pc c m).bind (exprMatch pt t)).bind (exprMatch pf f)
    | _ => none
  | .call _ nm pargs vi ct, e, m =>
    match e with
    | .call _ nm2 eargs vi2 ct2 =>
      if nm = nm2 ∧ vi = vi2 ∧ ct = ct2 ∧ pargs.length = eargs.length then
        exprMatchArgs pargs eargs m
      else none
    | _ => none

def exprMatchArgs : ExprList → ExprList → Bindings → Option Bindings
  | .nil, .nil, m => some m
  | .cons p ps, .cons e es, m => (exprMatch p e m).bind (exprMatchArgs ps es)
  | _, _, _ => none

end

/-! ## `associative_op_pattern_match` and `find_match` -/

/-- `associative_op_pattern_match(e, op, x_names, y_names, x_scope,
match)`: run the wildcard matcher on one element, check that every bound
`x{i}` wildcard is exactly the variable `x_names[i]`, that no bound
`y{i}` wildcard uses a variable of the `x` scope, and merge the new
bindings into the accumulated ones, requiring agreement.  Returns the
merged bindings, `none` meaning the source function returns `false`
(in which case the source leaves `match` in its partially merged state;
callers only continue with it after `true`, so the model keeps the input
bindings on failure). -/
def mergeBindings : Bindings → Bindings → Option Bindings
  | [], acc => some acc
  | kv :: rest, acc =>
    match acc.find kv.1 with
    | none => mergeBindings rest (acc ++ [kv])
    | some prev => if prev = kv.2 then mergeBindings rest acc else none

def associativeOpPatternMatch (e : Expr) (op : Expr) (x_names y_names : List String)
    (x_scope : List String) (accum : Bindings) : Option Bindings :=
  match exprMatch op e [] with
  | none => none
  | some result =>
    if (List.range x_names.length).all (fun i =>
        match result.find ("x" ++ toString i) with
        | some (.var _ nm) => nm = x_names.getD i ""
        | some _ => false
        | none => true) then
      if (List.range y_names.length).all (fun i =>
          match result.find ("y" ++ toString i) with
          | some b => !exprUsesVars b x_scope
          | none => true) then
        mergeBindings result accum
      else none
    else none

/-- The `y`-binding extraction loop of `find_match`: for each index look
up `y{index}` in the accumulated bindings; on success record the
`xs`/`ys` replacements and extend the substitution list; a missing
binding aborts (the source sets `matched = false` and breaks, keeping the
`assoc_op` mutations already made, which the model reproduces by
returning the partially updated accumulator). -/
def findMatchYLoop (op_x_names op_y_names : List String) (x_parts : List (Option Expr))
    (pm : Bindings) : List Nat → AssociativeOp → List (Expr × Expr) →
    Option (List (Expr × Expr)) × AssociativeOp
  | [], assoc, repl => (some repl, assoc)
  | index :: rest, assoc, repl =>
    match pm.find ("y" ++ toString index) with
    | none => (none, assoc)
    | some y_part =>
      let assoc :=
        { assoc with
          xs := assoc.xs.set index ⟨op_x_names.getD index "", x_parts.getD index none⟩,
          ys := assoc.ys.set index ⟨op_y_names.getD index "", some y_part⟩ }
      findMatchYLoop op_x_names op_y_names x_parts pm rest assoc
        (repl ++ [(y_part, .var y_part.ty (op_y_names.getD index ""))])

/-- The operator-rebuilding loop of `find_match`: for each element take
`exprs[index]` and apply the single substitutions of `replacement` one
after the other, in the order the list was built (ascending `y` index)
— the source comments that this order matters for argmin-style patterns —
then store the rebuilt operator and the pattern identity. -/
def findMatchRebuild (exprs : List Expr) (pattern : AssociativePattern)
    (repl : List (Expr × Expr)) : List Nat → AssociativeOp → AssociativeOp
  | [], assoc => assoc
  | index :: rest, assoc =>
    let e := repl.foldl (fun e p => substExpr p.1 p.2 e) (exprs.getD index (.intImm .i32 0))
    let assoc :=
      { assoc with
        pattern :=
          { assoc.pattern with
            ops := assoc.pattern.ops.set index (some e),
            identities :=
              assoc.pattern.identities.set index (pattern.identities.getD index none) } }
    findMatchRebuild exprs pattern repl rest assoc

/-- One candidate pattern of the `find_match` table loop: match every
element against `pattern.ops[i]` accumulating shared bindings, then
extract the `y` bindings and rebuild the canonical operators. -/
def findMatchPm (op_x_names op_y_names x_scope : List String)
    (pattern : AssociativePattern) (exprs : List Expr) :
    List Nat → Bindings → Option Bindings
  | [], acc => some acc
  | i :: rest, acc =>
    match pattern.ops.getD i none with
    | none => none
    | some op =>
      match associativeOpPatternMatch (exprs.getD i (.intImm .i32 0)) op op_x_names
          op_y_names x_scope acc with
      | none => none
      | some acc2 => findMatchPm op_x_names op_y_names x_scope pattern exprs rest acc2

def findMatchTry (op_x_names op_y_names : List String) (x_parts : List (Option Expr))
    (exprs : List Expr) (x_scope : List String) (pattern : AssociativePattern)
    (assoc : AssociativeOp) : Bool × AssociativeOp :=
  let pm := findMatchPm op_x_names op_y_names x_scope pattern exprs
    (List.range exprs.length) ([] : Bindings)
  match pm with
  | none => (false, assoc)
  | some pm =>
    match findMatchYLoop op_x_names op_y_names x_parts pm
        (List.range op_y_names.length) assoc [] with
    | (none, assoc) => (false, assoc)
    | (some repl, assoc) =>
      (true, findMatchRebuild exprs pattern repl (List.range exprs.length) assoc)

/-- `find_match(table, op_x_names, op_y_names, x_parts, exprs,
assoc_op)`: try each table entry in order; the first full match wins.
A failed candidate leaves its partial `assoc_op` mutations behind
(as in the source, where `assoc_op` is mutated in place), and the next
candidate overwrites them. -/
def findMatchGo (op_x_names op_y_names : List String) (x_parts : List (Option Expr))
    (exprs : List Expr) (x_scope : List String) :
    List AssociativePattern → AssociativeOp → Bool × AssociativeOp
  | [], assoc => (false, assoc)
  | pattern :: rest, assoc =>
    match findMatchTry op_x_names op_y_names x_parts exprs x_scope pattern assoc with
    | (true, assoc) => (true, assoc)
    | (false, assoc) => findMatchGo op_x_names op_y_names x_parts exprs x_scope rest assoc

def findMatch (table : List AssociativePattern) (op_x_names op_y_names : List String)
    (x_parts : List (Option Expr)) (exprs : List Expr) (assoc : AssociativeOp) :
    Bool × AssociativeOp :=
  let x_scope := op_x_names
  findMatchGo op_x_names op_y_names x_parts exprs x_scope table assoc

/-! ## The pattern table (external, modelled from the spec) -/

/-- The `x{i}` wildcard variable of the pattern table (32-bit signed, the
only element type the table covers). -/
def xw (i : Nat) : Expr := .var .i32 ("x" ++ toString i)

/-- The `y{i}` wildcard variable of the pattern table. -/
def yw (i : Nat) : Expr := .var .i32 ("y" ++ toString i)

/-- Modelled from the spec: the complex-multiplication entry of the
two-element pattern table (§8, scenario 5): operators
`[x0*y0 − x1*y1, x1*y0 + x0*y1]` with identities `[1, 0]`. -/
def complexMulPattern : AssociativePattern :=
  ⟨[some (.sub (.mul (xw 0) (yw 0)) (.mul (xw 1) (yw 1))),
    some (.add (.mul (xw 1) (yw 0)) (.mul (xw 0) (yw 1)))],
   [some (makeConst .i32 1), some (makeConst .i32 0)], true⟩

/-- Modelled from the spec: the 1-D argmin entry of the two-element
pattern table (§8, scenario 6): operators
`[min(x0, y0), select(x0 < y0, x1, y1)]` with identities
`[type.max, 0]`. -/
def argminPattern : AssociativePattern :=
  ⟨[some (.min (xw 0) (yw 0)),
    some (.select (.lt (xw 0) (yw 0)) (xw 1) (yw 1))],
   [some (Ty.maxExpr .i32), some (makeConst .i32 0)], true⟩

/-- Modelled from the spec: `get_ops_table` (`AssociativeOpsTable.cpp` is
not part of the translated sources).  §6 fixes only the contract — "a
static ordered list of `AssociativePattern`s" per arity whose entries are
genuinely associative — and leaves the contents as an implementation
detail; the model carries the two-element entries that the spec's own
scenarios exercise (complex multiplication and 1-D argmin).  Single
element expressions that reach the table have already failed the
structural binary-operator recognition, and no verified claim depends on
further single-element entries, so that list is empty here. -/
def getOpsTable (exprs : List Expr) : List AssociativePattern :=
  if exprs.length = 2 then [complexMulPattern, argminPattern] else []

/-! ## The single-element extractor -/

/-- Store `pattern.ops[index]` and `pattern.identities[index]`. -/
def AssociativeOp.setOpId (assoc : AssociativeOp) (index : Nat) (op iden : Expr) :
    AssociativeOp :=
  { assoc with
    pattern :=
      { assoc.pattern with
        ops := assoc.pattern.ops.set index (some op),
        identities := assoc.pattern.identities.set index (some iden) } }

/-- `visit_associative_binary_op<T>`: recognise `op(x, rest)` with `x`
exactly the variable `op_x` and `rest` free of `op_x`; record the
`xs`/`ys` replacements.  `Sub` (`isSub`) is associative but not
commutative. -/
def visitAssociativeBinaryOp (isSub : Bool) (index : Nat) (op_x op_y : String)
    (x_part : Option Expr) (lhs rhs : Expr) (assoc : AssociativeOp) :
    (Bool × Bool) × AssociativeOp :=
  match lhs with
  | .var _ nm =>
    if nm ≠ op_x then ((false, false), assoc)
    else if rhs.usesVar op_x then ((false, false), assoc)
    else
      (((if isSub then (true, false) else (true, true))),
       { assoc with
         xs := assoc.xs.set index ⟨op_x, x_part⟩,
         ys := assoc.ys.set index ⟨op_y, some rhs⟩ })
  | _ => ((false, false), assoc)

/-- The table-fallback tail of `extract_associative_op_single_element`:
if the structural recognition failed and the element type is 32-bit
signed, consult the single-element pattern table through `find_match`
and copy a successful result over; otherwise pass the structural result
through. -/
def extractFallback (e : Expr) (op_x op_y : String) (x_part : Option Expr)
    (index : Nat) (step : (Bool × Bool) × AssociativeOp) :
    (Bool × Bool) × AssociativeOp :=
  let t := e.ty
  let is_associative := step.1.1
  let is_commutative := step.1.2
  let assoc := step.2
  if !is_associative ∧ t.isInt ∧ t.bits = 32 then
    let tmp := AssociativeOp.mkSize 1
    match findMatch (getOpsTable [e]) [op_x] [op_y] [x_part] [e] tmp with
    | (true, tmp) =>
      (((true, is_commutative)),
       { assoc with
         pattern :=
           { assoc.pattern with
             ops := assoc.pattern.ops.set index (tmp.pattern.ops.getD 0 none),
             identities :=
               assoc.pattern.identities.set index (tmp.pattern.identities.getD 0 none) },
         xs := assoc.xs.set index (tmp.xs.getD 0 ⟨"", none⟩),
         ys := assoc.ys.set index (tmp.ys.getD 0 ⟨"", none⟩) })
    | (false, _) => ((is_associative, is_commutative), assoc)
  else
    ((is_associative, is_commutative), assoc)

/-- `extract_associative_op_single_element`: recognise a canonicalised
single element.  With no recorded `x_part` the element is trivially
associative with pattern `y` and identity `0`.  Otherwise the outermost
binary operator is matched structurally (`Add`, `Sub`, `Mul`, `Min`,
`Max`, `And`, `Or`); the `pattern.ops`/`identities` assignments happen
before `visit_associative_binary_op` runs, exactly as in the source
(where they persist even if the visit then fails).  If no operator
matched and the element type is 32-bit signed, the single-element pattern
table is consulted through `find_match` and a successful result copied
over. -/
def extractAssociativeOpSingleElement (index : Nat) (op_x_names op_y_names : List String)
    (x_part : Option Expr) (e : Expr) (assoc : AssociativeOp) :
    (Bool × Bool) × AssociativeOp :=
  let t := e.ty
  let op_x := op_x_names.getD index ""
  let op_y := op_y_names.getD index ""
  let x : Expr := .var t op_x
  let y : Expr := .var t op_y
  match x_part with
  | none =>
    (((true, false)),
     { assoc with
       pattern :=
         { assoc.pattern with
           ops := assoc.pattern.ops.set index (some y),
           identities := assoc.pattern.identities.set index (some (makeConst t 0)) },
       xs := assoc.xs.set index ⟨"", none⟩,
       ys := assoc.ys.set index ⟨op_y, some e⟩ })
  | some _ =>
    let step : (Bool × Bool) × AssociativeOp :=
      match e with
      | .add a b =>
        let assoc := assoc.setOpId index (.add x y) (makeConst t 0)
        visitAssociativeBinaryOp false index op_x op_y x_part a b assoc
      | .sub a b =>
        let assoc := assoc.setOpId index (.add x y) (makeConst t 0)
        visitAssociativeBinaryOp true index op_x op_y x_part a b assoc
      | .mul a b =>
        let assoc := assoc.setOpId index (.mul x y) (makeConst t 1)
        visitAssociativeBinaryOp false index op_x op_y x_part a b assoc
      | .min a b =>
        let assoc := assoc.setOpId index (.min x y) (t.maxExpr)
        visitAssociativeBinaryOp false index op_x op_y x_part a b assoc
      | .max a b =>
        let assoc := assoc.setOpId index (.max x y) (t.minExpr)
        visitAssociativeBinaryOp false index op_x op_y x_part a b assoc
      | .and a b =>
        let assoc := assoc.setOpId index (.and x y) (makeConst t 1)
        visitAssociativeBinaryOp false index op_x op_y x_part a b assoc
      | .or a b =>
        let assoc := assoc.setOpId index (.or x y) (makeConst t 0)
        visitAssociativeBinaryOp false index op_x op_y x_part a b assoc
      | _ => ((false, false), assoc)
    extractFallback e op_x op_y x_part index step

/-! ## Dependency analysis -/

/-- One step of the inner `j` loop of `add_transitive_dependencies` for a
fixed `i`: when `j ∈ dependencies[i]`, insert every element of
`dependencies[j]` into `dependencies[i]`. -/
def absorbStep (i : Nat) (rows : List (List Nat)) (j : Nat) : List (List Nat) :=
  if i = j then rows
  else if j ∈ rows.getD i [] then
    rows.set i (unionSorted (rows.getD i []) (rows.getD j []))
  else rows

/-- The full inner `j` loop for a fixed `i` (in place, so later `j`
iterations see the updated row). -/
def absorbRow (rows : List (List Nat)) (i : Nat) : List (List Nat) :=
  (List.range rows.length).foldl (absorbStep i) rows

/-- `add_transitive_dependencies`.  The source wraps the double loop in
`while (change)`, but the body begins with `change = false` and the
insertion branch assigns `change = false` again (rather than `true`), so
the loop body executes exactly once; the model is that single pass. -/
def addTransitiveDependencies (deps : List (List Nat)) : List (List Nat) :=
  (List.range deps.length).foldl absorbRow deps

/-- `compute_subgraphs`: keep `dependencies[i]` unless it is empty or is
fully contained in some other row.  The skip condition reads
`subgraphs[i].empty()` (the row being decided, which is still empty at
that point) — translated verbatim. -/
def subgraphStep (deps : List (List Nat)) (subgraphs : List (List Nat))
    (i : Nat) : List (List Nat) :=
  let current := deps.getD i []
  if current = [] then subgraphs
  else
    let should_remove := (List.range deps.length).any (fun j =>
      let other := deps.getD j []
      if i = j ∨ current.length > other.length ∨ (j < i ∧ subgraphs.getD i [] = []) then
        false
      else current.all (fun k => k ∈ other))
    if should_remove then subgraphs else subgraphs.set i current

def computeSubgraphs (deps : List (List Nat)) : List (List Nat) :=
  (List.range deps.length).foldl (subgraphStep deps)
    (List.replicate deps.length ([] : List Nat))

/-- `get_subvector(v, indices)`: the elements of `v` selected by the
sorted index set, in ascending order. -/
def getSubvector {α : Type} (dfl : α) (v : List α) (indices : List Nat) : List α :=
  indices.map (fun k => v.getD k dfl)

/-! ## The prover orchestrator -/

/-- The external collaborators of the prover (spec §6): the simplifier,
common-subexpression elimination, let substitution, the single-variable
linear solver (`solve_expression(e, v).result`), and the process-wide
fresh-name generator `unique_name`, modelled as a function of the prefix
and an explicit counter state. -/
structure Externals where
  simplify : Expr → Expr
  cse : Expr → Expr
  substituteInAllLets : Expr → Expr
  solve : Expr → String → Expr
  uniqueName : String → Nat → String × Nat

/-- The fresh-name generation loop of `prove_associativity`: for each
tuple index, `unique_name("_x_" + i)` then `unique_name("_y_" + i)`,
threading the process-wide generator state. -/
def genNamesGo (ext : Externals) :
    List Nat → List String × List String × Nat → List String × List String × Nat
  | [], st => st
  | idx :: rest, st =>
    let p1 := ext.uniqueName ("_x_" ++ toString idx) st.2.2
    let p2 := ext.uniqueName ("_y_" ++ toString idx) p1.2
    genNamesGo ext rest (st.1 ++ [p1.1], st.2.1 ++ [p2.1], p2.2)

def genNames (ext : Externals) (n : Nat) (c : Nat) : List String × List String × Nat :=
  genNamesGo ext (List.range n) ([], [], c)

/-- The per-element loop of `prove_associativity` (processed from index
`N-1` down to `0`): canonicalise (`simplify`, `cse`,
`substitute_in_all_lets`), run `ConvertSelfRef`, record `x_part` and the
dependency set (adding the self dependency when `x_part` is defined),
then canonicalise again (`cse`, `simplify`, `solve_expression`,
`substitute_in_all_lets`).  Returns `none` when the rewriter reports the
element unsolvable, which makes the prover return the default result. -/
def proveLoop (ext : Externals) (f : String) (args : ExprList)
    (op_x_names : List String) :
    List Nat →
    List Expr × List (List Nat) × List (Option Expr) × Bool →
    Option (List Expr × List (List Nat) × List (Option Expr) × Bool)
  | [], st => some st
  | idx :: rest, (exprs, dependencies, x_parts, all_independent) =>
    let op_x := op_x_names.getD idx ""
    let e := exprs.getD idx (.intImm .i32 0)
    let e := ext.simplify e
    let e := ext.cse e
    let e := ext.substituteInAllLets e
    let rcv := convertSelfRef f args idx op_x_names e ConvState.init
    let e := rcv.1
    let cs := rcv.2
    if !cs.is_solvable then none
    else
      let all_independent := all_independent && cs.x_dependencies.isEmpty
      let x_parts := x_parts.set idx cs.x_part
      let deprow :=
        if cs.x_part.isSome then insertSorted idx cs.x_dependencies
        else cs.x_dependencies
      let dependencies := dependencies.set idx deprow
      let e := ext.cse e
      let e := ext.simplify e
      let e := ext.solve e op_x
      let e := ext.substituteInAllLets e
      let exprs := exprs.set idx e
      proveLoop ext f args op_x_names rest (exprs, dependencies, x_parts, all_independent)

/-- The independent branch of `prove_associativity`: prove each element
separately with the single-element extractor; any non-associative element
fails the prover. -/
def proveIndependent (op_x_names op_y_names : List String)
    (x_parts : List (Option Expr)) (exprs : List Expr) :
    List Nat → AssociativeOp → Option AssociativeOp
  | [], assoc => some assoc
  | idx :: rest, assoc =>
    let r :=
      extractAssociativeOpSingleElement idx op_x_names op_y_names
        (x_parts.getD idx none) (exprs.getD idx (.intImm .i32 0)) assoc
    if !r.1.1 then none
    else proveIndependent op_x_names op_y_names x_parts exprs rest r.2

/-- The merge loop of the subgraph branch: write the sub-result for each
index of the subgraph into the global result, after checking that any
previously written `ops`/`identities`/`xs`/`ys` entries agree with the
new values (field order as in the source: operators and identities, then
the x-replacement, then the y-replacement); a disagreement fails the
prover. -/
def mergeSubgraph (sub : AssociativeOp) :
    List (Nat × Nat) → AssociativeOp → Option AssociativeOp
  | [], assoc => some assoc
  | (j, index) :: rest, assoc =>
    if (assoc.pattern.ops.getD index none).isSome ∧
        (assoc.pattern.ops.getD index none ≠ sub.pattern.ops.getD j none ∨
          assoc.pattern.identities.getD index none ≠
            sub.pattern.identities.getD j none) then
      none
    else if (assoc.xs.getD index ⟨"", none⟩).expr.isSome ∧
        assoc.xs.getD index ⟨"", none⟩ ≠ sub.xs.getD j ⟨"", none⟩ then
      none
    else if (assoc.ys.getD index ⟨"", none⟩).expr.isSome ∧
        assoc.ys.getD index ⟨"", none⟩ ≠ sub.ys.getD j ⟨"", none⟩ then
      none
    else
      let assoc :=
        { assoc with
          pattern :=
            { assoc.pattern with
              ops := assoc.pattern.ops.set index (sub.pattern.ops.getD j none),
              identities :=
                assoc.pattern.identities.set index (sub.pattern.identities.getD j none) },
          xs := assoc.xs.set index (sub.xs.getD j ⟨"", none⟩),
          ys := assoc.ys.set index (sub.ys.getD j ⟨"", none⟩) }
      mergeSubgraph sub rest assoc

/-- The subgraph branch of `prove_associativity`: for each non-empty
subgraph, reject sizes above 2, restrict the inputs to the subgraph's
indices, run `find_match` against the arity-matched table, and merge the
sub-result into the global one. -/
def proveSubgraphs (op_x_names op_y_names : List String)
    (x_parts : List (Option Expr)) (exprs : List Expr) :
    List (List Nat) → AssociativeOp → Option AssociativeOp
  | [], assoc => some assoc
  | sg :: rest, assoc =>
    if sg = [] then proveSubgraphs op_x_names op_y_names x_parts exprs rest assoc
    else if sg.length > 2 then none
    else
      let sub_exprs := getSubvector (.intImm .i32 0) exprs sg
      let sub_op_x_names := getSubvector "" op_x_names sg
      let sub_op_y_names := getSubvector "" op_y_names sg
      let sub_x_parts := getSubvector none x_parts sg
      let sub_assoc := AssociativeOp.mkSize sub_exprs.length
      match findMatch (getOpsTable sub_exprs) sub_op_x_names sub_op_y_names
          sub_x_parts sub_exprs sub_assoc with
      | (false, _) => none
      | (true, sub_assoc) =>
        match mergeSubgraph sub_assoc (sg.enum.map (fun p => (p.1, p.2))) assoc with
        | none => none
        | some assoc => proveSubgraphs op_x_names op_y_names x_parts exprs rest assoc

/-- The body of `prove_associativity` after fresh-name generation,
returning `none` for every failure path (each of which makes the source
return the default `AssociativeOp()`). -/
def proveCore (ext : Externals) (f : String) (args : List Expr) (exprs : List Expr)
    (op_x_names op_y_names : List String) : Option AssociativeOp :=
  let assoc := AssociativeOp.mkSize exprs.length
  let args := args.map (fun a => ext.substituteInAllLets (ext.simplify (ext.cse a)))
  let argsL := ExprList.ofList args
  match proveLoop ext f argsL op_x_names (List.range exprs.length).reverse
      (exprs, List.replicate exprs.length [], List.replicate exprs.length none, true) with
  | none => none
  | some (exprs, dependencies, x_parts, all_independent) =>
    let dependencies := addTransitiveDependencies dependencies
    if all_independent || exprs.length = 1 then
      match proveIndependent op_x_names op_y_names x_parts exprs
          (List.range exprs.length) assoc with
      | none => none
      | some assoc => some { assoc with is_associative := true }
    else
      let subgraphs := computeSubgraphs dependencies
      match proveSubgraphs op_x_names op_y_names x_parts exprs subgraphs assoc with
      | none => none
      | some assoc => some { assoc with is_associative := true }

/-- `prove_associativity(f, args, exprs)`.  The fresh-name generator
state is threaded explicitly (the source uses the process-wide
`unique_name` counters); the advanced state is returned alongside the
result, and every failure path yields the default `AssociativeOp()`. -/
def proveAssociativity (ext : Externals) (c : Nat) (f : String)
    (args : List Expr) (exprs : List Expr) : AssociativeOp × Nat :=
  let g := genNames ext exprs.length c
  match proveCore ext f args exprs g.1 g.2.1 with
  | none => (AssociativeOp.dflt, g.2.2)
  | some assoc => (assoc, g.2.2)

/-! ## Auxiliary predicates used by the theorems -/

mutual

/-- The expression contains a `Select` node (selects are the only nodes
that write the `is_conditional` flag of `ConvertSelfRef`). -/
def Expr.hasSelect : Expr → Bool
  | .intImm _ _ => false
  | .var _ _ => false
  | .cast _ e => e.hasSelect
  | .add a b => a.hasSelect || b.hasSelect
  | .sub a b => a.hasSelect || b.hasSelect
  | .mul a b => a.hasSelect || b.hasSelect
  | .min a b => a.hasSelect || b.hasSelect
  | .max a b => a.hasSelect || b.hasSelect
  | .and a b => a.hasSelect || b.hasSelect
  | .or a b => a.hasSelect || b.hasSelect
  | .not a => a.hasSelect
  | .lt a b => a.hasSelect || b.hasSelect
  | .select _ _ _ => true
  | .call _ _ args _ _ => ExprList.hasSelect args

def ExprList.hasSelect : ExprList → Bool
  | .nil => false
  | .cons a as => a.hasSelect || ExprList.hasSelect as

end

mutual

/-- The expression contains a call node that `ConvertSelfRef` treats as a
self-reference candidate: a `Call` with `call_type == Halide` and the
given function name. -/
def Expr.hasSelfCall : Expr → String → Bool
  | .intImm _ _, _ => false
  | .var _ _, _ => false
  | .cast _ e, f => e.hasSelfCall f
  | .add a b, f => a.hasSelfCall f || b.hasSelfCall f
  | .sub a b, f => a.hasSelfCall f || b.hasSelfCall f
  | .mul a b, f => a.hasSelfCall f || b.hasSelfCall f
  | .min a b, f => a.hasSelfCall f || b.hasSelfCall f
  | .max a b, f => a.hasSelfCall f || b.hasSelfCall f
  | .and a b, f => a.hasSelfCall f || b.hasSelfCall f
  | .or a b, f => a.hasSelfCall f || b.hasSelfCall f
  | .not a, f => a.hasSelfCall f
  | .lt a b, f => a.hasSelfCall f || b.hasSelfCall f
  | .select c t fv, f => c.hasSelfCall f || t.hasSelfCall f || fv.hasSelfCall f
  | .call _ nm args _ ct, f =>
    (decide (ct = CallType.halide) && decide (nm = f)) || ExprList.hasSelfCall args f

def ExprList.hasSelfCall : ExprList → String → Bool
  | .nil, _ => false
  | .cons a as, f => a.hasSelfCall f || ExprList.hasSelfCall as f

end

/-- The value of the `is_conditional` flag after the mutator traverses
`e` starting from flag value `c`: any `Select` inside `e` leaves the flag
false (its visit clears the member before the branches and nothing
restores it), otherwise the flag is unchanged. -/
def condAfter (e : Expr) (c : Bool) : Bool :=
  if e.hasSelect then false else c

mutual

/-- Simultaneous substitution, following the spec's words in §4.4
("substitute all `yi` bindings in a single pass (by simultaneous
substitution)"): at every node, the first table entry whose left side
equals the node replaces it, and replaced nodes are not re-entered; all
entries are available at every node, so no entry can corrupt another
entry's image.  This definition exists only to be compared against the
sequential rebuild of `find_match`. -/
def simulSubst (table : List (Expr × Expr)) : Expr → Expr
  | .intImm t v => ((table.find? (fun p => p.1 = Expr.intImm t v)).map (fun p => p.2)).getD (.intImm t v)
  | .var t n => ((table.find? (fun p => p.1 = Expr.var t n)).map (fun p => p.2)).getD (.var t n)
  | .cast t e1 =>
    match table.find? (fun p => p.1 = Expr.cast t e1) with
    | some p => p.2
    | none => .cast t (simulSubst table e1)
  | .add a b =>
    match table.find? (fun p => p.1 = Expr.add a b) with
    | some p => p.2
    | none => .add (simulSubst table a) (simulSubst table b)
  | .sub a b =>
    match table.find? (fun p => p.1 = Expr.sub a b) with
    | some p => p.2
    | none => .sub (simulSubst table a) (simulSubst table b)
  | .mul a b =>
    match table.find? (fun p => p.1 = Expr.mul a b) with
    | some p => p.2
    | none => .mul (simulSubst table a) (simulSubst table b)
  | .min a b =>
    match table.find? (fun p => p.1 = Expr.min a b) with
    | some p => p.2
    | none => .min (simulSubst table a) (simulSubst table b)
  | .max a b =>
    match table.find? (fun p => p.1 = Expr.max a b) with
    | some p => p.2
    | none => .max (simulSubst table a) (simulSubst table b)
  | .and a b =>
    match table.find? (fun p => p.1 = Expr.and a b) with
    | some p => p.2
    | none => .and (simulSubst table a) (simulSubst table b)
  | .or a b =>
    match table.find? (fun p => p.1 = Expr.or a b) with
    | some p => p.2
    | none => .or (simulSubst table a) (simulSubst table b)
  | .not a =>
    match table.find? (fun p => p.1 = Expr.not a) with
    | some p => p.2
    | none => .not (simulSubst table a)
  | .lt a b =>
    match table.find? (fun p => p.1 = Expr.lt a b) with
    | some p => p.2
    | none => .lt (simulSubst table a) (simulSubst table b)
  | .select c t f =>
    match table.find? (fun p => p.1 = Expr.select c t f) with
    | some p => p.2
    | none => .select (simulSubst table c) (simulSubst table t) (simulSubst table f)
  | .call t n args vi ct =>
    match table.find? (fun p => p.1 = Expr.call t n args vi ct) with
    | some p => p.2
    | none => .call t n (simulSubstArgs table args) vi ct

def simulSubstArgs (table : List (Expr × Expr)) : ExprList → ExprList
  | .nil => .nil
  | .cons a as => .cons (simulSubst table a) (simulSubstArgs table as)

end

/-! ## Concrete instantiations for the evaluated theorems

The external passes are instantiated with identity functions: the
simplifier, CSE and let-substitution contracts (§4.2) are satisfied
trivially on the already-canonical inputs used below (which are in the
exact shape the repository's own `associativity_test` feeds the prover
after canonicalisation), and the solver's contract permits returning its
input unchanged.  The fresh-name generator appends the process-wide
counter to the requested prefix, modelling `unique_name`. -/

/-- Identity instantiation of the external canonicalisation passes with a
counter-appending fresh-name generator. -/
def idExt : Externals :=
  { simplify := id, cse := id, substituteInAllLets := id,
    solve := fun e _ => e,
    uniqueName := fun p n => (p ++ "." ++ toString n, n + 1) }

/-- A trivial interpretation of external calls. -/
def orc0 : Oracle := fun _ _ _ => 0

/-- A trivial base environment. -/
def env0 : String → Int := fun _ => 0

/-- The binary operator denoted by a pattern operator at one index:
substitute `a` for the index's x-variable and `b` for its y-variable,
reading every other variable from the base environment (this is the
semantic counterpart of the spec's "substituting `xs[i].var → x` and
`ys[i].var → y`"). -/
def opApply (orc : Oracle) (env : String → Int) (nx ny : String) (op : Expr)
    (a b : Int) : Int :=
  evalE orc (fun n => if n = nx then a else if n = ny then b else env n) op

/-- The left-hand-side argument `x` of the test function. -/
def vx : Expr := .var .i32 "x"

def vy : Expr := .var .i32 "y"

def vz : Expr := .var .i32 "z"

/-- The reduction variable `rx`. -/
def vrx : Expr := .var .i32 "rx"

/-- The tuple-`i` self-reference `f(x)[i]`. -/
def fcall (i : Nat) : Expr := .call .i32 "f" (.cons vx .nil) i .halide

/-- The external call `g(rx)[i]`. -/
def gcall (i : Nat) : Expr := .call .i32 "g" (.cons vrx .nil) i .halide

/-- `f(x) = f(x) + g(rx)`. -/
def addInput : List Expr := [.add (fcall 0) (gcall 0)]

/-- Complex multiplication, first element: `f(x)[0]*g(rx)[0] - f(x)[1]*g(rx)[1]`. -/
def cm0 : Expr := .sub (.mul (fcall 0) (gcall 0)) (.mul (fcall 1) (gcall 1))

/-- Complex multiplication, second element: `f(x)[1]*g(rx)[0] + f(x)[0]*g(rx)[1]`. -/
def cm1 : Expr := .add (.mul (fcall 1) (gcall 0)) (.mul (fcall 0) (gcall 1))

/-- The complex-multiplication update tuple (spec §8 scenario 5). -/
def cmInput : List Expr := [cm0, cm1]

/-- 1-D argmin, first element: `min(f(x)[0], g(rx)[0])`. -/
def am0 : Expr := .min (fcall 0) (gcall 0)

/-- 1-D argmin, second element: `select(f(x)[0] < g(rx)[0], f(x)[1], rx)`. -/
def am1 : Expr := .select (.lt (fcall 0) (gcall 0)) (fcall 1) vrx

/-- The 1-D argmin update tuple (spec §8 scenario 6). -/
def amInput : List Expr := [am0, am1]

/-- Reversed argmin, first element: `min(f(x)[0], rx)` — here the `y0`
binding is the bare `rx`, which also occurs inside the `y1` binding. -/
def ram0 : Expr := .min (fcall 0) vrx

/-- Reversed argmin, second element:
`select(f(x)[0] < rx, f(x)[1], g(rx)[0])`. -/
def ram1 : Expr := .select (.lt (fcall 0) vrx) (fcall 1) (gcall 0)

/-- The reversed-argmin update tuple. -/
def ramInput : List Expr := [ram0, ram1]

/-! ## Shorthand for the fresh names generated in the concrete runs -/

/-- The fresh x-variable of tuple index 0 in a run started at counter 0. -/
def x0v : Expr := .var .i32 "_x_0.0"

/-- The fresh y-variable of tuple index 0 in a run started at counter 0. -/
def y0v : Expr := .var .i32 "_y_0.1"

/-- The fresh x-variable of tuple index 1 in a run started at counter 0. -/
def x1v : Expr := .var .i32 "_x_1.2"

/-- The fresh y-variable of tuple index 1 in a run started at counter 0. -/
def y1v : Expr := .var .i32 "_y_1.3"

/-- A base environment mapping every variable to 1 (used to give the
spectator variables of a tuple pattern a concrete value). -/
def env1 : String → Int := fun _ => 1

/-- The first complex-multiplication operator as rebuilt by the prover:
`_x_0 * _y_0 - _x_1 * _y_1`. -/
def cmOp0 : Expr := .sub (.mul x0v y0v) (.mul x1v y1v)

/-- A canonicalised `Sub` element `_x_0 - 1`. -/
def subE : Expr := .sub (.var .i32 "_x_0") (.intImm .i32 1)

/-! # Theorems -/

/-! ## C5 — the transitive-closure step -/

/-- C5: refuted as stated; the code is at fault.  The claim says the
computed `reach(i)` contains every index reachable from `i` through any
chain of dependencies.  In `add_transitive_dependencies` the insertion
branch assigns `change = false` instead of `change = true`, so the
`while (change)` loop executes exactly once, and a single in-place pass
misses chains that run against the scan order.  Concretely, for the
dependency rows `[{3}, {2}, {0}, {}]` the chain `1 → 2 → 0 → 3` makes 3
reachable from 1 (witnessed by the three membership conjuncts), yet the
computed row of index 1 is `{0, 2}`, which does not contain 3. -/
theorem c5_single_pass_misses_transitive_dependency :
    addTransitiveDependencies [[3], [2], [0], []] = [[3], [0, 2], [0, 3], []] ∧
    2 ∈ ([[3], [2], [0], []] : List (List Nat)).getD 1 [] ∧
    0 ∈ ([[3], [2], [0], []] : List (List Nat)).getD 2 [] ∧
    3 ∈ ([[3], [2], [0], []] : List (List Nat)).getD 0 [] ∧
    3 ∉ (addTransitiveDependencies [[3], [2], [0], []]).getD 1 [] := by decide

/-! ## C6 — minimal-subgraph extraction -/

/-- C6: refuted as stated; the code is at fault.  The claim says a
retained subgraph is never a proper subset of any other `reach(j)`,
regardless of the relative order of `i` and `j`.  The skip condition of
`compute_subgraphs` reads `j < i && subgraphs[i].empty()` — but
`subgraphs[i]` is the row currently being decided, which is always still
empty at that point, so every comparison with `j < i` is skipped
(the intended guard is plainly `subgraphs[j].empty()`, matching the
function's own comment "If a subgraph is fully contained in another
subgraph, remove it from the final output").  Concretely, on rows
`[{0,1}, {1}]` the row `{1}` is retained even though it is a proper
subset of `reach(0) = {0,1}`. -/
theorem c6_contained_subgraph_retained :
    computeSubgraphs [[0, 1], [1]] = [[0, 1], [1]] ∧
    (∀ k ∈ ([1] : List Nat), k ∈ ([0, 1] : List Nat)) ∧
    ([1] : List Nat) ≠ [0, 1] := by decide

/-! ## C8 — determinism -/

/-- C8 counterexample: the claim demands that two invocations with the
same inputs yield structurally equal results *including the fresh
variable names*.  The fresh names come from the process-wide
`unique_name` generator, so a second invocation (starting from the
counter state the first one left behind) stores different names in
`xs[0].var`/`ys[0].var`, and on the update `f(x) = f(x) + g(rx)` the two
associative results are not structurally equal. -/
theorem c8_fresh_names_differ_across_invocations :
    (proveAssociativity idExt 0 "f" [vx] addInput).1.is_associative = true ∧
    (proveAssociativity idExt (proveAssociativity idExt 0 "f" [vx] addInput).2
      "f" [vx] addInput).1.is_associative = true ∧
    (proveAssociativity idExt 0 "f" [vx] addInput).1 ≠
      (proveAssociativity idExt (proveAssociativity idExt 0 "f" [vx] addInput).2
        "f" [vx] addInput).1 := by decide

/-- C8 as amended: the prover is deterministic relative to the
fresh-name generator state — it is a pure function of the inputs
together with that state, so two invocations from equal generator states
yield structurally equal results (invocations that advance the
process-wide generator differ exactly in the fresh names, as the
counterexample shows). -/
theorem c8_amended_deterministic_given_generator_state (ext : Externals)
    (c c' : Nat) (f : String) (args exprs : List Expr) (h : c = c') :
    proveAssociativity ext c f args exprs = proveAssociativity ext c' f args exprs := by
  rw [h]

/-- Witness for `c8_amended_deterministic_given_generator_state` at a
concrete input. -/
theorem c8_amended_witness :
    (0 : Nat) = 0 ∧
    proveAssociativity idExt 0 "f" [vx] addInput =
      proveAssociativity idExt 0 "f" [vx] addInput :=
  ⟨rfl, c8_amended_deterministic_given_generator_state idExt 0 0 "f" [vx] addInput rfl⟩

/-! ## C9 — the rebuild substitution of `find_match` -/

/-- C9 counterexample: the rebuild step of `find_match` is *not* a single
simultaneous substitution — it applies the `y`-binding substitutions one
after the other in ascending index order (`for (const auto &iter :
replacement) e = substitute(...)`).  On the reversed argmin update
`[min(f0, rx), select(f0 < rx, f1, g(rx))]` the bindings are
`y0 = rx` and `y1 = g(rx)[0]`; substituting `y0` first rewrites the
`rx` inside `g(rx)` so that the `y1` substitution finds nothing, and the
prover returns the operator `select(x0 < y0, x1, g(y0))`, whereas a
simultaneous substitution of both bindings yields
`select(x0 < y0, x1, y1)`. -/
theorem c9_rebuild_is_not_simultaneous_substitution :
    (proveAssociativity idExt 0 "f" [vx] ramInput).1.is_associative = true ∧
    (proveAssociativity idExt 0 "f" [vx] ramInput).1.pattern.ops.getD 1 none =
      some (.select (.lt x0v y0v) x1v (.call .i32 "g" (.cons y0v .nil) 0 .halide)) ∧
    simulSubst [(vrx, y0v), (gcall 0, y1v)]
        (.select (.lt x0v vrx) x1v (gcall 0)) =
      .select (.lt x0v y0v) x1v y1v ∧
    (proveAssociativity idExt 0 "f" [vx] ramInput).1.pattern.ops.getD 1 none ≠
      some (simulSubst [(vrx, y0v), (gcall 0, y1v)]
        (.select (.lt x0v vrx) x1v (gcall 0))) := by decide

/-- C9 as amended: when `find_match` rebuilds `pattern.ops[i]` after a
successful table match it replaces the matched `y`-binding occurrences
with the fresh `op_y_names` variables by *sequential* single
substitutions in ascending `y` index order; this ordering makes the
rebuilt operator correct in the argmin-style case, where the later
binding's expression (`y1 = rx`) occurs inside the earlier one's
(`y0 = g(rx)[0]`): on the argmin update the prover reconstructs exactly
the canonical operators `[min(x0, y0), select(x0 < y0, x1, y1)]` (and,
here, the sequential result coincides with a simultaneous
substitution). -/
theorem c9_amended_sequential_rebuild_argmin :
    (proveAssociativity idExt 0 "f" [vx] amInput).1.is_associative = true ∧
    (proveAssociativity idExt 0 "f" [vx] amInput).1.pattern.ops =
      [some (.min x0v y0v), some (.select (.lt x0v y0v) x1v y1v)] ∧
    (proveAssociativity idExt 0 "f" [vx] amInput).1.ys =
      [⟨"_y_0.1", some (gcall 0)⟩, ⟨"_y_1.3", some vrx⟩] ∧
    simulSubst [(gcall 0, y0v), (vrx, y1v)]
        (.select (.lt x0v (gcall 0)) x1v vrx) =
      .select (.lt x0v y0v) x1v y1v := by decide

/-! ## C2 — conditional self-reference -/

/-- C2 counterexample: the claim states that a self-call at the proved
`value_index` lexically inside the condition *or inside either branch*
of a `Select` makes the rewriter report the update unsolvable and the
prover return a non-associative result.  On the argmin element
`select(f(x)[0] < g(rx)[0], f(x)[1], rx)`, proved at `value_index = 1`,
the self-call `f(x)[1]` sits in the true branch; `ConvertSelfRef` keeps
`is_solvable = true`, rewrites the call to `_x_1` and records it as
`x_part`, and the whole argmin update is proved associative — the
repository's own `associativity_test` asserts this very result. -/
theorem c2_branch_self_reference_is_not_rejected :
    (convertSelfRef "f" (.cons vx .nil) 1 ["_x_0.0", "_x_1.2"] am1
      ConvState.init).2.is_solvable = true ∧
    (convertSelfRef "f" (.cons vx .nil) 1 ["_x_0.0", "_x_1.2"] am1
      ConvState.init).2.x_part = some (fcall 1) ∧
    (convertSelfRef "f" (.cons vx .nil) 1 ["_x_0.0", "_x_1.2"] am1
      ConvState.init).1 =
      .select (.lt x0v (gcall 0)) x1v vrx ∧
    (proveAssociativity idExt 0 "f" [vx] amInput).1.is_associative = true := by decide

/-! ## C4 — the `Sub` case of the single-element extractor -/

/-- C4 counterexample: the claim states that for a canonicalised element
`Sub(Variable(op_x), rhs)` the extractor emits `y = -rhs`.  On
`_x_0 - 1` the extractor does succeed with pattern `x + y`, identity `0`,
associative and not commutative — but it stores the y-replacement
`rhs` itself (`1`), not its negation: `visit_associative_binary_op`
assigns `assoc_op.ys[index] = {op_y, rhs}` unchanged (the repository's
own test expects `y = g(rx)`, unnegated, for `f(x) = f(x) - g(rx)`).
The final conjunct records that `1` is not semantically equal to `-1`,
so no negation of `rhs` can be involved. -/
theorem c4_sub_y_replacement_is_rhs_not_negated :
    extractAssociativeOpSingleElement 0 ["_x_0"] ["_y_0"] (some (fcall 0)) subE
      (AssociativeOp.mkSize 1) =
      (((true, false)),
       ⟨⟨[some (.add (.var .i32 "_x_0") (.var .i32 "_y_0"))],
         [some (makeConst .i32 0)], false⟩,
        [⟨"_x_0", some (fcall 0)⟩],
        [⟨"_y_0", some (.intImm .i32 1)⟩], false⟩) ∧
    evalE orc0 env0 (.intImm .i32 1) ≠ -evalE orc0 env0 (.intImm .i32 1) := by decide

/-! ## C1 — associativity of the returned operators -/

/-- C1 counterexample: the claim asserts that whenever the prover returns
`is_associative == true`, each `pattern.ops[i]` — read as a *binary*
operator in the index's own `xs[i].var`/`ys[i].var` after substituting
fresh `x`/`y` — is associative.  On the complex-multiplication update
(spec §8 scenario 5, asserted by the repository's `associativity_test`)
the prover succeeds with `pattern.ops[0] = _x_0*_y_0 - _x_1*_y_1`;
substituting only `_x_0 → a` and `_y_0 → b` leaves `_x_1*_y_1` as a free
spectator, and with the spectators set to 1 the operator
`a·b − 1` is not associative: `((0 ∘ 0) ∘ 1) = -2` but
`(0 ∘ (0 ∘ 1)) = -1`.  The two sides differ semantically, so no sound
simplifier can identify them; per-index associativity fails for joint
tuple patterns. -/
theorem c1_per_index_associativity_fails_on_complex_mult :
    (proveAssociativity idExt 0 "f" [vx] cmInput).1.is_associative = true ∧
    (proveAssociativity idExt 0 "f" [vx] cmInput).1.pattern.ops.getD 0 none =
      some cmOp0 ∧
    (proveAssociativity idExt 0 "f" [vx] cmInput).1.xs.getD 0 ⟨"", none⟩ =
      ⟨"_x_0.0", some (fcall 0)⟩ ∧
    (proveAssociativity idExt 0 "f" [vx] cmInput).1.ys.getD 0 ⟨"", none⟩ =
      ⟨"_y_0.1", some (gcall 0)⟩ ∧
    opApply orc0 env1 "_x_0.0" "_y_0.1" cmOp0
        (opApply orc0 env1 "_x_0.0" "_y_0.1" cmOp0 0 0) 1 ≠
      opApply orc0 env1 "_x_0.0" "_y_0.1" cmOp0 0
        (opApply orc0 env1 "_x_0.0" "_y_0.1" cmOp0 0 1) := by decide

/-! ## C7 — failure collapses to the default result -/

/-- Every successful result of `proveCore` carries
`is_associative = true` (both success branches set the flag). -/
theorem proveCore_some_associative (ext : Externals) (f : String)
    (args exprs : List Expr) (nxs nys : List String) (a : AssociativeOp)
    (h : proveCore ext f args exprs nxs nys = some a) :
    a.is_associative = true := by
  unfold proveCore at h
  simp only [] at h
  split at h
  · exact absurd h (by simp)
  · split at h
    · split at h
      · exact absurd h (by simp)
      · simp only [Option.some.injEq] at h
        subst h
        rfl
    · split at h
      · exact absurd h (by simp)
      · simp only [Option.some.injEq] at h
        subst h
        rfl

/-- C7: confirmed.  Every failure mode of the prover — unsolvable
self-reference, self-call with different arguments, conditional
self-reference, no matching pattern, a subgraph of more than two tuple
indices, or a cross-subgraph merge conflict — is an early `none` of
`proveCore`, and the orchestrator then returns exactly the default
`AssociativeOp()` with `is_associative = false`; no partially filled
associative result can escape, because every successful result has the
flag set.  (Fatal `internal_assert`s concern malformed IR only and are
outside the embedded fragment.) -/
theorem c7_failure_returns_default (ext : Externals) (c : Nat) (f : String)
    (args exprs : List Expr)
    (h : (proveAssociativity ext c f args exprs).1.is_associative = false) :
    (proveAssociativity ext c f args exprs).1 = AssociativeOp.dflt := by
  unfold proveAssociativity at h ⊢
  simp only [] at h ⊢
  rcases hcore : proveCore ext f args exprs (genNames ext exprs.length c).1
      (genNames ext exprs.length c).2.1 with _ | a
  · simp [hcore]
  · rw [hcore] at h
    simp only at h
    have := proveCore_some_associative ext f args exprs _ _ a hcore
    rw [this] at h
    exact absurd h (by simp)

/-- Witness for `c7_failure_returns_default`: the update
`f(x) = select(f(x) < g(rx), f(x), g(rx))` has a self-call at the proved
index inside a `Select` condition, a failure mode; the result is the
default non-associative value. -/
theorem c7_failure_returns_default_witness :
    (proveAssociativity idExt 0 "f" [vx]
        [.select (.lt (fcall 0) (gcall 0)) (fcall 0) (gcall 0)]).1.is_associative
      = false ∧
    (proveAssociativity idExt 0 "f" [vx]
        [.select (.lt (fcall 0) (gcall 0)) (fcall 0) (gcall 0)]).1 =
      AssociativeOp.dflt :=
  ⟨by decide,
   c7_failure_returns_default idExt 0 "f" [vx]
     [.select (.lt (fcall 0) (gcall 0)) (fcall 0) (gcall 0)] (by decide)⟩

/-! ## Lemmas about the self-reference rewriter -/

mutual

/-- Once `is_solvable` is false it stays false: nothing in the rewriter
resets it. -/
theorem convert_solvable_persists (func : String) (largs : ExprList) (idx : Nat)
    (names : List String) :
    ∀ (e : Expr) (s : ConvState), s.is_solvable = false →
      ((convertSelfRef func largs idx names e s).2).is_solvable = false
  | .intImm _ _, s, h => h
  | .var _ _, s, h => h
  | .cast _ e, s, h => convert_solvable_persists func largs idx names e s h
  | .add a b, s, h =>
    convert_solvable_persists func largs idx names b _
      (convert_solvable_persists func largs idx names a s h)
  | .sub a b, s, h =>
    convert_solvable_persists func largs idx names b _
      (convert_solvable_persists func largs idx names a s h)
  | .mul a b, s, h =>
    convert_solvable_persists func largs idx names b _
      (convert_solvable_persists func largs idx names a s h)
  | .min a b, s, h =>
    convert_solvable_persists func largs idx names b _
      (convert_solvable_persists func largs idx names a s h)
  | .max a b, s, h =>
    convert_solvable_persists func largs idx names b _
      (convert_solvable_persists func largs idx names a s h)
  | .and a b, s, h =>
    convert_solvable_persists func largs idx names b _
      (convert_solvable_persists func largs idx names a s h)
  | .or a b, s, h =>
    convert_solvable_persists func largs idx names b _
      (convert_solvable_persists func largs idx names a s h)
  | .not a, s, h => convert_solvable_persists func largs idx names a s h
  | .lt a b, s, h =>
    convert_solvable_persists func largs idx names b _
      (convert_solvable_persists func largs idx names a s h)
  | .select c tv fv, s, h =>
    convert_solvable_persists func largs idx names fv _
      (convert_solvable_persists func largs idx names tv _
        (convert_solvable_persists func largs idx names c _ h))
  | .call t nm cargs vidx ct, s, h => by
    simp only [convertSelfRef, h, Bool.not_false, if_pos]

theorem convertArgs_solvable_persists (func : String) (largs : ExprList) (idx : Nat)
    (names : List String) :
    ∀ (as' : ExprList) (s : ConvState), s.is_solvable = false →
      ((convertSelfRefArgs func largs idx names as' s).2).is_solvable = false
  | .nil, _, h => h
  | .cons a as', s, h =>
    convertArgs_solvable_persists func largs idx names as' _
      (convert_solvable_persists func largs idx names a s h)

end

/-- Composition of the flag transformer of two sequentially visited
subtrees. -/
theorem bool_cond_comp (x y c : Bool) : (!y && (!x && c)) = (!(x || y) && c) := by
  cases x <;> cases y <;> cases c <;> rfl

mutual

/-- The `is_conditional` flag is written only by `visit(const Select*)`:
traversing a select-free expression leaves it unchanged (whatever the
expression does to the rest of the state). -/
theorem convert_cond_preserved (func : String) (largs : ExprList) (idx : Nat)
    (names : List String) :
    ∀ (e : Expr) (s : ConvState), e.hasSelect = false →
      ((convertSelfRef func largs idx names e s).2).is_conditional = s.is_conditional
  | .intImm _ _, _, _ => rfl
  | .var _ _, _, _ => rfl
  | .cast _ e, s, h =>
    convert_cond_preserved func largs idx names e s (by simpa [Expr.hasSelect] using h)
  | .add a b, s, h => by
    simp only [Expr.hasSelect, Bool.or_eq_false_iff] at h
    have ia := convert_cond_preserved func largs idx names a s h.1
    have ib := convert_cond_preserved func largs idx names b
      ((convertSelfRef func largs idx names a s).2) h.2
    simp only [convertSelfRef]
    rw [ib, ia]
  | .sub a b, s, h => by
    simp only [Expr.hasSelect, Bool.or_eq_false_iff] at h
    have ia := convert_cond_preserved func largs idx names a s h.1
    have ib := convert_cond_preserved func largs idx names b
      ((convertSelfRef func largs idx names a s).2) h.2
    simp only [convertSelfRef]
    rw [ib, ia]
  | .mul a b, s, h => by
    simp only [Expr.hasSelect, Bool.or_eq_false_iff] at h
    have ia := convert_cond_preserved func largs idx names a s h.1
    have ib := convert_cond_preserved func largs idx names b
      ((convertSelfRef func largs idx names a s).2) h.2
    simp only [convertSelfRef]
    rw [ib, ia]
  | .min a b, s, h => by
    simp only [Expr.hasSelect, Bool.or_eq_false_iff] at h
    have ia := convert_cond_preserved func largs idx names a s h.1
    have ib := convert_cond_preserved func largs idx names b
      ((convertSelfRef func largs idx names a s).2) h.2
    simp only [convertSelfRef]
    rw [ib, ia]
  | .max a b, s, h => by
    simp only [Expr.hasSelect, Bool.or_eq_false_iff] at h
    have ia := convert_cond_preserved func largs idx names a s h.1
    have ib := convert_cond_preserved func largs idx names b
      ((convertSelfRef func largs idx names a s).2) h.2
    simp only [convertSelfRef]
    rw [ib, ia]
  | .and a b, s, h => by
    simp only [Expr.hasSelect, Bool.or_eq_false_iff] at h
    have ia := convert_cond_preserved func largs idx names a s h.1
    have ib := convert_cond_preserved func largs idx names b
      ((convertSelfRef func largs idx names a s).2) h.2
    simp only [convertSelfRef]
    rw [ib, ia]
  | .or a b, s, h => by
    simp only [Expr.hasSelect, Bool.or_eq_false_iff] at h
    have ia := convert_cond_preserved func largs idx names a s h.1
    have ib := convert_cond_preserved func largs idx names b
      ((convertSelfRef func largs idx names a s).2) h.2
    simp only [convertSelfRef]
    rw [ib, ia]
  | .not a, s, h =>
    convert_cond_preserved func largs idx names a s (by simpa [Expr.hasSelect] using h)
  | .lt a b, s, h => by
    simp only [Expr.hasSelect, Bool.or_eq_false_iff] at h
    have ia := convert_cond_preserved func largs idx names a s h.1
    have ib := convert_cond_preserved func largs idx names b
      ((convertSelfRef func largs idx names a s).2) h.2
    simp only [convertSelfRef]
    rw [ib, ia]
  | .select _ _ _, _, h => by simp [Expr.hasSelect] at h
  | .call t nm cargs vidx ct, s, h => by
    simp only [Expr.hasSelect] at h
    have ia := convertArgs_cond_preserved func largs idx names cargs s h
    by_cases hs : s.is_solvable
    · simp only [convertSelfRef, hs, Bool.not_true, Bool.false_eq_true, if_false]
      split
      · split
        · exact ia
        · split
          · split
            · exact ia
            · exact ia
          · exact ia
      · exact ia
    · have hs' : s.is_solvable = false := by simpa using hs
      simp [convertSelfRef, hs']

theorem convertArgs_cond_preserved (func : String) (largs : ExprList) (idx : Nat)
    (names : List String) :
    ∀ (as' : ExprList) (s : ConvState), ExprList.hasSelect as' = false →
      ((convertSelfRefArgs func largs idx names as' s).2).is_conditional = s.is_conditional
  | .nil, _, _ => rfl
  | .cons a as', s, h => by
    simp only [ExprList.hasSelect, Bool.or_eq_false_iff] at h
    have ia := convert_cond_preserved func largs idx names a s h.1
    have ias := convertArgs_cond_preserved func largs idx names as'
      ((convertSelfRef func largs idx names a s).2) h.2
    simp only [convertSelfRefArgs]
    rw [ias, ia]

end

mutual

/-- Traversing an expression with no Halide call to `func` rewrites
nothing: the expression comes back unchanged and the state is untouched
except for the `is_conditional` flag, which is cleared when the
expression contains a `Select`. -/
theorem convert_skips_foreign (func : String) (largs : ExprList) (idx : Nat)
    (names : List String) :
    ∀ (e : Expr) (s : ConvState), e.hasSelfCall func = false → s.is_solvable = true →
      convertSelfRef func largs idx names e s =
        (e, { s with is_conditional := !e.hasSelect && s.is_conditional })
  | .intImm t v, s, _, _ => by simp [convertSelfRef, Expr.hasSelect]
  | .var t n, s, _, _ => by simp [convertSelfRef, Expr.hasSelect]
  | .cast t e, s, h, hs => by
    have ie := convert_skips_foreign func largs idx names e s
      (by simpa [Expr.hasSelfCall] using h) hs
    simp only [convertSelfRef, ie, Expr.hasSelect]
  | .add a b, s, h, hs => by
    simp only [Expr.hasSelfCall, Bool.or_eq_false_iff] at h
    have ia := convert_skips_foreign func largs idx names a s h.1 hs
    have ib := convert_skips_foreign func largs idx names b
      ((convertSelfRef func largs idx names a s).2) h.2 (by rw [ia]; exact hs)
    simp only [ia] at ib
    simp only [convertSelfRef, ia, ib, Expr.hasSelect]
    rw [bool_cond_comp]
  | .sub a b, s, h, hs => by
    simp only [Expr.hasSelfCall, Bool.or_eq_false_iff] at h
    have ia := convert_skips_foreign func largs idx names a s h.1 hs
    have ib := convert_skips_foreign func largs idx names b
      ((convertSelfRef func largs idx names a s).2) h.2 (by rw [ia]; exact hs)
    simp only [ia] at ib
    simp only [convertSelfRef, ia, ib, Expr.hasSelect]
    rw [bool_cond_comp]
  | .mul a b, s, h, hs => by
    simp only [Expr.hasSelfCall, Bool.or_eq_false_iff] at h
    have ia := convert_skips_foreign func largs idx names a s h.1 hs
    have ib := convert_skips_foreign func largs idx names b
      ((convertSelfRef func largs idx names a s).2) h.2 (by rw [ia]; exact hs)
    simp only [ia] at ib
    simp only [convertSelfRef, ia, ib, Expr.hasSelect]
    rw [bool_cond_comp]
  | .min a b, s, h, hs => by
    simp only [Expr.hasSelfCall, Bool.or_eq_false_iff] at h
    have ia := convert_skips_foreign func largs idx names a s h.1 hs
    have ib := convert_skips_foreign func largs idx names b
      ((convertSelfRef func largs idx names a s).2) h.2 (by rw [ia]; exact hs)
    simp only [ia] at ib
    simp only [convertSelfRef, ia, ib, Expr.hasSelect]
    rw [bool_cond_comp]
  | .max a b, s, h, hs => by
    simp only [Expr.hasSelfCall, Bool.or_eq_false_iff] at h
    have ia := convert_skips_foreign func largs idx names a s h.1 hs
    have ib := convert_skips_foreign func largs idx names b
      ((convertSelfRef func largs idx names a s).2) h.2 (by rw [ia]; exact hs)
    simp only [ia] at ib
    simp only [convertSelfRef, ia, ib, Expr.hasSelect]
    rw [bool_cond_comp]
  | .and a b, s, h, hs => by
    simp only [Expr.hasSelfCall, Bool.or_eq_false_iff] at h
    have ia := convert_skips_foreign func largs idx names a s h.1 hs
    have ib := convert_skips_foreign func largs idx names b
      ((convertSelfRef func largs idx names a s).2) h.2 (by rw [ia]; exact hs)
    simp only [ia] at ib
    simp only [convertSelfRef, ia, ib, Expr.hasSelect]
    rw [bool_cond_comp]
  | .or a b, s, h, hs => by
    simp only [Expr.hasSelfCall, Bool.or_eq_false_iff] at h
    have ia := convert_skips_foreign func largs idx names a s h.1 hs
    have ib := convert_skips_foreign func largs idx names b
      ((convertSelfRef func largs idx names a s).2) h.2 (by rw [ia]; exact hs)
    simp only [ia] at ib
    simp only [convertSelfRef, ia, ib, Expr.hasSelect]
    rw [bool_cond_comp]
  | .lt a b, s, h, hs => by
    simp only [Expr.hasSelfCall, Bool.or_eq_false_iff] at h
    have ia := convert_skips_foreign func largs idx names a s h.1 hs
    have ib := convert_skips_foreign func largs idx names b
      ((convertSelfRef func largs idx names a s).2) h.2 (by rw [ia]; exact hs)
    simp only [ia] at ib
    simp only [convertSelfRef, ia, ib, Expr.hasSelect]
    rw [bool_cond_comp]
  | .not a, s, h, hs => by
    have ia := convert_skips_foreign func largs idx names a s
      (by simpa [Expr.hasSelfCall] using h) hs
    simp only [convertSelfRef, ia, Expr.hasSelect]
  | .select c tv fv, s, h, hs => by
    simp only [Expr.hasSelfCall, Bool.or_eq_false_iff] at h
    have ic := convert_skips_foreign func largs idx names c
      { s with is_conditional := true } h.1.1 hs
    have it := convert_skips_foreign func largs idx names tv
      { (convertSelfRef func largs idx names c { s with is_conditional := true }).2 with
        is_conditional := false } h.1.2 (by simp only [ic]; exact hs)
    simp only [ic] at it
    have ifv := convert_skips_foreign func largs idx names fv
      ((convertSelfRef func largs idx names tv
        { (convertSelfRef func largs idx names c { s with is_conditional := true }).2 with
          is_conditional := false }).2) h.2
      (by simp only [ic, it]; exact hs)
    simp only [ic, it] at ifv
    simp only [convertSelfRef, ic, it, ifv, Expr.hasSelect]
    simp
  | .call t nm cargs vidx ct, s, h, hs => by
    simp only [Expr.hasSelfCall, Bool.or_eq_false_iff, Bool.and_eq_false_iff,
      decide_eq_false_iff_not] at h
    have ia := convertArgs_skips_foreign func largs idx names cargs s h.2 hs
    have hne : ¬(ct = CallType.halide ∧ func = nm) := by
      rcases h.1 with h1 | h1
      · exact fun hc => h1 hc.1
      · exact fun hc => h1 hc.2.symm
    simp only [convertSelfRef, hs, ia]
    rw [if_neg (by simp), if_neg hne]
    simp [Expr.hasSelect]

theorem convertArgs_skips_foreign (func : String) (largs : ExprList) (idx : Nat)
    (names : List String) :
    ∀ (as' : ExprList) (s : ConvState), ExprList.hasSelfCall as' func = false →
      s.is_solvable = true →
      convertSelfRefArgs func largs idx names as' s =
        (as', { s with is_conditional := !ExprList.hasSelect as' && s.is_conditional })
  | .nil, s, _, _ => by simp [convertSelfRefArgs, ExprList.hasSelect]
  | .cons a as', s, h, hs => by
    simp only [ExprList.hasSelfCall, Bool.or_eq_false_iff] at h
    have ia := convert_skips_foreign func largs idx names a s h.1 hs
    have ias := convertArgs_skips_foreign func largs idx names as'
      ((convertSelfRef func largs idx names a s).2) h.2 (by rw [ia]; exact hs)
    simp only [ia] at ias
    simp only [convertSelfRefArgs, ia, ias, ExprList.hasSelect]
    rw [bool_cond_comp]

end

/-- C2 as amended: a self-call at the proved `value_index` that the
visitor meets while the `is_conditional` flag is set — i.e. lexically
inside the *condition* of a `Select` (and not shielded by the branches
of a further nested `Select`) — renders the update unsolvable; self-calls
in the branches of a `Select` are rewritten normally (see the
counterexample).  Stated for a `Select` whose condition is the self-call
itself, with arbitrary branches: whatever `tb`/`fb` contain, the
rewriter reports `is_solvable = false`.  The only side condition is that
the call's own argument vector contains no `Select` (otherwise the
leaked flag can mask even a condition-position self-call). -/
theorem c2_amended_condition_self_reference_rejected (func : String) (t : Ty)
    (largs cargs : ExprList) (idx : Nat) (names : List String) (tb fb : Expr)
    (hsel : ExprList.hasSelect cargs = false) :
    ((convertSelfRef func largs idx names
        (.select (.call t func cargs idx .halide) tb fb) ConvState.init).2).is_solvable
      = false := by
  have hcall : ((convertSelfRef func largs idx names
      (.call t func cargs idx .halide)
      ⟨true, true, [], none⟩).2).is_solvable = false := by
    have hcond := convertArgs_cond_preserved func largs idx names cargs
      ⟨true, true, [], none⟩ hsel
    simp only [convertSelfRef]
    rw [if_neg (by simp)]
    rw [if_pos (by simp)]
    rw [if_pos (by simp [hcond])]
  have h1 := convert_solvable_persists func largs idx names tb
    ({ (convertSelfRef func largs idx names
        (.call t func cargs idx .halide) ⟨true, true, [], none⟩).2 with
      is_conditional := false }) hcall
  have h2 := convert_solvable_persists func largs idx names fb
    ((convertSelfRef func largs idx names tb
      { (convertSelfRef func largs idx names
          (.call t func cargs idx .halide) ⟨true, true, [], none⟩).2 with
        is_conditional := false }).2) h1
  simpa only [convertSelfRef] using h2

/-- Witness for `c2_amended_condition_self_reference_rejected`:
`select(f(x) < y, y, z)` proved at index 0 is reported unsolvable. -/
theorem c2_amended_witness :
    ExprList.hasSelect (.cons vx .nil) = false ∧
    ((convertSelfRef "f" (.cons vx .nil) 0 ["_x_0"]
        (.select (.call .i32 "f" (.cons vx .nil) 0 .halide) vy vz)
        ConvState.init).2).is_solvable = false :=
  ⟨by decide,
   c2_amended_condition_self_reference_rejected "f" .i32 (.cons vx .nil)
     (.cons vx .nil) 0 ["_x_0"] vy vz (by decide)⟩

/-! ## C10 — cross-index self-calls inside a Select condition -/

/-- C10: confirmed.  A self-call at a *different* tuple index `j ≠ i`
(with arguments structurally equal to the left-hand-side arguments)
sitting in the condition of a `Select` is not a failure: the rewriter
substitutes it with `Variable(op_x_names[j])` and inserts `j` into
`x_dependencies`, leaving `is_solvable = true` and `x_part` undefined —
only a conditional self-call at the index currently being proved is
rejected.  Stated for a `Select` whose condition is the cross-index
self-call and whose branches are free of self-calls. -/
theorem c10_cross_index_conditional_self_call_allowed (func : String) (t : Ty)
    (largs : ExprList) (idx j : Nat) (names : List String) (tb fb : Expr)
    (hj : j ≠ idx)
    (hargs : ExprList.hasSelfCall largs func = false)
    (ht : tb.hasSelfCall func = false) (hf : fb.hasSelfCall func = false) :
    convertSelfRef func largs idx names
        (.select (.call t func largs j .halide) tb fb) ConvState.init =
      (.select (.var t (names.getD j "")) tb fb,
       ⟨false, true, [j], none⟩) := by
  have hcall : convertSelfRef func largs idx names
      (.call t func largs j .halide) ⟨true, true, [], none⟩ =
      (.var t (names.getD j ""),
       ⟨!ExprList.hasSelect largs && true, true, [j], none⟩) := by
    have ia := convertArgs_skips_foreign func largs idx names largs
      ⟨true, true, [], none⟩ hargs rfl
    simp only [convertSelfRef, ia]
    rw [if_neg (by simp)]
    rw [if_pos (by simp)]
    rw [if_neg (by exact fun hc => hj hc.2)]
    rw [if_pos (by simp)]
    rw [if_neg hj]
    rfl
  have it := convert_skips_foreign func largs idx names tb
    ⟨false, true, [j], none⟩ ht rfl
  have ifv := convert_skips_foreign func largs idx names fb
    ((convertSelfRef func largs idx names tb ⟨false, true, [j], none⟩).2) hf
    (by rw [it])
  simp only [it] at ifv
  rw [convertSelfRef.eq_def]
  simp only [ConvState.init]
  rw [hcall]
  simp only [it, ifv]
  simp

/-- Witness for `c10_cross_index_conditional_self_call_allowed`:
`select(f(x)[1], y, z)` proved at index 0 rewrites the conditional
cross-index self-call to `_x_1` and records the dependency. -/
theorem c10_witness :
    (1 : Nat) ≠ 0 ∧
    ExprList.hasSelfCall (.cons vx .nil) "f" = false ∧
    Expr.hasSelfCall vy "f" = false ∧
    Expr.hasSelfCall vz "f" = false ∧
    convertSelfRef "f" (.cons vx .nil) 0 ["_x_0", "_x_1"]
        (.select (.call .i32 "f" (.cons vx .nil) 1 .halide) vy vz)
        ConvState.init =
      (.select (.var .i32 "_x_1") vy vz, ⟨false, true, [1], none⟩) :=
  ⟨by decide, by decide, by decide, by decide,
   c10_cross_index_conditional_self_call_allowed "f" .i32 (.cons vx .nil) 0 1
     ["_x_0", "_x_1"] vy vz (by decide) (by decide) (by decide) (by decide)⟩

/-- `(l.set i a).getD i d = a` when the index is in bounds. -/
theorem getD_set_lt {α : Type} (l : List α) (i : Nat) (a d : α)
    (h : i < l.length) : (l.set i a).getD i d = a := by
  simp [List.getD_eq_getElem?_getD, List.getElem?_set_self', h]

/-- `visit_associative_binary_op` never touches `pattern`: every branch
leaves `assoc_op.pattern` as it found it (only `xs`/`ys` are written). -/
theorem visit_pattern_preserved (isSub : Bool) (index : Nat) (op_x op_y : String)
    (xp : Option Expr) (lhs rhs : Expr) (assoc0 : AssociativeOp) :
    ((visitAssociativeBinaryOp isSub index op_x op_y xp lhs rhs assoc0).2).pattern =
      assoc0.pattern := by
  unfold visitAssociativeBinaryOp
  cases lhs <;> dsimp only <;> first
    | rfl
    | (split_ifs <;> rfl)

/-- On a single element the table fallback is the identity: the
single-element table is empty, so `find_match` fails and the structural
result passes through unchanged. -/
theorem extractFallback_eq (e : Expr) (op_x op_y : String) (xp : Option Expr)
    (index : Nat) (step : (Bool × Bool) × AssociativeOp) :
    extractFallback e op_x op_y xp index step = step := by
  unfold extractFallback
  simp only [getOpsTable, findMatch, findMatchGo, List.length_cons,
    List.length_nil]
  split
  · rfl
  · rfl

/-- C4 as amended: for a canonicalised single element
`Sub(Variable(op_x), rhs)` with `rhs` free of `op_x`, the extractor
succeeds and emits the canonical pattern `x + y` with identity `0`,
reporting the result associative but *not* commutative — and the
y-replacement expression is `rhs` itself (not its negation, which the
counterexample shows the code never forms). -/
theorem c4_amended_sub_extraction (tv : Ty) (index n : Nat)
    (nxs nys : List String) (xp rhs : Expr)
    (hlen : index < n)
    (hfree : rhs.usesVar (nxs.getD index "") = false) :
    (extractAssociativeOpSingleElement index nxs nys (some xp)
        (.sub (.var tv (nxs.getD index "")) rhs) (AssociativeOp.mkSize n)).1 =
      (true, false) ∧
    ((extractAssociativeOpSingleElement index nxs nys (some xp)
        (.sub (.var tv (nxs.getD index "")) rhs)
        (AssociativeOp.mkSize n)).2).pattern.ops.getD index none =
      some (.add (.var tv (nxs.getD index "")) (.var tv (nys.getD index ""))) ∧
    ((extractAssociativeOpSingleElement index nxs nys (some xp)
        (.sub (.var tv (nxs.getD index "")) rhs)
        (AssociativeOp.mkSize n)).2).pattern.identities.getD index none =
      some (makeConst tv 0) ∧
    ((extractAssociativeOpSingleElement index nxs nys (some xp)
        (.sub (.var tv (nxs.getD index "")) rhs)
        (AssociativeOp.mkSize n)).2).xs.getD index ⟨"", none⟩ =
      ⟨nxs.getD index "", some xp⟩ ∧
    ((extractAssociativeOpSingleElement index nxs nys (some xp)
        (.sub (.var tv (nxs.getD index "")) rhs)
        (AssociativeOp.mkSize n)).2).ys.getD index ⟨"", none⟩ =
      ⟨nys.getD index "", some rhs⟩ := by
  unfold extractAssociativeOpSingleElement
  simp only [visitAssociativeBinaryOp, AssociativeOp.setOpId, AssociativeOp.mkSize,
    Expr.ty]
  have hfree' : rhs.usesVar (nxs[index]?.getD "") = false := by simpa using hfree
  simp [hfree', getD_set_lt, hlen, extractFallback_eq]

/-- Witness for `c4_amended_sub_extraction` on `_x_0 - 1`. -/
theorem c4_amended_witness :
    (0 : Nat) < 1 ∧
    Expr.usesVar (.intImm .i32 1) (["_x_0"].getD 0 "") = false ∧
    (extractAssociativeOpSingleElement 0 ["_x_0"] ["_y_0"] (some (fcall 0))
        (.sub (.var .i32 (["_x_0"].getD 0 "")) (.intImm .i32 1))
        (AssociativeOp.mkSize 1)).1 = (true, false) :=
  ⟨by decide, by decide,
   (c4_amended_sub_extraction .i32 0 1 ["_x_0"] ["_y_0"] (fcall 0)
     (.intImm .i32 1) (by decide) (by decide)).1⟩

/-! ## C1 (amended) — associativity of the single-element operators -/

/-- Whenever the single-element extractor reports `is_associative`, the
operator it stored at `index` is one of the canonical shapes: the bare
`y` variable (no self-reference), or one of `x + y`, `x * y`,
`min(x, y)`, `max(x, y)`, `x && y`, `x || y` over the index's own
fresh variables (the single-element fallback table is empty, so the
structural recognisers are the only sources of a positive answer). -/
theorem extract_true_ops_shape (index : Nat) (nxs nys : List String)
    (xp : Option Expr) (e : Expr) (assoc : AssociativeOp)
    (res : (Bool × Bool) × AssociativeOp)
    (hlen : index < assoc.pattern.ops.length)
    (hres : extractAssociativeOpSingleElement index nxs nys xp e assoc = res)
    (h : res.1.1 = true) :
    ∃ t : Ty,
      res.2.pattern.ops.getD index none =
          some (.var t (nys.getD index "")) ∨
      res.2.pattern.ops.getD index none =
          some (.add (.var t (nxs.getD index "")) (.var t (nys.getD index ""))) ∨
      res.2.pattern.ops.getD index none =
          some (.mul (.var t (nxs.getD index "")) (.var t (nys.getD index ""))) ∨
      res.2.pattern.ops.getD index none =
          some (.min (.var t (nxs.getD index "")) (.var t (nys.getD index ""))) ∨
      res.2.pattern.ops.getD index none =
          some (.max (.var t (nxs.getD index "")) (.var t (nys.getD index ""))) ∨
      res.2.pattern.ops.getD index none =
          some (.and (.var t (nxs.getD index "")) (.var t (nys.getD index ""))) ∨
      res.2.pattern.ops.getD index none =
          some (.or (.var t (nxs.getD index "")) (.var t (nys.getD index ""))) := by
  unfold extractAssociativeOpSingleElement at hres
  rcases xp with _ | xp'
  · cases hres
    exact ⟨e.ty, Or.inl (getD_set_lt _ _ _ _ hlen)⟩
  · simp only [] at hres
    rw [extractFallback_eq] at hres
    cases e <;> simp only [] at hres <;>
      first
        | (cases hres
           simp at h
           done)
        | (rename_i a b
           refine ⟨a.ty, ?_⟩
           rw [← hres, visit_pattern_preserved]
           simp only [AssociativeOp.setOpId]
           rw [getD_set_lt _ _ _ _ hlen]
           simp [List.getD_eq_getElem?_getD, Expr.ty]
           done)
        | (refine ⟨Ty.uint 1, ?_⟩
           rw [← hres, visit_pattern_preserved]
           simp only [AssociativeOp.setOpId]
           rw [getD_set_lt _ _ _ _ hlen]
           simp [List.getD_eq_getElem?_getD, Expr.ty])

/-- Evaluating the trivial pattern `y` as a binary operator. -/
theorem opApply_var (orc : Oracle) (env : String → Int) (nx ny : String)
    (t : Ty) (a b : Int) :
    opApply orc env nx ny (.var t ny) a b = if ny = nx then a else b := by
  simp [opApply, evalE]

/-- Evaluating the pattern `x + y` as a binary operator. -/
theorem opApply_add (orc : Oracle) (env : String → Int) (nx ny : String)
    (t : Ty) (a b : Int) (hne : nx ≠ ny) :
    opApply orc env nx ny (.add (.var t nx) (.var t ny)) a b = a + b := by
  simp [opApply, evalE, Ne.symm hne]

/-- Evaluating the pattern `x * y` as a binary operator. -/
theorem opApply_mul (orc : Oracle) (env : String → Int) (nx ny : String)
    (t : Ty) (a b : Int) (hne : nx ≠ ny) :
    opApply orc env nx ny (.mul (.var t nx) (.var t ny)) a b = a * b := by
  simp [opApply, evalE, Ne.symm hne]

/-- Evaluating the pattern `min(x, y)` as a binary operator. -/
theorem opApply_min (orc : Oracle) (env : String → Int) (nx ny : String)
    (t : Ty) (a b : Int) (hne : nx ≠ ny) :
    opApply orc env nx ny (.min (.var t nx) (.var t ny)) a b = Min.min a b := by
  simp [opApply, evalE, Ne.symm hne]

/-- Evaluating the pattern `max(x, y)` as a binary operator. -/
theorem opApply_max (orc : Oracle) (env : String → Int) (nx ny : String)
    (t : Ty) (a b : Int) (hne : nx ≠ ny) :
    opApply orc env nx ny (.max (.var t nx) (.var t ny)) a b = Max.max a b := by
  simp [opApply, evalE, Ne.symm hne]

/-- Evaluating the pattern `x && y` as a binary operator. -/
theorem opApply_and (orc : Oracle) (env : String → Int) (nx ny : String)
    (t : Ty) (a b : Int) (hne : nx ≠ ny) :
    opApply orc env nx ny (.and (.var t nx) (.var t ny)) a b =
      if a ≠ 0 ∧ b ≠ 0 then 1 else 0 := by
  simp [opApply, evalE, Ne.symm hne]

/-- Evaluating the pattern `x || y` as a binary operator. -/
theorem opApply_or (orc : Oracle) (env : String → Int) (nx ny : String)
    (t : Ty) (a b : Int) (hne : nx ≠ ny) :
    opApply orc env nx ny (.or (.var t nx) (.var t ny)) a b =
      if a ≠ 0 ∨ b ≠ 0 then 1 else 0 := by
  simp [opApply, evalE, Ne.symm hne]

/-- Associativity of the 0/1-valued conjunction on integers. -/
theorem andSem_assoc (a b c : Int) :
    (if (if a ≠ 0 ∧ b ≠ 0 then (1 : Int) else 0) ≠ 0 ∧ c ≠ 0 then (1 : Int) else 0) =
      (if a ≠ 0 ∧ (if b ≠ 0 ∧ c ≠ 0 then (1 : Int) else 0) ≠ 0 then (1 : Int) else 0) := by
  by_cases ha : a = 0 <;> by_cases hb : b = 0 <;> by_cases hc : c = 0 <;>
    simp [ha, hb, hc]

/-- Associativity of the 0/1-valued disjunction on integers. -/
theorem orSem_assoc (a b c : Int) :
    (if (if a ≠ 0 ∨ b ≠ 0 then (1 : Int) else 0) ≠ 0 ∨ c ≠ 0 then (1 : Int) else 0) =
      (if a ≠ 0 ∨ (if b ≠ 0 ∨ c ≠ 0 then (1 : Int) else 0) ≠ 0 then (1 : Int) else 0) := by
  by_cases ha : a = 0 <;> by_cases hb : b = 0 <;> by_cases hc : c = 0 <;>
    simp [ha, hb, hc]

/-- C1 as amended: whenever the prover's *single-element extractor*
reports an element associative, the stored `pattern.ops[index]` — read
as a binary operator by substituting `a` for the index's own x-variable
and `b` for its y-variable — is semantically associative for every
interpretation of external calls and every base environment.  (The
counterexample shows the original per-index claim fails for joint tuple
patterns such as complex multiplication, whose per-index operators keep
the other indices' variables as free spectators; the operators produced
by the single-element extractor mention only the index's own variables,
and for them the claim holds.) -/
theorem c1_amended_single_element_ops_associative
    (index : Nat) (nxs nys : List String) (xp : Option Expr) (e : Expr)
    (assoc : AssociativeOp) (orc : Oracle) (env : String → Int) (a b c3 : Int)
    (hne : nxs.getD index "" ≠ nys.getD index "")
    (hlen : index < assoc.pattern.ops.length)
    (h : (extractAssociativeOpSingleElement index nxs nys xp e assoc).1.1 = true) :
    opApply orc env (nxs.getD index "") (nys.getD index "")
        ((((extractAssociativeOpSingleElement index nxs nys xp e assoc).2).pattern.ops.getD
            index none).getD (.intImm .i32 0))
        (opApply orc env (nxs.getD index "") (nys.getD index "")
          ((((extractAssociativeOpSingleElement index nxs nys xp e
              assoc).2).pattern.ops.getD index none).getD (.intImm .i32 0)) a b) c3 =
      opApply orc env (nxs.getD index "") (nys.getD index "")
        ((((extractAssociativeOpSingleElement index nxs nys xp e assoc).2).pattern.ops.getD
            index none).getD (.intImm .i32 0)) a
        (opApply orc env (nxs.getD index "") (nys.getD index "")
          ((((extractAssociativeOpSingleElement index nxs nys xp e
              assoc).2).pattern.ops.getD index none).getD (.intImm .i32 0)) b c3) := by
  obtain ⟨t, hs⟩ :=
    extract_true_ops_shape index nxs nys xp e assoc _ hlen rfl h
  rcases hs with hs | hs | hs | hs | hs | hs | hs <;>
    rw [hs] <;> simp only [Option.getD_some]
  · simp only [opApply_var]
    split_ifs <;> rfl
  · simp only [opApply_add _ _ _ _ _ _ _ hne]
    omega
  · simp only [opApply_mul _ _ _ _ _ _ _ hne]
    rw [mul_assoc]
  · simp only [opApply_min _ _ _ _ _ _ _ hne]
    rw [min_assoc]
  · simp only [opApply_max _ _ _ _ _ _ _ hne]
    rw [max_assoc]
  · simp only [opApply_and _ _ _ _ _ _ _ hne]
    rw [andSem_assoc]
  · simp only [opApply_or _ _ _ _ _ _ _ hne]
    rw [orSem_assoc]

/-- Witness for `c1_amended_single_element_ops_associative` on the
element `_x_0 + g`. -/
theorem c1_amended_witness :
    (["_x_0"].getD 0 "" ≠ ["_y_0"].getD 0 "") ∧
    (0 : Nat) < (AssociativeOp.mkSize 1).pattern.ops.length ∧
    (extractAssociativeOpSingleElement 0 ["_x_0"] ["_y_0"] (some (fcall 0))
        (.add (.var .i32 "_x_0") (.var .i32 "g")) (AssociativeOp.mkSize 1)).1.1 = true ∧
    opApply orc0 env0 (["_x_0"].getD 0 "") (["_y_0"].getD 0 "")
        ((((extractAssociativeOpSingleElement 0 ["_x_0"] ["_y_0"] (some (fcall 0))
            (.add (.var .i32 "_x_0") (.var .i32 "g"))
            (AssociativeOp.mkSize 1)).2).pattern.ops.getD 0 none).getD (.intImm .i32 0))
        (opApply orc0 env0 (["_x_0"].getD 0 "") (["_y_0"].getD 0 "")
          ((((extractAssociativeOpSingleElement 0 ["_x_0"] ["_y_0"] (some (fcall 0))
              (.add (.var .i32 "_x_0") (.var .i32 "g"))
              (AssociativeOp.mkSize 1)).2).pattern.ops.getD 0 none).getD
            (.intImm .i32 0)) 1 2) 3 =
      opApply orc0 env0 (["_x_0"].getD 0 "") (["_y_0"].getD 0 "")
        ((((extractAssociativeOpSingleElement 0 ["_x_0"] ["_y_0"] (some (fcall 0))
            (.add (.var .i32 "_x_0") (.var .i32 "g"))
            (AssociativeOp.mkSize 1)).2).pattern.ops.getD 0 none).getD (.intImm .i32 0)) 1
        (opApply orc0 env0 (["_x_0"].getD 0 "") (["_y_0"].getD 0 "")
          ((((extractAssociativeOpSingleElement 0 ["_x_0"] ["_y_0"] (some (fcall 0))
              (.add (.var .i32 "_x_0") (.var .i32 "g"))
              (AssociativeOp.mkSize 1)).2).pattern.ops.getD 0 none).getD
            (.intImm .i32 0)) 2 3) :=
  ⟨by decide, by decide, by decide,
   c1_amended_single_element_ops_associative 0 ["_x_0"] ["_y_0"] (some (fcall 0))
     (.add (.var .i32 "_x_0") (.var .i32 "g")) (AssociativeOp.mkSize 1) orc0 env0
     1 2 3 (by decide) (by decide) (by decide)⟩

/-! ## C3 — lemmas about the sorted-set representation -/

/-- `(l.set i a).getD m d = l.getD m d` off the written index. -/
theorem getD_set_ne {α : Type} (l : List α) (i m : Nat) (a d : α)
    (h : i ≠ m) : (l.set i a).getD m d = l.getD m d := by
  simp [List.getD_eq_getElem?_getD, List.getElem?_set_ne h]

/-- In-bounds `getD` yields a member. -/
theorem getD_mem {α : Type} (l : List α) (i : Nat) (d : α) (h : i < l.length) :
    l.getD i d ∈ l := by
  rw [List.getD_eq_getElem?_getD, List.getElem?_eq_getElem h]
  exact List.getElem_mem h

/-- Membership in `insertSorted`. -/
theorem mem_insertSorted {k x : Nat} : ∀ {l : List Nat},
    x ∈ insertSorted k l ↔ x = k ∨ x ∈ l
  | [] => by simp [insertSorted]
  | a :: as => by
    unfold insertSorted
    split_ifs with h1 h2
    · simp [or_comm, or_assoc]
    · subst h2
      simp only [List.mem_cons]
      tauto
    · simp only [List.mem_cons, @mem_insertSorted k x as]
      tauto

/-- `insertSorted` preserves strict sortedness. -/
theorem chain_insertSorted {k : Nat} : ∀ {l : List Nat},
    l.Chain' (· < ·) → (insertSorted k l).Chain' (· < ·)
  | [], _ => by simp [insertSorted]
  | a :: as, h => by
    unfold insertSorted
    rcases List.chain'_cons'.mp h with ⟨ha, has⟩
    split_ifs with h1 h2
    · exact List.chain'_cons.mpr ⟨h1, h⟩
    · exact h
    · refine List.chain'_cons'.mpr ⟨?_, chain_insertSorted has⟩
      intro y hy
      rcases as with _ | ⟨b, bs⟩
      · simp [insertSorted] at hy
        omega
      · unfold insertSorted at hy
        split_ifs at hy <;> simp_all <;> omega

/-- Membership in `unionSorted`. -/
theorem mem_unionSorted {x : Nat} : ∀ {src dst : List Nat},
    x ∈ unionSorted dst src ↔ x ∈ dst ∨ x ∈ src
  | [], dst => by simp [unionSorted]
  | s :: ss, dst => by
    show x ∈ unionSorted (insertSorted s dst) ss ↔ _
    rw [@mem_unionSorted x ss (insertSorted s dst)]
    rw [mem_insertSorted]
    simp only [List.mem_cons]
    tauto

/-- `unionSorted` preserves strict sortedness of the destination. -/
theorem chain_unionSorted : ∀ {src dst : List Nat},
    dst.Chain' (· < ·) → (unionSorted dst src).Chain' (· < ·)
  | [], _, h => h
  | s :: ss, dst, h =>
    @chain_unionSorted ss (insertSorted s dst) (chain_insertSorted h)

/-- In a strictly sorted list the last entry bounds every member. -/
theorem sorted_le_last : ∀ {l : List Nat}, l.Chain' (· < ·) →
    ∀ x ∈ l, x ≤ l.getD (l.length - 1) 0
  | [], _, x, hx => by simp at hx
  | [a], _, x, hx => by simp_all
  | a :: b :: bs, h, x, hx => by
    rcases List.chain'_cons.mp h with ⟨hab, hrest⟩
    rcases List.mem_cons.mp hx with rfl | hx
    · have hb := sorted_le_last hrest b (by simp)
      simpa using le_of_lt (lt_of_lt_of_le hab hb)
    · simpa using sorted_le_last hrest x hx

/-- A non-empty list contains its last entry. -/
theorem last_mem : ∀ {l : List Nat}, l ≠ [] → l.getD (l.length - 1) 0 ∈ l
  | [], h => absurd rfl h
  | [a], _ => by simp
  | a :: b :: bs, _ => by
    have := @last_mem (b :: bs) (by simp)
    simpa using Or.inr this

/-! ## Dependency and variable tracking through the rewriter -/

mutual

/-- The rewriter only adds to the dependency set. -/
theorem convert_deps_mono (func : String) (largs : ExprList) (idx : Nat)
    (names : List String) :
    ∀ (e : Expr) (s : ConvState) (k : Nat), k ∈ s.x_dependencies →
      k ∈ ((convertSelfRef func largs idx names e s).2).x_dependencies
  | .intImm _ _, _, _, h => h
  | .var _ _, _, _, h => h
  | .cast _ e, s, k, h => convert_deps_mono func largs idx names e s k h
  | .not a, s, k, h => convert_deps_mono func largs idx names a s k h
  | .add a b, s, k, h =>
    convert_deps_mono func largs idx names b _ k
      (convert_deps_mono func largs idx names a s k h)
  | .sub a b, s, k, h =>
    convert_deps_mono func largs idx names b _ k
      (convert_deps_mono func largs idx names a s k h)
  | .mul a b, s, k, h =>
    convert_deps_mono func largs idx names b _ k
      (convert_deps_mono func largs idx names a s k h)
  | .min a b, s, k, h =>
    convert_deps_mono func largs idx names b _ k
      (convert_deps_mono func largs idx names a s k h)
  | .max a b, s, k, h =>
    convert_deps_mono func largs idx names b _ k
      (convert_deps_mono func largs idx names a s k h)
  | .and a b, s, k, h =>
    convert_deps_mono func largs idx names b _ k
      (convert_deps_mono func largs idx names a s k h)
  | .or a b, s, k, h =>
    convert_deps_mono func largs idx names b _ k
      (convert_deps_mono func largs idx names a s k h)
  | .lt a b, s, k, h =>
    convert_deps_mono func largs idx names b _ k
      (convert_deps_mono func largs idx names a s k h)
  | .select c tv fv, s, k, h =>
    convert_deps_mono func largs idx names fv _ k
      (convert_deps_mono func largs idx names tv _ k
        (convert_deps_mono func largs idx names c _ k h))
  | .call t nm cargs vidx ct, s, k, h => by
    obtain ⟨e2, s2, hr⟩ : ∃ e2 s2,
        convertSelfRef func largs idx names (.call t nm cargs vidx ct) s = (e2, s2) :=
      ⟨_, _, rfl⟩
    rw [hr]
    rw [convertSelfRef.eq_def] at hr
    simp only [] at hr
    have hargs := convertArgs_deps_mono func largs idx names cargs s k h
    split at hr
    · injection hr with he hs
      subst hs
      exact h
    · split at hr
      · split at hr
        · injection hr with he hs
          subst hs
          exact hargs
        · split at hr
          · split at hr
            · injection hr with he hs
              subst hs
              exact hargs
            · injection hr with he hs
              subst hs
              exact mem_insertSorted.mpr (Or.inr hargs)
          · injection hr with he hs
            subst hs
            exact hargs
      · injection hr with he hs
        subst hs
        exact hargs

theorem convertArgs_deps_mono (func : String) (largs : ExprList) (idx : Nat)
    (names : List String) :
    ∀ (as' : ExprList) (s : ConvState) (k : Nat), k ∈ s.x_dependencies →
      k ∈ ((convertSelfRefArgs func largs idx names as' s).2).x_dependencies
  | .nil, _, _, h => h
  | .cons a as', s, k, h =>
    convertArgs_deps_mono func largs idx names as' _ k
      (convert_deps_mono func largs idx names a s k h)

end

mutual

/-- Once `x_part` is recorded it stays recorded. -/
theorem convert_xpart_mono (func : String) (largs : ExprList) (idx : Nat)
    (names : List String) :
    ∀ (e : Expr) (s : ConvState), s.x_part.isSome = true →
      ((convertSelfRef func largs idx names e s).2).x_part.isSome = true
  | .intImm _ _, _, h => h
  | .var _ _, _, h => h
  | .cast _ e, s, h => convert_xpart_mono func largs idx names e s h
  | .not a, s, h => convert_xpart_mono func largs idx names a s h
  | .add a b, s, h =>
    convert_xpart_mono func largs idx names b _
      (convert_xpart_mono func largs idx names a s h)
  | .sub a b, s, h =>
    convert_xpart_mono func largs idx names b _
      (convert_xpart_mono func largs idx names a s h)
  | .mul a b, s, h =>
    convert_xpart_mono func largs idx names b _
      (convert_xpart_mono func largs idx names a s h)
  | .min a b, s, h =>
    convert_xpart_mono func largs idx names b _
      (convert_xpart_mono func largs idx names a s h)
  | .max a b, s, h =>
    convert_xpart_mono func largs idx names b _
      (convert_xpart_mono func largs idx names a s h)
  | .and a b, s, h =>
    convert_xpart_mono func largs idx names b _
      (convert_xpart_mono func largs idx names a s h)
  | .or a b, s, h =>
    convert_xpart_mono func largs idx names b _
      (convert_xpart_mono func largs idx names a s h)
  | .lt a b, s, h =>
    convert_xpart_mono func largs idx names b _
      (convert_xpart_mono func largs idx names a s h)
  | .select c tv fv, s, h =>
    convert_xpart_mono func largs idx names fv _
      (convert_xpart_mono func largs idx names tv _
        (convert_xpart_mono func largs idx names c _ h))
  | .call t nm cargs vidx ct, s, h => by
    obtain ⟨e2, s2, hr⟩ : ∃ e2 s2,
        convertSelfRef func largs idx names (.call t nm cargs vidx ct) s = (e2, s2) :=
      ⟨_, _, rfl⟩
    rw [hr]
    rw [convertSelfRef.eq_def] at hr
    simp only [] at hr
    have hargs := convertArgs_xpart_mono func largs idx names cargs s h
    split at hr
    · injection hr with he hs
      subst hs
      exact h
    · split at hr
      · split at hr
        · injection hr with he hs
          subst hs
          exact hargs
        · split at hr
          · split at hr
            · injection hr with he hs
              subst hs
              rfl
            · injection hr with he hs
              subst hs
              exact hargs
          · injection hr with he hs
            subst hs
            exact hargs
      · injection hr with he hs
        subst hs
        exact hargs

theorem convertArgs_xpart_mono (func : String) (largs : ExprList) (idx : Nat)
    (names : List String) :
    ∀ (as' : ExprList) (s : ConvState), s.x_part.isSome = true →
      ((convertSelfRefArgs func largs idx names as' s).2).x_part.isSome = true
  | .nil, _, h => h
  | .cons a as', s, h =>
    convertArgs_xpart_mono func largs idx names as' _
      (convert_xpart_mono func largs idx names a s h)

end

mutual

/-- The rewriter keeps the dependency set strictly sorted. -/
theorem convert_deps_sorted (func : String) (largs : ExprList) (idx : Nat)
    (names : List String) :
    ∀ (e : Expr) (s : ConvState), s.x_dependencies.Chain' (· < ·) →
      ((convertSelfRef func largs idx names e s).2).x_dependencies.Chain' (· < ·)
  | .intImm _ _, _, h => h
  | .var _ _, _, h => h
  | .cast _ e, s, h => convert_deps_sorted func largs idx names e s h
  | .not a, s, h => convert_deps_sorted func largs idx names a s h
  | .add a b, s, h =>
    convert_deps_sorted func largs idx names b _
      (convert_deps_sorted func largs idx names a s h)
  | .sub a b, s, h =>
    convert_deps_sorted func largs idx names b _
      (convert_deps_sorted func largs idx names a s h)
  | .mul a b, s, h =>
    convert_deps_sorted func largs idx names b _
      (convert_deps_sorted func largs idx names a s h)
  | .min a b, s, h =>
    convert_deps_sorted func largs idx names b _
      (convert_deps_sorted func largs idx names a s h)
  | .max a b, s, h =>
    convert_deps_sorted func largs idx names b _
      (convert_deps_sorted func largs idx names a s h)
  | .and a b, s, h =>
    convert_deps_sorted func largs idx names b _
      (convert_deps_sorted func largs idx names a s h)
  | .or a b, s, h =>
    convert_deps_sorted func largs idx names b _
      (convert_deps_sorted func largs idx names a s h)
  | .lt a b, s, h =>
    convert_deps_sorted func largs idx names b _
      (convert_deps_sorted func largs idx names a s h)
  | .select c tv fv, s, h =>
    convert_deps_sorted func largs idx names fv _
      (convert_deps_sorted func largs idx names tv _
        (convert_deps_sorted func largs idx names c _ h))
  | .call t nm cargs vidx ct, s, h => by
    obtain ⟨e2, s2, hr⟩ : ∃ e2 s2,
        convertSelfRef func largs idx names (.call t nm cargs vidx ct) s = (e2, s2) :=
      ⟨_, _, rfl⟩
    rw [hr]
    rw [convertSelfRef.eq_def] at hr
    simp only [] at hr
    have hargs := convertArgs_deps_sorted func largs idx names cargs s h
    split at hr
    · injection hr with he hs
      subst hs
      exact h
    · split at hr
      · split at hr
        · injection hr with he hs
          subst hs
          exact hargs
        · split at hr
          · split at hr
            · injection hr with he hs
              subst hs
              exact hargs
            · injection hr with he hs
              subst hs
              exact chain_insertSorted hargs
          · injection hr with he hs
            subst hs
            exact hargs
      · injection hr with he hs
        subst hs
        exact hargs

theorem convertArgs_deps_sorted (func : String) (largs : ExprList) (idx : Nat)
    (names : List String) :
    ∀ (as' : ExprList) (s : ConvState), s.x_dependencies.Chain' (· < ·) →
      ((convertSelfRefArgs func largs idx names as' s).2).x_dependencies.Chain' (· < ·)
  | .nil, _, h => h
  | .cons a as', s, h =>
    convertArgs_deps_sorted func largs idx names as' _
      (convert_deps_sorted func largs idx names a s h)

end

mutual

/-- Every dependency the rewriter records is a tuple index other than the
one being proved. -/
theorem convert_deps_noidx (func : String) (largs : ExprList) (idx : Nat)
    (names : List String) :
    ∀ (e : Expr) (s : ConvState) (k : Nat),
      k ∈ ((convertSelfRef func largs idx names e s).2).x_dependencies →
      k ∈ s.x_dependencies ∨ k ≠ idx
  | .intImm _ _, _, _, h => Or.inl h
  | .var _ _, _, _, h => Or.inl h
  | .cast _ e, s, k, h => convert_deps_noidx func largs idx names e s k h
  | .not a, s, k, h => convert_deps_noidx func largs idx names a s k h
  | .add a b, s, k, h =>
    match convert_deps_noidx func largs idx names b _ k h with
    | Or.inr hne => Or.inr hne
    | Or.inl h2 => convert_deps_noidx func largs idx names a s k h2
  | .sub a b, s, k, h =>
    match convert_deps_noidx func largs idx names b _ k h with
    | Or.inr hne => Or.inr hne
    | Or.inl h2 => convert_deps_noidx func largs idx names a s k h2
  | .mul a b, s, k, h =>
    match convert_deps_noidx func largs idx names b _ k h with
    | Or.inr hne => Or.inr hne
    | Or.inl h2 => convert_deps_noidx func largs idx names a s k h2
  | .min a b, s, k, h =>
    match convert_deps_noidx func largs idx names b _ k h with
    | Or.inr hne => Or.inr hne
    | Or.inl h2 => convert_deps_noidx func largs idx names a s k h2
  | .max a b, s, k, h =>
    match convert_deps_noidx func largs idx names b _ k h with
    | Or.inr hne => Or.inr hne
    | Or.inl h2 => convert_deps_noidx func largs idx names a s k h2
  | .and a b, s, k, h =>
    match convert_deps_noidx func largs idx names b _ k h with
    | Or.inr hne => Or.inr hne
    | Or.inl h2 => convert_deps_noidx func largs idx names a s k h2
  | .or a b, s, k, h =>
    match convert_deps_noidx func largs idx names b _ k h with
    | Or.inr hne => Or.inr hne
    | Or.inl h2 => convert_deps_noidx func largs idx names a s k h2
  | .lt a b, s, k, h =>
    match convert_deps_noidx func largs idx names b _ k h with
    | Or.inr hne => Or.inr hne
    | Or.inl h2 => convert_deps_noidx func largs idx names a s k h2
  | .select c tv fv, s, k, h =>
    match convert_deps_noidx func largs idx names fv _ k h with
    | Or.inr hne => Or.inr hne
    | Or.inl h2 =>
      match convert_deps_noidx func largs idx names tv _ k h2 with
      | Or.inr hne => Or.inr hne
      | Or.inl h3 =>
        match convert_deps_noidx func largs idx names c
            { s with is_conditional := true } k h3 with
        | Or.inr hne => Or.inr hne
        | Or.inl h4 => Or.inl h4
  | .call t nm cargs vidx ct, s, k, h => by
    obtain ⟨e2, s2, hr⟩ : ∃ e2 s2,
        convertSelfRef func largs idx names (.call t nm cargs vidx ct) s = (e2, s2) :=
      ⟨_, _, rfl⟩
    rw [hr] at h
    rw [convertSelfRef.eq_def] at hr
    simp only [] at hr
    split at hr
    · injection hr with he hs
      subst hs
      exact Or.inl h
    · split at hr
      · split at hr
        · injection hr with he hs
          subst hs
          exact convertArgs_deps_noidx func largs idx names cargs s k h
        · split at hr
          · split at hr
            · injection hr with he hs
              subst hs
              exact convertArgs_deps_noidx func largs idx names cargs s k h
            · rename_i hne
              injection hr with he hs
              subst hs
              rcases mem_insertSorted.mp h with rfl | h2
              · exact Or.inr hne
              · exact convertArgs_deps_noidx func largs idx names cargs s k h2
          · injection hr with he hs
            subst hs
            exact convertArgs_deps_noidx func largs idx names cargs s k h
      · injection hr with he hs
        subst hs
        exact convertArgs_deps_noidx func largs idx names cargs s k h

theorem convertArgs_deps_noidx (func : String) (largs : ExprList) (idx : Nat)
    (names : List String) :
    ∀ (as' : ExprList) (s : ConvState) (k : Nat),
      k ∈ ((convertSelfRefArgs func largs idx names as' s).2).x_dependencies →
      k ∈ s.x_dependencies ∨ k ≠ idx
  | .nil, _, _, h => Or.inl h
  | .cons a as', s, k, h =>
    match convertArgs_deps_noidx func largs idx names as' _ k h with
    | Or.inr hne => Or.inr hne
    | Or.inl h2 => convert_deps_noidx func largs idx names a s k h2

end

mutual

/-- Variable tracking: every variable of the rewritten expression either
occurs in the source expression or is a fresh name substituted for a self
reference — the proved index's own name (in which case `x_part` is
recorded) or the name of a recorded cross dependency. -/
theorem convert_vars (func : String) (largs : ExprList) (idx : Nat)
    (names : List String) :
    ∀ (e : Expr) (s : ConvState) (nm : String),
      ((convertSelfRef func largs idx names e s).1).usesVar nm = true →
      e.usesVar nm = true ∨
      (((convertSelfRef func largs idx names e s).2).x_part.isSome = true ∧
        nm = names.getD idx "") ∨
      ∃ k ∈ ((convertSelfRef func largs idx names e s).2).x_dependencies,
        nm = names.getD k ""
  | .intImm t v, s, nm, h => by
    simp [convertSelfRef, Expr.usesVar] at h
  | .var t n, s, nm, h => Or.inl h
  | .cast t e1, s, nm, h => by
    simp only [convertSelfRef, Expr.usesVar] at h ⊢
    exact convert_vars func largs idx names e1 s nm h
  | .not a, s, nm, h => by
    simp only [convertSelfRef, Expr.usesVar] at h ⊢
    exact convert_vars func largs idx names a s nm h
  | .add a b, s, nm, h => by
    simp only [convertSelfRef, Expr.usesVar, Bool.or_eq_true] at h ⊢
    rcases h with h | h
    · rcases convert_vars func largs idx names a s nm h with h1 | h1 | h1
      · exact Or.inl (Or.inl h1)
      · refine Or.inr (Or.inl ⟨?_, h1.2⟩)
        apply convert_xpart_mono
        exact h1.1
      · rcases h1 with ⟨k, hk, hnm⟩
        refine Or.inr (Or.inr ⟨k, ?_, hnm⟩)
        apply convert_deps_mono
        exact hk
    · rcases convert_vars func largs idx names b _ nm h with h1 | h1 | h1
      · exact Or.inl (Or.inr h1)
      · exact Or.inr (Or.inl h1)
      · exact Or.inr (Or.inr h1)
  | .sub a b, s, nm, h => by
    simp only [convertSelfRef, Expr.usesVar, Bool.or_eq_true] at h ⊢
    rcases h with h | h
    · rcases convert_vars func largs idx names a s nm h with h1 | h1 | h1
      · exact Or.inl (Or.inl h1)
      · refine Or.inr (Or.inl ⟨?_, h1.2⟩)
        apply convert_xpart_mono
        exact h1.1
      · rcases h1 with ⟨k, hk, hnm⟩
        refine Or.inr (Or.inr ⟨k, ?_, hnm⟩)
        apply convert_deps_mono
        exact hk
    · rcases convert_vars func largs idx names b _ nm h with h1 | h1 | h1
      · exact Or.inl (Or.inr h1)
      · exact Or.inr (Or.inl h1)
      · exact Or.inr (Or.inr h1)
  | .mul a b, s, nm, h => by
    simp only [convertSelfRef, Expr.usesVar, Bool.or_eq_true] at h ⊢
    rcases h with h | h
    · rcases convert_vars func largs idx names a s nm h with h1 | h1 | h1
      · exact Or.inl (Or.inl h1)
      · refine Or.inr (Or.inl ⟨?_, h1.2⟩)
        apply convert_xpart_mono
        exact h1.1
      · rcases h1 with ⟨k, hk, hnm⟩
        refine Or.inr (Or.inr ⟨k, ?_, hnm⟩)
        apply convert_deps_mono
        exact hk
    · rcases convert_vars func largs idx names b _ nm h with h1 | h1 | h1
      · exact Or.inl (Or.inr h1)
      · exact Or.inr (Or.inl h1)
      · exact Or.inr (Or.inr h1)
  | .min a b, s, nm, h => by
    simp only [convertSelfRef, Expr.usesVar, Bool.or_eq_true] at h ⊢
    rcases h with h | h
    · rcases convert_vars func largs idx names a s nm h with h1 | h1 | h1
      · exact Or.inl (Or.inl h1)
      · refine Or.inr (Or.inl ⟨?_, h1.2⟩)
        apply convert_xpart_mono
        exact h1.1
      · rcases h1 with ⟨k, hk, hnm⟩
        refine Or.inr (Or.inr ⟨k, ?_, hnm⟩)
        apply convert_deps_mono
        exact hk
    · rcases convert_vars func largs idx names b _ nm h with h1 | h1 | h1
      · exact Or.inl (Or.inr h1)
      · exact Or.inr (Or.inl h1)
      · exact Or.inr (Or.inr h1)
  | .max a b, s, nm, h => by
    simp only [convertSelfRef, Expr.usesVar, Bool.or_eq_true] at h ⊢
    rcases h with h | h
    · rcases convert_vars func largs idx names a s nm h with h1 | h1 | h1
      · exact Or.inl (Or.inl h1)
      · refine Or.inr (Or.inl ⟨?_, h1.2⟩)
        apply convert_xpart_mono
        exact h1.1
      · rcases h1 with ⟨k, hk, hnm⟩
        refine Or.inr (Or.inr ⟨k, ?_, hnm⟩)
        apply convert_deps_mono
        exact hk
    · rcases convert_vars func largs idx names b _ nm h with h1 | h1 | h1
      · exact Or.inl (Or.inr h1)
      · exact Or.inr (Or.inl h1)
      · exact Or.inr (Or.inr h1)
  | .and a b, s, nm, h => by
    simp only [convertSelfRef, Expr.usesVar, Bool.or_eq_true] at h ⊢
    rcases h with h | h
    · rcases convert_vars func largs idx names a s nm h with h1 | h1 | h1
      · exact Or.inl (Or.inl h1)
      · refine Or.inr (Or.inl ⟨?_, h1.2⟩)
        apply convert_xpart_mono
        exact h1.1
      · rcases h1 with ⟨k, hk, hnm⟩
        refine Or.inr (Or.inr ⟨k, ?_, hnm⟩)
        apply convert_deps_mono
        exact hk
    · rcases convert_vars func largs idx names b _ nm h with h1 | h1 | h1
      · exact Or.inl (Or.inr h1)
      · exact Or.inr (Or.inl h1)
      · exact Or.inr (Or.inr h1)
  | .or a b, s, nm, h => by
    simp only [convertSelfRef, Expr.usesVar, Bool.or_eq_true] at h ⊢
    rcases h with h | h
    · rcases convert_vars func largs idx names a s nm h with h1 | h1 | h1
      · exact Or.inl (Or.inl h1)
      · refine Or.inr (Or.inl ⟨?_, h1.2⟩)
        apply convert_xpart_mono
        exact h1.1
      · rcases h1 with ⟨k, hk, hnm⟩
        refine Or.inr (Or.inr ⟨k, ?_, hnm⟩)
        apply convert_deps_mono
        exact hk
    · rcases convert_vars func largs idx names b _ nm h with h1 | h1 | h1
      · exact Or.inl (Or.inr h1)
      · exact Or.inr (Or.inl h1)
      · exact Or.inr (Or.inr h1)
  | .lt a b, s, nm, h => by
    simp only [convertSelfRef, Expr.usesVar, Bool.or_eq_true] at h ⊢
    rcases h with h | h
    · rcases convert_vars func largs idx names a s nm h with h1 | h1 | h1
      · exact Or.inl (Or.inl h1)
      · refine Or.inr (Or.inl ⟨?_, h1.2⟩)
        apply convert_xpart_mono
        exact h1.1
      · rcases h1 with ⟨k, hk, hnm⟩
        refine Or.inr (Or.inr ⟨k, ?_, hnm⟩)
        apply convert_deps_mono
        exact hk
    · rcases convert_vars func largs idx names b _ nm h with h1 | h1 | h1
      · exact Or.inl (Or.inr h1)
      · exact Or.inr (Or.inl h1)
      · exact Or.inr (Or.inr h1)
  | .select c tv fv, s, nm, h => by
    simp only [convertSelfRef, Expr.usesVar, Bool.or_eq_true] at h ⊢
    rcases h with (h | h) | h
    · rcases convert_vars func largs idx names c
          { s with is_conditional := true } nm h with h1 | h1 | h1
      · exact Or.inl (Or.inl (Or.inl h1))
      · refine Or.inr (Or.inl ⟨?_, h1.2⟩)
        apply convert_xpart_mono
        apply convert_xpart_mono
        exact h1.1
      · rcases h1 with ⟨k, hk, hnm⟩
        refine Or.inr (Or.inr ⟨k, ?_, hnm⟩)
        apply convert_deps_mono
        apply convert_deps_mono
        exact hk
    · rcases convert_vars func largs idx names tv _ nm h with h1 | h1 | h1
      · exact Or.inl (Or.inl (Or.inr h1))
      · refine Or.inr (Or.inl ⟨?_, h1.2⟩)
        apply convert_xpart_mono
        exact h1.1
      · rcases h1 with ⟨k, hk, hnm⟩
        refine Or.inr (Or.inr ⟨k, ?_, hnm⟩)
        apply convert_deps_mono
        exact hk
    · rcases convert_vars func largs idx names fv _ nm h with h1 | h1 | h1
      · exact Or.inl (Or.inr h1)
      · exact Or.inr (Or.inl h1)
      · exact Or.inr (Or.inr h1)
  | .call t nm2 cargs vidx ct, s, nm, h => by
    obtain ⟨e2, s2, hr⟩ : ∃ e2 s2,
        convertSelfRef func largs idx names (.call t nm2 cargs vidx ct) s = (e2, s2) :=
      ⟨_, _, rfl⟩
    rw [hr] at h ⊢
    simp only [] at h ⊢
    rw [convertSelfRef.eq_def] at hr
    simp only [] at hr
    split at hr
    · injection hr with he hs
      subst he
      subst hs
      exact Or.inl h
    · split at hr
      · split at hr
        · injection hr with he hs
          subst he
          subst hs
          simp only [Expr.usesVar] at h
          rcases convertArgs_vars func largs idx names cargs s nm h with h1 | h1 | h1
          · exact Or.inl h1
          · exact Or.inr (Or.inl h1)
          · exact Or.inr (Or.inr h1)
        · split at hr
          · split at hr
            · rename_i hveq
              injection hr with he hs
              subst he
              subst hs
              simp only [Expr.usesVar] at h
              have hnm : nm = names.getD idx "" := by
                rw [← hveq]
                exact (eq_of_beq h).symm
              exact Or.inr (Or.inl ⟨rfl, hnm⟩)
            · injection hr with he hs
              subst he
              subst hs
              simp only [Expr.usesVar] at h
              have hnm : nm = names.getD vidx "" := (eq_of_beq h).symm
              exact Or.inr (Or.inr ⟨vidx, mem_insertSorted.mpr (Or.inl rfl), hnm⟩)
          · injection hr with he hs
            subst he
            subst hs
            simp only [Expr.usesVar] at h
            rcases convertArgs_vars func largs idx names cargs s nm h with h1 | h1 | h1
            · exact Or.inl h1
            · exact Or.inr (Or.inl h1)
            · exact Or.inr (Or.inr h1)
      · injection hr with he hs
        subst he
        subst hs
        simp only [Expr.usesVar] at h
        rcases convertArgs_vars func largs idx names cargs s nm h with h1 | h1 | h1
        · exact Or.inl h1
        · exact Or.inr (Or.inl h1)
        · exact Or.inr (Or.inr h1)

theorem convertArgs_vars (func : String) (largs : ExprList) (idx : Nat)
    (names : List String) :
    ∀ (as' : ExprList) (s : ConvState) (nm : String),
      ((convertSelfRefArgs func largs idx names as' s).1).usesVar nm = true →
      ExprList.usesVar as' nm = true ∨
      (((convertSelfRefArgs func largs idx names as' s).2).x_part.isSome = true ∧
        nm = names.getD idx "") ∨
      ∃ k ∈ ((convertSelfRefArgs func largs idx names as' s).2).x_dependencies,
        nm = names.getD k ""
  | .nil, s, nm, h => by
    simp [convertSelfRefArgs, ExprList.usesVar] at h
  | .cons a as', s, nm, h => by
    simp only [convertSelfRefArgs, ExprList.usesVar, Bool.or_eq_true] at h ⊢
    rcases h with h | h
    · rcases convert_vars func largs idx names a s nm h with h1 | h1 | h1
      · exact Or.inl (Or.inl h1)
      · refine Or.inr (Or.inl ⟨?_, h1.2⟩)
        apply convertArgs_xpart_mono
        exact h1.1
      · rcases h1 with ⟨k, hk, hnm⟩
        refine Or.inr (Or.inr ⟨k, ?_, hnm⟩)
        apply convertArgs_deps_mono
        exact hk
    · rcases convertArgs_vars func largs idx names as' _ nm h with h1 | h1 | h1
      · exact Or.inl (Or.inr h1)
      · exact Or.inr (Or.inl h1)
      · exact Or.inr (Or.inr h1)

end

/-! ## Lemmas about the transitive-closure pass -/

theorem absorbStep_length (i : Nat) (rows : List (List Nat)) (j : Nat) :
    (absorbStep i rows j).length = rows.length := by
  unfold absorbStep
  split_ifs <;> simp

theorem foldl_absorbStep_length (i : Nat) :
    ∀ (jl : List Nat) (rows : List (List Nat)),
      (jl.foldl (absorbStep i) rows).length = rows.length
  | [], _ => rfl
  | j :: jl, rows => by
    rw [List.foldl_cons, foldl_absorbStep_length i jl, absorbStep_length]

theorem absorbStep_getD_ne (i : Nat) (rows : List (List Nat)) (j k : Nat)
    (h : k ≠ i) : (absorbStep i rows j).getD k [] = rows.getD k [] := by
  unfold absorbStep
  split_ifs with h1 h2
  · rfl
  · exact getD_set_ne rows i k _ [] (Ne.symm h)
  · rfl

theorem foldl_absorbStep_getD_ne (i k : Nat) (h : k ≠ i) :
    ∀ (jl : List Nat) (rows : List (List Nat)),
      (jl.foldl (absorbStep i) rows).getD k [] = rows.getD k []
  | [], _ => rfl
  | j :: jl, rows => by
    rw [List.foldl_cons, foldl_absorbStep_getD_ne i k h jl,
      absorbStep_getD_ne i rows j k h]

theorem absorbStep_grow (i : Nat) (rows : List (List Nat)) (j : Nat) :
    ∀ x ∈ rows.getD i [], x ∈ (absorbStep i rows j).getD i [] := by
  intro x hx
  unfold absorbStep
  split_ifs with h1 h2
  · exact hx
  · have hlen : i < rows.length := by
      by_contra hge
      rw [List.getD_eq_default _ _ (Nat.le_of_not_lt hge)] at hx
      exact absurd hx (List.not_mem_nil x)
    rw [getD_set_lt _ _ _ _ hlen]
    exact mem_unionSorted.mpr (Or.inl hx)
  · exact hx

theorem foldl_absorbStep_grow (i : Nat) :
    ∀ (jl : List Nat) (rows : List (List Nat)),
      ∀ x ∈ rows.getD i [], x ∈ (jl.foldl (absorbStep i) rows).getD i []
  | [], _, _, hx => hx
  | j :: jl, rows, x, hx =>
    foldl_absorbStep_grow i jl _ x (absorbStep_grow i rows j x hx)

/-- A scan pass whose scanned indices are all absent from the final row is
the identity. -/
theorem foldl_absorbStep_id (i : Nat) :
    ∀ (jl : List Nat) (rows : List (List Nat)),
      (∀ j ∈ jl, j ∉ (jl.foldl (absorbStep i) rows).getD i []) →
      jl.foldl (absorbStep i) rows = rows
  | [], _, _ => rfl
  | j :: jl, rows, h => by
    have hstep : absorbStep i rows j = rows := by
      unfold absorbStep
      split_ifs with h1 h2
      · rfl
      · exfalso
        refine h j (List.mem_cons_self j jl) ?_
        rw [List.foldl_cons]
        exact foldl_absorbStep_grow i jl _ j (absorbStep_grow i rows j j h2)
      · rfl
    rw [List.foldl_cons, hstep] at h ⊢
    exact foldl_absorbStep_id i jl rows
      (fun j2 hj2 => h j2 (List.mem_cons_of_mem j hj2))

/-- The key containment surviving the single-pass bug: the row indexed by
the *maximum* member of the final row `i` is fully absorbed into row `i`,
because every member of the final row entered it before the scan reached
the maximum. -/
theorem absorbRow_max_closed (rows : List (List Nat)) (i m : Nat)
    (hm : m ∈ (absorbRow rows i).getD i [])
    (hmax : ∀ x ∈ (absorbRow rows i).getD i [], x ≤ m) :
    ∀ x ∈ rows.getD m [], x ∈ (absorbRow rows i).getD i [] := by
  by_cases him : m = i
  · subst him
    exact fun x hx => foldl_absorbStep_grow m (List.range rows.length) rows x hx
  · by_cases hlen : m < rows.length
    case neg =>
      intro x hx
      rw [List.getD_eq_default _ _ (Nat.le_of_not_lt hlen)] at hx
      exact absurd hx (List.not_mem_nil x)
    case pos =>
      obtain ⟨r, hr⟩ : ∃ r, rows.length = (m + 1) + r :=
        ⟨rows.length - (m + 1), by omega⟩
      have hsplit : List.range rows.length =
          (List.range m ++ [m]) ++ List.map (fun x => m + 1 + x) (List.range r) := by
        rw [hr, List.range_add]
        congr 1
        exact List.range_succ m
      have hdec : absorbRow rows i =
          (List.map (fun x => m + 1 + x) (List.range r)).foldl (absorbStep i)
            (absorbStep i ((List.range m).foldl (absorbStep i) rows) m) := by
        rw [absorbRow, hsplit, List.foldl_append, List.foldl_append]
        rfl
      have htail : ∀ j ∈ List.map (fun x => m + 1 + x) (List.range r),
          j ∉ (absorbRow rows i).getD i [] := by
        intro j hj hcontra
        obtain ⟨x, _, rfl⟩ := List.mem_map.mp hj
        have := hmax _ hcontra
        omega
      have hid : (List.map (fun x => m + 1 + x) (List.range r)).foldl (absorbStep i)
          (absorbStep i ((List.range m).foldl (absorbStep i) rows) m) =
          absorbStep i ((List.range m).foldl (absorbStep i) rows) m := by
        apply foldl_absorbStep_id
        intro j hj
        rw [← hdec]
        exact htail j hj
      have hRstep : absorbRow rows i =
          absorbStep i ((List.range m).foldl (absorbStep i) rows) m := by
        rw [hdec, hid]
      have hmem1 : m ∈ (absorbStep i ((List.range m).foldl (absorbStep i) rows) m).getD i [] := by
        rw [← hRstep]
        exact hm
      have him2 : ¬(i = m) := fun he => him he.symm
      have hkeep : ((List.range m).foldl (absorbStep i) rows).getD m [] = rows.getD m [] :=
        foldl_absorbStep_getD_ne i m him (List.range m) rows
      generalize hgen : (List.range m).foldl (absorbStep i) rows = rows1 at hRstep hmem1 hkeep
      by_cases hin : m ∈ rows1.getD i []
      · have hilen : i < rows1.length := by
          by_contra hge
          rw [List.getD_eq_default _ _ (Nat.le_of_not_lt hge)] at hin
          exact absurd hin (List.not_mem_nil m)
        intro x hx
        have hxrows1 : x ∈ rows1.getD m [] := by
          rw [hkeep]
          exact hx
        rw [hRstep]
        unfold absorbStep
        rw [if_neg him2, if_pos hin, getD_set_lt _ _ _ _ hilen]
        exact mem_unionSorted.mpr (Or.inr hxrows1)
      · exfalso
        apply hin
        have hnop : absorbStep i rows1 m = rows1 := by
          unfold absorbStep
          rw [if_neg him2, if_neg hin]
        rw [hnop] at hmem1
        exact hmem1

theorem absorbRow_length (rows : List (List Nat)) (i : Nat) :
    (absorbRow rows i).length = rows.length :=
  foldl_absorbStep_length i (List.range rows.length) rows

theorem absorbRow_getD_ne (rows : List (List Nat)) (jpass k : Nat)
    (h : k ≠ jpass) : (absorbRow rows jpass).getD k [] = rows.getD k [] :=
  foldl_absorbStep_getD_ne jpass k h (List.range rows.length) rows

theorem absorbRow_grow_all (rows : List (List Nat)) (jpass k : Nat) :
    ∀ x ∈ rows.getD k [], x ∈ (absorbRow rows jpass).getD k [] := by
  intro x hx
  by_cases h : k = jpass
  · subst h
    exact foldl_absorbStep_grow k (List.range rows.length) rows x hx
  · rw [absorbRow_getD_ne rows jpass k h]
    exact hx

theorem foldl_absorbRow_length :
    ∀ (pl : List Nat) (rows : List (List Nat)),
      (pl.foldl absorbRow rows).length = rows.length
  | [], _ => rfl
  | p :: pl, rows => by
    rw [List.foldl_cons, foldl_absorbRow_length pl, absorbRow_length]

theorem foldl_absorbRow_grow_all :
    ∀ (pl : List Nat) (rows : List (List Nat)) (k : Nat),
      ∀ x ∈ rows.getD k [], x ∈ (pl.foldl absorbRow rows).getD k []
  | [], _, _, _, hx => hx
  | p :: pl, rows, k, x, hx =>
    foldl_absorbRow_grow_all pl _ k x (absorbRow_grow_all rows p k x hx)

theorem foldl_absorbRow_getD_notin :
    ∀ (pl : List Nat) (rows : List (List Nat)) (k : Nat), k ∉ pl →
      (pl.foldl absorbRow rows).getD k [] = rows.getD k []
  | [], _, _, _ => rfl
  | p :: pl, rows, k, h => by
    rw [List.foldl_cons,
      foldl_absorbRow_getD_notin pl _ k (fun hk => h (List.mem_cons_of_mem p hk)),
      absorbRow_getD_ne rows p k (fun he => h (he ▸ List.mem_cons_self p pl))]

theorem addTransitive_length (deps : List (List Nat)) :
    (addTransitiveDependencies deps).length = deps.length :=
  foldl_absorbRow_length (List.range deps.length) deps

/-- The single-pass closure still fully absorbs the dependency row of the
maximal member of each final row. -/
theorem addTransitive_max_closed (deps : List (List Nat)) (i m : Nat)
    (hm : m ∈ (addTransitiveDependencies deps).getD i [])
    (hmax : ∀ x ∈ (addTransitiveDependencies deps).getD i [], x ≤ m) :
    ∀ x ∈ deps.getD m [], x ∈ (addTransitiveDependencies deps).getD i [] := by
  by_cases hi : i < deps.length
  case neg =>
    exfalso
    rw [List.getD_eq_default _ _
      (by rw [addTransitive_length]; exact Nat.le_of_not_lt hi)] at hm
    exact absurd hm (List.not_mem_nil m)
  case pos =>
    obtain ⟨r, hr⟩ : ∃ r, deps.length = (i + 1) + r :=
      ⟨deps.length - (i + 1), by omega⟩
    have hsplit : List.range deps.length =
        (List.range i ++ [i]) ++ List.map (fun x => i + 1 + x) (List.range r) := by
      rw [hr, List.range_add]
      congr 1
      exact List.range_succ i
    have hdec : addTransitiveDependencies deps =
        (List.map (fun x => i + 1 + x) (List.range r)).foldl absorbRow
          (absorbRow ((List.range i).foldl absorbRow deps) i) := by
      rw [addTransitiveDependencies, hsplit, List.foldl_append, List.foldl_append]
      rfl
    have hrow : (addTransitiveDependencies deps).getD i [] =
        (absorbRow ((List.range i).foldl absorbRow deps) i).getD i [] := by
      rw [hdec]
      apply foldl_absorbRow_getD_notin
      intro hmem
      obtain ⟨x, _, hx⟩ := List.mem_map.mp hmem
      omega
    rw [hrow] at hm hmax ⊢
    intro x hx
    have hx1 : x ∈ ((List.range i).foldl absorbRow deps).getD m [] :=
      foldl_absorbRow_grow_all (List.range i) deps m x hx
    exact absorbRow_max_closed ((List.range i).foldl absorbRow deps) i m hm hmax x hx1

/-! ## Sortedness of the dependency rows -/

theorem absorbStep_sorted (i : Nat) (rows : List (List Nat)) (j : Nat)
    (h : ∀ k, (rows.getD k []).Chain' (· < ·)) :
    ∀ k, ((absorbStep i rows j).getD k []).Chain' (· < ·) := by
  intro k
  unfold absorbStep
  split_ifs with h1 h2
  · exact h k
  · by_cases hki : k = i
    · subst hki
      by_cases hlen : k < rows.length
      · rw [getD_set_lt _ _ _ _ hlen]
        exact chain_unionSorted (h k)
      · rw [List.set_eq_of_length_le (Nat.le_of_not_lt hlen)]
        exact h k
    · rw [getD_set_ne _ _ _ _ _ (Ne.symm hki)]
      exact h k
  · exact h k

theorem foldl_absorbStep_sorted (i : Nat) :
    ∀ (jl : List Nat) (rows : List (List Nat)),
      (∀ k, (rows.getD k []).Chain' (· < ·)) →
      ∀ k, ((jl.foldl (absorbStep i) rows).getD k []).Chain' (· < ·)
  | [], _, h => h
  | j :: jl, rows, h =>
    foldl_absorbStep_sorted i jl _ (absorbStep_sorted i rows j h)

theorem absorbRow_sorted (rows : List (List Nat)) (i : Nat)
    (h : ∀ k, (rows.getD k []).Chain' (· < ·)) :
    ∀ k, ((absorbRow rows i).getD k []).Chain' (· < ·) :=
  foldl_absorbStep_sorted i (List.range rows.length) rows h

theorem foldl_absorbRow_sorted :
    ∀ (pl : List Nat) (rows : List (List Nat)),
      (∀ k, (rows.getD k []).Chain' (· < ·)) →
      ∀ k, ((pl.foldl absorbRow rows).getD k []).Chain' (· < ·)
  | [], _, h => h
  | p :: pl, rows, h =>
    foldl_absorbRow_sorted pl _ (absorbRow_sorted rows p h)

theorem addTransitive_sorted (deps : List (List Nat))
    (h : ∀ k, (deps.getD k []).Chain' (· < ·)) :
    ∀ k, ((addTransitiveDependencies deps).getD k []).Chain' (· < ·) :=
  foldl_absorbRow_sorted (List.range deps.length) deps h

/-! ## The retained subgraphs are dependency rows -/

theorem subgraphStep_rows (deps sgs : List (List Nat)) (i : Nat)
    (h : ∀ sg ∈ sgs, sg = [] ∨ ∃ k, sg = deps.getD k []) :
    ∀ sg ∈ subgraphStep deps sgs i, sg = [] ∨ ∃ k, sg = deps.getD k [] := by
  intro sg hsg
  unfold subgraphStep at hsg
  simp only [] at hsg
  split_ifs at hsg
  · exact h sg hsg
  · exact h sg hsg
  · rcases List.mem_or_eq_of_mem_set hsg with hmem | rfl
    · exact h sg hmem
    · exact Or.inr ⟨i, rfl⟩

theorem foldl_subgraphStep_rows (deps : List (List Nat)) :
    ∀ (il : List Nat) (start : List (List Nat)),
      (∀ sg ∈ start, sg = [] ∨ ∃ k, sg = deps.getD k []) →
      ∀ sg ∈ il.foldl (subgraphStep deps) start, sg = [] ∨ ∃ k, sg = deps.getD k []
  | [], _, h => h
  | i :: il, start, h =>
    foldl_subgraphStep_rows deps il _ (subgraphStep_rows deps start i h)

/-- Every retained subgraph is (verbatim) one of the closed dependency
rows. -/
theorem computeSubgraphs_rows (deps : List (List Nat)) :
    ∀ sg ∈ computeSubgraphs deps, sg = [] ∨ ∃ k, sg = deps.getD k [] :=
  foldl_subgraphStep_rows deps (List.range deps.length)
    (List.replicate deps.length [])
    (by
      intro sg hsg
      rw [List.eq_of_mem_replicate hsg]
      exact Or.inl rfl)

/-! ## Lemmas about the wildcard matcher -/

theorem bfind_cons (k1 : String) (v1 : Expr) (rest : Bindings) (k : String) :
    Bindings.find ((k1, v1) :: rest) k =
      if k1 = k then some v1 else Bindings.find rest k := by
  unfold Bindings.find
  rw [List.find?_cons]
  by_cases h : k1 = k
  · simp [h]
  · simp [h]

theorem bfind_append (l1 l2 : Bindings) (k : String) :
    Bindings.find (l1 ++ l2) k = (Bindings.find l1 k).or (Bindings.find l2 k) := by
  unfold Bindings.find
  rw [List.find?_append]
  cases List.find? (fun p => p.1 = k) l1 <;> simp [Option.or]

mutual

/-- The matcher never removes or changes a binding already present. -/
theorem exprMatch_find_mono :
    ∀ (op e : Expr) (m σ : Bindings) (w : String) (B : Expr),
      exprMatch op e m = some σ → Bindings.find m w = some B →
      Bindings.find σ w = some B
  | .var t nmv, e, m, σ, w, B, hm, hf => by
    simp only [exprMatch] at hm
    by_cases hwild : isWildcardName nmv = true
    · rw [if_pos hwild] at hm
      split at hm
      · rename_i b hsc
        by_cases hbe : b = e
        · rw [if_pos hbe] at hm
          obtain rfl := Option.some.inj hm
          exact hf
        · rw [if_neg hbe] at hm
          exact Option.noConfusion hm
      · rename_i hsc
        obtain rfl := Option.some.inj hm
        rw [bfind_append, hf]
        rfl
    · rw [if_neg hwild] at hm
      cases e <;> simp only [] at hm <;> try exact Option.noConfusion hm
      rename_i t2 nm2
      by_cases hnm : nmv = nm2
      · rw [if_pos hnm] at hm
        obtain rfl := Option.some.inj hm
        exact hf
      · rw [if_neg hnm] at hm
        exact Option.noConfusion hm
  | .intImm t v, e, m, σ, w, B, hm, hf => by
    simp only [exprMatch] at hm
    by_cases he : e = Expr.intImm t v
    · rw [if_pos he] at hm
      obtain rfl := Option.some.inj hm
      exact hf
    · rw [if_neg he] at hm
      exact Option.noConfusion hm
  | .cast t p, e, m, σ, w, B, hm, hf => by
    simp only [exprMatch] at hm
    cases e <;> simp only [] at hm <;> try exact Option.noConfusion hm
    rename_i t2 e1
    by_cases ht : t = t2
    · rw [if_pos ht] at hm
      exact exprMatch_find_mono p e1 m σ w B hm hf
    · rw [if_neg ht] at hm
      exact Option.noConfusion hm
  | .not p, e, m, σ, w, B, hm, hf => by
    simp only [exprMatch] at hm
    cases e <;> simp only [] at hm <;> try exact Option.noConfusion hm
    rename_i a
    exact exprMatch_find_mono p a m σ w B hm hf
  | .add p q, e, m, σ, w, B, hm, hf => by
    simp only [exprMatch] at hm
    cases e <;> simp only [] at hm <;> try exact Option.noConfusion hm
    rename_i a b2
    obtain ⟨mid, h1, h2⟩ := Option.bind_eq_some.mp hm
    exact exprMatch_find_mono q b2 mid σ w B h2
      (exprMatch_find_mono p a m mid w B h1 hf)
  | .sub p q, e, m, σ, w, B, hm, hf => by
    simp only [exprMatch] at hm
    cases e <;> simp only [] at hm <;> try exact Option.noConfusion hm
    rename_i a b2
    obtain ⟨mid, h1, h2⟩ := Option.bind_eq_some.mp hm
    exact exprMatch_find_mono q b2 mid σ w B h2
      (exprMatch_find_mono p a m mid w B h1 hf)
  | .mul p q, e, m, σ, w, B, hm, hf => by
    simp only [exprMatch] at hm
    cases e <;> simp only [] at hm <;> try exact Option.noConfusion hm
    rename_i a b2
    obtain ⟨mid, h1, h2⟩ := Option.bind_eq_some.mp hm
    exact exprMatch_find_mono q b2 mid σ w B h2
      (exprMatch_find_mono p a m mid w B h1 hf)
  | .min p q, e, m, σ, w, B, hm, hf => by
    simp only [exprMatch] at hm
    cases e <;> simp only [] at hm <;> try exact Option.noConfusion hm
    rename_i a b2
    obtain ⟨mid, h1, h2⟩ := Option.bind_eq_some.mp hm
    exact exprMatch_find_mono q b2 mid σ w B h2
      (exprMatch_find_mono p a m mid w B h1 hf)
  | .max p q, e, m, σ, w, B, hm, hf => by
    simp only [exprMatch] at hm
    cases e <;> simp only [] at hm <;> try exact Option.noConfusion hm
    rename_i a b2
    obtain ⟨mid, h1, h2⟩ := Option.bind_eq_some.mp hm
    exact exprMatch_find_mono q b2 mid σ w B h2
      (exprMatch_find_mono p a m mid w B h1 hf)
  | .and p q, e, m, σ, w, B, hm, hf => by
    simp only [exprMatch] at hm
    cases e <;> simp only [] at hm <;> try exact Option.noConfusion hm
    rename_i a b2
    obtain ⟨mid, h1, h2⟩ := Option.bind_eq_some.mp hm
    exact exprMatch_find_mono q b2 mid σ w B h2
      (exprMatch_find_mono p a m mid w B h1 hf)
  | .or p q, e, m, σ, w, B, hm, hf => by
    simp only [exprMatch] at hm
    cases e <;> simp only [] at hm <;> try exact Option.noConfusion hm
    rename_i a b2
    obtain ⟨mid, h1, h2⟩ := Option.bind_eq_some.mp hm
    exact exprMatch_find_mono q b2 mid σ w B h2
      (exprMatch_find_mono p a m mid w B h1 hf)
  | .lt p q, e, m, σ, w, B, hm, hf => by
    simp only [exprMatch] at hm
    cases e <;> simp only [] at hm <;> try exact Option.noConfusion hm
    rename_i a b2
    obtain ⟨mid, h1, h2⟩ := Option.bind_eq_some.mp hm
    exact exprMatch_find_mono q b2 mid σ w B h2
      (exprMatch_find_mono p a m mid w B h1 hf)
  | .select pc pt pf, e, m, σ, w, B, hm, hf => by
    simp only [exprMatch] at hm
    cases e <;> simp only [] at hm <;> try exact Option.noConfusion hm
    rename_i c tv fv
    obtain ⟨mid2, h12, h3⟩ := Option.bind_eq_some.mp hm
    obtain ⟨mid1, h1, h2⟩ := Option.bind_eq_some.mp h12
    exact exprMatch_find_mono pf fv mid2 σ w B h3
      (exprMatch_find_mono pt tv mid1 mid2 w B h2
        (exprMatch_find_mono pc c m mid1 w B h1 hf))
  | .call t nmc pargs vi ct, e, m, σ, w, B, hm, hf => by
    simp only [exprMatch] at hm
    cases e <;> simp only [] at hm <;> try exact Option.noConfusion hm
    rename_i t2 nm2 eargs vi2 ct2
    by_cases hc : nmc = nm2 ∧ vi = vi2 ∧ ct = ct2 ∧ pargs.length = eargs.length
    · rw [if_pos hc] at hm
      exact exprMatchArgs_find_mono pargs eargs m σ w B hm hf
    · rw [if_neg hc] at hm
      exact Option.noConfusion hm

theorem exprMatchArgs_find_mono :
    ∀ (ps es : ExprList) (m σ : Bindings) (w : String) (B : Expr),
      exprMatchArgs ps es m = some σ → Bindings.find m w = some B →
      Bindings.find σ w = some B
  | .nil, es, m, σ, w, B, hm, hf => by
    rw [exprMatchArgs.eq_def] at hm
    cases es <;> simp only [] at hm <;> try exact Option.noConfusion hm
    obtain rfl := Option.some.inj hm
    exact hf
  | .cons p ps, es, m, σ, w, B, hm, hf => by
    rw [exprMatchArgs.eq_def] at hm
    cases es <;> simp only [] at hm <;> try exact Option.noConfusion hm
    rename_i e es2
    obtain ⟨mid, h1, h2⟩ := Option.bind_eq_some.mp hm
    exact exprMatchArgs_find_mono ps es2 mid σ w B h2
      (exprMatch_find_mono p e m mid w B h1 hf)

end

mutual

/-- Soundness of the wildcard matcher: a wildcard occurring in the pattern
is bound, and its binding is a subtree of the subject (stated through
variable occurrences: every variable of the binding occurs in the
subject). -/
theorem exprMatch_binds_subterm :
    ∀ (op e : Expr) (m σ : Bindings) (w : String),
      exprMatch op e m = some σ → isWildcardName w = true →
      op.usesVar w = true →
      ∃ B, Bindings.find σ w = some B ∧
        ∀ nm, B.usesVar nm = true → e.usesVar nm = true
  | .var t nmv, e, m, σ, w, hm, hw, hocc => by
    simp only [Expr.usesVar] at hocc
    have hnmv : nmv = w := by simpa using hocc
    subst hnmv
    simp only [exprMatch] at hm
    rw [if_pos hw] at hm
    split at hm
    · rename_i b hsc
      by_cases hbe : b = e
      · rw [if_pos hbe] at hm
        obtain rfl := Option.some.inj hm
        refine ⟨b, hsc, ?_⟩
        intro nm h
        rw [← hbe]
        exact h
      · rw [if_neg hbe] at hm
        exact Option.noConfusion hm
    · rename_i hsc
      obtain rfl := Option.some.inj hm
      refine ⟨e, ?_, fun nm h => h⟩
      rw [bfind_append, hsc, bfind_cons]
      simp
  | .intImm t v, e, m, σ, w, hm, hw, hocc => by
    simp [Expr.usesVar] at hocc
  | .cast t p, e, m, σ, w, hm, hw, hocc => by
    simp only [exprMatch] at hm
    cases e <;> simp only [] at hm <;> try exact Option.noConfusion hm
    rename_i t2 e1
    by_cases ht : t = t2
    · rw [if_pos ht] at hm
      simp only [Expr.usesVar] at hocc
      obtain ⟨B, hfind, hsub⟩ := exprMatch_binds_subterm p e1 m σ w hm hw hocc
      exact ⟨B, hfind, fun nm h => hsub nm h⟩
    · rw [if_neg ht] at hm
      exact Option.noConfusion hm
  | .not p, e, m, σ, w, hm, hw, hocc => by
    simp only [exprMatch] at hm
    cases e <;> simp only [] at hm <;> try exact Option.noConfusion hm
    rename_i a
    simp only [Expr.usesVar] at hocc
    obtain ⟨B, hfind, hsub⟩ := exprMatch_binds_subterm p a m σ w hm hw hocc
    exact ⟨B, hfind, fun nm h => hsub nm h⟩
  | .add p q, e, m, σ, w, hm, hw, hocc => by
    simp only [exprMatch] at hm
    cases e <;> simp only [] at hm <;> try exact Option.noConfusion hm
    rename_i a b2
    obtain ⟨mid, h1, h2⟩ := Option.bind_eq_some.mp hm
    simp only [Expr.usesVar, Bool.or_eq_true] at hocc
    rcases hocc with hocc | hocc
    · obtain ⟨B, hfind, hsub⟩ := exprMatch_binds_subterm p a m mid w h1 hw hocc
      refine ⟨B, exprMatch_find_mono q b2 mid σ w B h2 hfind, ?_⟩
      intro nm hnm
      simp only [Expr.usesVar, Bool.or_eq_true]
      exact Or.inl (hsub nm hnm)
    · obtain ⟨B, hfind, hsub⟩ := exprMatch_binds_subterm q b2 mid σ w h2 hw hocc
      refine ⟨B, hfind, ?_⟩
      intro nm hnm
      simp only [Expr.usesVar, Bool.or_eq_true]
      exact Or.inr (hsub nm hnm)
  | .sub p q, e, m, σ, w, hm, hw, hocc => by
    simp only [exprMatch] at hm
    cases e <;> simp only [] at hm <;> try exact Option.noConfusion hm
    rename_i a b2
    obtain ⟨mid, h1, h2⟩ := Option.bind_eq_some.mp hm
    simp only [Expr.usesVar, Bool.or_eq_true] at hocc
    rcases hocc with hocc | hocc
    · obtain ⟨B, hfind, hsub⟩ := exprMatch_binds_subterm p a m mid w h1 hw hocc
      refine ⟨B, exprMatch_find_mono q b2 mid σ w B h2 hfind, ?_⟩
      intro nm hnm
      simp only [Expr.usesVar, Bool.or_eq_true]
      exact Or.inl (hsub nm hnm)
    · obtain ⟨B, hfind, hsub⟩ := exprMatch_binds_subterm q b2 mid σ w h2 hw hocc
      refine ⟨B, hfind, ?_⟩
      intro nm hnm
      simp only [Expr.usesVar, Bool.or_eq_true]
      exact Or.inr (hsub nm hnm)
  | .mul p q, e, m, σ, w, hm, hw, hocc => by
    simp only [exprMatch] at hm
    cases e <;> simp only [] at hm <;> try exact Option.noConfusion hm
    rename_i a b2
    obtain ⟨mid, h1, h2⟩ := Option.bind_eq_some.mp hm
    simp only [Expr.usesVar, Bool.or_eq_true] at hocc
    rcases hocc with hocc | hocc
    · obtain ⟨B, hfind, hsub⟩ := exprMatch_binds_subterm p a m mid w h1 hw hocc
      refine ⟨B, exprMatch_find_mono q b2 mid σ w B h2 hfind, ?_⟩
      intro nm hnm
      simp only [Expr.usesVar, Bool.or_eq_true]
      exact Or.inl (hsub nm hnm)
    · obtain ⟨B, hfind, hsub⟩ := exprMatch_binds_subterm q b2 mid σ w h2 hw hocc
      refine ⟨B, hfind, ?_⟩
      intro nm hnm
      simp only [Expr.usesVar, Bool.or_eq_true]
      exact Or.inr (hsub nm hnm)
  | .min p q, e, m, σ, w, hm, hw, hocc => by
    simp only [exprMatch] at hm
    cases e <;> simp only [] at hm <;> try exact Option.noConfusion hm
    rename_i a b2
    obtain ⟨mid, h1, h2⟩ := Option.bind_eq_some.mp hm
    simp only [Expr.usesVar, Bool.or_eq_true] at hocc
    rcases hocc with hocc | hocc
    · obtain ⟨B, hfind, hsub⟩ := exprMatch_binds_subterm p a m mid w h1 hw hocc
      refine ⟨B, exprMatch_find_mono q b2 mid σ w B h2 hfind, ?_⟩
      intro nm hnm
      simp only [Expr.usesVar, Bool.or_eq_true]
      exact Or.inl (hsub nm hnm)
    · obtain ⟨B, hfind, hsub⟩ := exprMatch_binds_subterm q b2 mid σ w h2 hw hocc
      refine ⟨B, hfind, ?_⟩
      intro nm hnm
      simp only [Expr.usesVar, Bool.or_eq_true]
      exact Or.inr (hsub nm hnm)
  | .max p q, e, m, σ, w, hm, hw, hocc => by
    simp only [exprMatch] at hm
    cases e <;> simp only [] at hm <;> try exact Option.noConfusion hm
    rename_i a b2
    obtain ⟨mid, h1, h2⟩ := Option.bind_eq_some.mp hm
    simp only [Expr.usesVar, Bool.or_eq_true] at hocc
    rcases hocc with hocc | hocc
    · obtain ⟨B, hfind, hsub⟩ := exprMatch_binds_subterm p a m mid w h1 hw hocc
      refine ⟨B, exprMatch_find_mono q b2 mid σ w B h2 hfind, ?_⟩
      intro nm hnm
      simp only [Expr.usesVar, Bool.or_eq_true]
      exact Or.inl (hsub nm hnm)
    · obtain ⟨B, hfind, hsub⟩ := exprMatch_binds_subterm q b2 mid σ w h2 hw hocc
      refine ⟨B, hfind, ?_⟩
      intro nm hnm
      simp only [Expr.usesVar, Bool.or_eq_true]
      exact Or.inr (hsub nm hnm)
  | .and p q, e, m, σ, w, hm, hw, hocc => by
    simp only [exprMatch] at hm
    cases e <;> simp only [] at hm <;> try exact Option.noConfusion hm
    rename_i a b2
    obtain ⟨mid, h1, h2⟩ := Option.bind_eq_some.mp hm
    simp only [Expr.usesVar, Bool.or_eq_true] at hocc
    rcases hocc with hocc | hocc
    · obtain ⟨B, hfind, hsub⟩ := exprMatch_binds_subterm p a m mid w h1 hw hocc
      refine ⟨B, exprMatch_find_mono q b2 mid σ w B h2 hfind, ?_⟩
      intro nm hnm
      simp only [Expr.usesVar, Bool.or_eq_true]
      exact Or.inl (hsub nm hnm)
    · obtain ⟨B, hfind, hsub⟩ := exprMatch_binds_subterm q b2 mid σ w h2 hw hocc
      refine ⟨B, hfind, ?_⟩
      intro nm hnm
      simp only [Expr.usesVar, Bool.or_eq_true]
      exact Or.inr (hsub nm hnm)
  | .or p q, e, m, σ, w, hm, hw, hocc => by
    simp only [exprMatch] at hm
    cases e <;> simp only [] at hm <;> try exact Option.noConfusion hm
    rename_i a b2
    obtain ⟨mid, h1, h2⟩ := Option.bind_eq_some.mp hm
    simp only [Expr.usesVar, Bool.or_eq_true] at hocc
    rcases hocc with hocc | hocc
    · obtain ⟨B, hfind, hsub⟩ := exprMatch_binds_subterm p a m mid w h1 hw hocc
      refine ⟨B, exprMatch_find_mono q b2 mid σ w B h2 hfind, ?_⟩
      intro nm hnm
      simp only [Expr.usesVar, Bool.or_eq_true]
      exact Or.inl (hsub nm hnm)
    · obtain ⟨B, hfind, hsub⟩ := exprMatch_binds_subterm q b2 mid σ w h2 hw hocc
      refine ⟨B, hfind, ?_⟩
      intro nm hnm
      simp only [Expr.usesVar, Bool.or_eq_true]
      exact Or.inr (hsub nm hnm)
  | .lt p q, e, m, σ, w, hm, hw, hocc => by
    simp only [exprMatch] at hm
    cases e <;> simp only [] at hm <;> try exact Option.noConfusion hm
    rename_i a b2
    obtain ⟨mid, h1, h2⟩ := Option.bind_eq_some.mp hm
    simp only [Expr.usesVar, Bool.or_eq_true] at hocc
    rcases hocc with hocc | hocc
    · obtain ⟨B, hfind, hsub⟩ := exprMatch_binds_subterm p a m mid w h1 hw hocc
      refine ⟨B, exprMatch_find_mono q b2 mid σ w B h2 hfind, ?_⟩
      intro nm hnm
      simp only [Expr.usesVar, Bool.or_eq_true]
      exact Or.inl (hsub nm hnm)
    · obtain ⟨B, hfind, hsub⟩ := exprMatch_binds_subterm q b2 mid σ w h2 hw hocc
      refine ⟨B, hfind, ?_⟩
      intro nm hnm
      simp only [Expr.usesVar, Bool.or_eq_true]
      exact Or.inr (hsub nm hnm)
  | .select pc pt pf, e, m, σ, w, hm, hw, hocc => by
    simp only [exprMatch] at hm
    cases e <;> simp only [] at hm <;> try exact Option.noConfusion hm
    rename_i c tv fv
    obtain ⟨mid2, h12, h3⟩ := Option.bind_eq_some.mp hm
    obtain ⟨mid1, h1, h2⟩ := Option.bind_eq_some.mp h12
    simp only [Expr.usesVar, Bool.or_eq_true] at hocc
    rcases hocc with (hocc | hocc) | hocc
    · obtain ⟨B, hfind, hsub⟩ := exprMatch_binds_subterm pc c m mid1 w h1 hw hocc
      refine ⟨B, exprMatch_find_mono pf fv mid2 σ w B h3
        (exprMatch_find_mono pt tv mid1 mid2 w B h2 hfind), ?_⟩
      intro nm hnm
      simp only [Expr.usesVar, Bool.or_eq_true]
      exact Or.inl (Or.inl (hsub nm hnm))
    · obtain ⟨B, hfind, hsub⟩ := exprMatch_binds_subterm pt tv mid1 mid2 w h2 hw hocc
      refine ⟨B, exprMatch_find_mono pf fv mid2 σ w B h3 hfind, ?_⟩
      intro nm hnm
      simp only [Expr.usesVar, Bool.or_eq_true]
      exact Or.inl (Or.inr (hsub nm hnm))
    · obtain ⟨B, hfind, hsub⟩ := exprMatch_binds_subterm pf fv mid2 σ w h3 hw hocc
      refine ⟨B, hfind, ?_⟩
      intro nm hnm
      simp only [Expr.usesVar, Bool.or_eq_true]
      exact Or.inr (hsub nm hnm)
  | .call t nmc pargs vi ct, e, m, σ, w, hm, hw, hocc => by
    simp only [exprMatch] at hm
    cases e <;> simp only [] at hm <;> try exact Option.noConfusion hm
    rename_i t2 nm2 eargs vi2 ct2
    by_cases hc : nmc = nm2 ∧ vi = vi2 ∧ ct = ct2 ∧ pargs.length = eargs.length
    · rw [if_pos hc] at hm
      simp only [Expr.usesVar] at hocc
      obtain ⟨B, hfind, hsub⟩ :=
        exprMatchArgs_binds_subterm pargs eargs m σ w hm hw hocc
      exact ⟨B, hfind, fun nm h => hsub nm h⟩
    · rw [if_neg hc] at hm
      exact Option.noConfusion hm

theorem exprMatchArgs_binds_subterm :
    ∀ (ps es : ExprList) (m σ : Bindings) (w : String),
      exprMatchArgs ps es m = some σ → isWildcardName w = true →
      ExprList.usesVar ps w = true →
      ∃ B, Bindings.find σ w = some B ∧
        ∀ nm, B.usesVar nm = true → ExprList.usesVar es nm = true
  | .nil, es, m, σ, w, hm, hw, hocc => by
    simp [ExprList.usesVar] at hocc
  | .cons p ps, es, m, σ, w, hm, hw, hocc => by
    rw [exprMatchArgs.eq_def] at hm
    cases es <;> simp only [] at hm <;> try exact Option.noConfusion hm
    rename_i e es2
    obtain ⟨mid, h1, h2⟩ := Option.bind_eq_some.mp hm
    simp only [ExprList.usesVar, Bool.or_eq_true] at hocc
    rcases hocc with hocc | hocc
    · obtain ⟨B, hfind, hsub⟩ := exprMatch_binds_subterm p e m mid w h1 hw hocc
      refine ⟨B, exprMatchArgs_find_mono ps es2 mid σ w B h2 hfind, ?_⟩
      intro nm hnm
      simp only [ExprList.usesVar, Bool.or_eq_true]
      exact Or.inl (hsub nm hnm)
    · obtain ⟨B, hfind, hsub⟩ := exprMatchArgs_binds_subterm ps es2 mid σ w h2 hw hocc
      refine ⟨B, hfind, ?_⟩
      intro nm hnm
      simp only [ExprList.usesVar, Bool.or_eq_true]
      exact Or.inr (hsub nm hnm)

end

/-- Merging keeps every binding already accumulated. -/
theorem mergeBindings_mono :
    ∀ (result accum out : Bindings),
      mergeBindings result accum = some out →
      ∀ k B, Bindings.find accum k = some B → Bindings.find out k = some B
  | [], accum, out, h, k, B, hf => by
    obtain rfl := Option.some.inj h
    exact hf
  | kv :: rest, accum, out, h, k, B, hf => by
    rw [mergeBindings.eq_def] at h
    simp only [] at h
    split at h
    · rename_i hsc
      refine mergeBindings_mono rest _ out h k B ?_
      rw [bfind_append, hf]
      rfl
    · rename_i prev hsc
      by_cases hpe : prev = kv.2
      · rw [if_pos hpe] at h
        exact mergeBindings_mono rest accum out h k B hf
      · rw [if_neg hpe] at h
        exact Option.noConfusion h

/-- Every binding of the merged-in map survives into the merge result
(with the same value: a disagreement makes the merge fail). -/
theorem mergeBindings_find :
    ∀ (result accum out : Bindings),
      mergeBindings result accum = some out →
      ∀ k B, Bindings.find result k = some B → Bindings.find out k = some B
  | [], accum, out, h, k, B, hf => by
    simp [Bindings.find] at hf
  | kv :: rest, accum, out, h, k, B, hf => by
    obtain ⟨k1, v1⟩ := kv
    rw [mergeBindings.eq_def] at h
    simp only [] at h
    rw [bfind_cons] at hf
    by_cases hk : k1 = k
    · rw [if_pos hk] at hf
      obtain rfl := Option.some.inj hf
      subst hk
      split at h
      · rename_i hsc
        refine mergeBindings_mono rest _ out h k1 v1 ?_
        rw [bfind_append, hsc, bfind_cons]
        simp
      · rename_i prev hsc
        by_cases hpe : prev = v1
        · rw [if_pos hpe] at h
          subst hpe
          exact mergeBindings_mono rest accum out h k1 prev hsc
        · rw [if_neg hpe] at h
          exact Option.noConfusion h
    · rw [if_neg hk] at hf
      split at h
      · rename_i hsc
        exact mergeBindings_find rest _ out h k B hf
      · rename_i prev hsc
        by_cases hpe : prev = v1
        · rw [if_pos hpe] at h
          exact mergeBindings_find rest accum out h k B hf
        · rw [if_neg hpe] at h
          exact Option.noConfusion h

/-- The y-wildcard names of small indices are wildcard names. -/
theorem ywildcard_small : ∀ j, j < 10 → isWildcardName ("y" ++ toString j) = true := by
  decide

/-! ## Lemmas about the pattern matching pipeline -/

/-- A y-wildcard occurring in the element pattern is bound by a
successful `associative_op_pattern_match`, its binding passes the scope
check, and its binding is a subtree of the element. -/
theorem patternMatch_y_binding (e op : Expr) (xn yn scope : List String)
    (accum out : Bindings) (j : Nat)
    (hj : j < yn.length)
    (hwj : isWildcardName ("y" ++ toString j) = true)
    (hocc : op.usesVar ("y" ++ toString j) = true)
    (h : associativeOpPatternMatch e op xn yn scope accum = some out) :
    ∃ B, Bindings.find out ("y" ++ toString j) = some B ∧
      exprUsesVars B scope = false ∧
      ∀ nm, B.usesVar nm = true → e.usesVar nm = true := by
  unfold associativeOpPatternMatch at h
  split at h
  · exact Option.noConfusion h
  · rename_i result hres
    split_ifs at h with hx hy
    · obtain ⟨B, hfindres, hsub⟩ :=
        exprMatch_binds_subterm op e [] result ("y" ++ toString j) hres hwj hocc
      have hscope : exprUsesVars B scope = false := by
        have hj2 := List.all_eq_true.mp hy j (List.mem_range.mpr hj)
        rw [hfindres] at hj2
        simpa using hj2
      exact ⟨B, mergeBindings_find result accum out h _ B hfindres, hscope, hsub⟩

/-- The rebuild loop never touches the `ys` replacements. -/
theorem findMatchRebuild_ys (exprs : List Expr) (pattern : AssociativePattern)
    (repl : List (Expr × Expr)) :
    ∀ (il : List Nat) (assoc : AssociativeOp),
      (findMatchRebuild exprs pattern repl il assoc).ys = assoc.ys
  | [], _ => rfl
  | i :: il, assoc => findMatchRebuild_ys exprs pattern repl il _

/-- Indices outside the processed list keep their `ys` entry. -/
theorem findMatchYLoop_untouched (xn yn : List String) (xps : List (Option Expr))
    (pm : Bindings) :
    ∀ (il : List Nat) (assoc : AssociativeOp) (repl repl2 : List (Expr × Expr))
      (out : AssociativeOp),
      findMatchYLoop xn yn xps pm il assoc repl = (some repl2, out) →
      ∀ idx, idx ∉ il →
        out.ys.getD idx ⟨"", none⟩ = assoc.ys.getD idx ⟨"", none⟩
  | [], assoc, repl, repl2, out, h, idx, hni => by
    injection h with h1 h2
    rw [← h2]
  | i :: il, assoc, repl, repl2, out, h, idx, hni => by
    simp only [findMatchYLoop] at h
    split at h
    · exact Option.noConfusion (congrArg Prod.fst h)
    · rename_i y_part heq
      have hne : idx ≠ i := fun he => hni (he ▸ List.mem_cons_self i il)
      rw [findMatchYLoop_untouched xn yn xps pm il _ _ repl2 out h idx
        (fun hin => hni (List.mem_cons_of_mem i hin))]
      exact getD_set_ne _ _ _ _ _ (Ne.symm hne)

/-- Every processed in-bounds index gets its `ys` entry from the bound
`y{index}` wildcard. -/
theorem findMatchYLoop_written (xn yn : List String) (xps : List (Option Expr))
    (pm : Bindings) :
    ∀ (il : List Nat) (assoc : AssociativeOp) (repl repl2 : List (Expr × Expr))
      (out : AssociativeOp),
      findMatchYLoop xn yn xps pm il assoc repl = (some repl2, out) →
      ∀ idx ∈ il, idx < assoc.ys.length →
        ∃ B, Bindings.find pm ("y" ++ toString idx) = some B ∧
          out.ys.getD idx ⟨"", none⟩ = ⟨yn.getD idx "", some B⟩
  | [], _, _, _, _, _, idx, hin, _ => absurd hin (List.not_mem_nil idx)
  | i :: il, assoc, repl, repl2, out, h, idx, hin, hlt => by
    simp only [findMatchYLoop] at h
    split at h
    · exact Option.noConfusion (congrArg Prod.fst h)
    · rename_i y_part heq
      by_cases hidx : idx ∈ il
      · refine findMatchYLoop_written xn yn xps pm il _ _ repl2 out h idx hidx ?_
        simp only [List.length_set]
        exact hlt
      · have hie : idx = i := by
          rcases List.mem_cons.mp hin with he | he
          · exact he
          · exact absurd he hidx
        subst hie
        refine ⟨y_part, heq, ?_⟩
        rw [findMatchYLoop_untouched xn yn xps pm il _ _ repl2 out h idx hidx]
        exact getD_set_lt _ _ _ _ hlt

/-- The y-extraction loop preserves the length of `ys`. -/
theorem findMatchYLoop_len (xn yn : List String) (xps : List (Option Expr))
    (pm : Bindings) :
    ∀ (il : List Nat) (assoc : AssociativeOp) (repl : List (Expr × Expr)),
      ((findMatchYLoop xn yn xps pm il assoc repl).2).ys.length = assoc.ys.length
  | [], _, _ => rfl
  | i :: il, assoc, repl => by
    simp only [findMatchYLoop]
    split
    · rfl
    · rw [findMatchYLoop_len xn yn xps pm il]
      simp only [List.length_set]

/-- A candidate try (successful or not) preserves the length of `ys`. -/
theorem findMatchTry_len (xn yn : List String) (xps : List (Option Expr))
    (exprs : List Expr) (scope : List String) (pattern : AssociativePattern)
    (assoc : AssociativeOp) :
    ((findMatchTry xn yn xps exprs scope pattern assoc).2).ys.length =
      assoc.ys.length := by
  unfold findMatchTry
  simp only []
  split
  · rfl
  · rename_i pm hpm
    have hlen := findMatchYLoop_len xn yn xps pm (List.range yn.length) assoc []
    split
    · rename_i a2 heq
      rw [heq] at hlen
      exact hlen
    · rename_i repl a2 heq
      rw [heq] at hlen
      rw [findMatchRebuild_ys]
      exact hlen

/-- A successful table lookup comes from a successful try of some table
entry, from some intermediate accumulator of the right size. -/
theorem findMatchGo_success (xn yn : List String) (xps : List (Option Expr))
    (exprs : List Expr) (scope : List String) :
    ∀ (tbl : List AssociativePattern) (assoc out : AssociativeOp),
      findMatchGo xn yn xps exprs scope tbl assoc = (true, out) →
      assoc.ys.length = yn.length →
      ∃ p ∈ tbl, ∃ a0 : AssociativeOp, a0.ys.length = yn.length ∧
        findMatchTry xn yn xps exprs scope p a0 = (true, out)
  | [], assoc, out, h, hlen => by
    exact Bool.noConfusion (congrArg Prod.fst h)
  | p :: rest, assoc, out, h, hlen => by
    simp only [findMatchGo] at h
    split at h
    · rename_i a2 heq
      injection h with h1 h2
      subst h2
      exact ⟨p, List.mem_cons_self p rest, assoc, hlen, heq⟩
    · rename_i a2 heq
      have hlen2 : a2.ys.length = yn.length := by
        have := findMatchTry_len xn yn xps exprs scope p assoc
        rw [heq] at this
        rw [this]
        exact hlen
      obtain ⟨p2, hp2, a0, hl0, htry⟩ :=
        findMatchGo_success xn yn xps exprs scope rest a2 out h hlen2
      exact ⟨p2, List.mem_cons_of_mem p hp2, a0, hl0, htry⟩

/-- Splitting the per-element matching loop. -/
theorem findMatchPm_append (xn yn scope : List String)
    (pattern : AssociativePattern) (exprs : List Expr) :
    ∀ (l1 l2 : List Nat) (acc out : Bindings),
      findMatchPm xn yn scope pattern exprs (l1 ++ l2) acc = some out →
      ∃ mid, findMatchPm xn yn scope pattern exprs l1 acc = some mid ∧
        findMatchPm xn yn scope pattern exprs l2 mid = some out
  | [], l2, acc, out, h => ⟨acc, rfl, h⟩
  | i :: l1, l2, acc, out, h => by
    simp only [List.cons_append, findMatchPm] at h
    split at h
    · exact Option.noConfusion h
    · rename_i op hop
      split at h
      · exact Option.noConfusion h
      · rename_i acc2 hacc2
        obtain ⟨mid, h1, h2⟩ :=
          findMatchPm_append xn yn scope pattern exprs l1 l2 acc2 out h
        refine ⟨mid, ?_, h2⟩
        simp only [findMatchPm]
        rw [hop]
        simp only []
        rw [hacc2]
        exact h1

/-- Every table entry of arity two mentions every y-wildcard in its last
operator. -/
theorem getOpsTable_last_y (es : List Expr) :
    ∀ p ∈ getOpsTable es, ∀ j, j < es.length →
      ∃ opl, p.ops.getD (es.length - 1) none = some opl ∧
        opl.usesVar ("y" ++ toString j) = true := by
  intro p hp j hj
  unfold getOpsTable at hp
  split_ifs at hp with h2
  · rw [h2] at hj ⊢
    simp only [List.mem_cons, List.mem_singleton] at hp
    interval_cases j
    · rcases hp with rfl | rfl | hp
      · exact ⟨_, rfl, by decide⟩
      · exact ⟨_, rfl, by decide⟩
      · exact absurd hp (List.not_mem_nil p)
    · rcases hp with rfl | rfl | hp
      · exact ⟨_, rfl, by decide⟩
      · exact ⟨_, rfl, by decide⟩
      · exact absurd hp (List.not_mem_nil p)
  · exact absurd hp (List.not_mem_nil p)

/-! ## Where the extractor writes its y-replacement -/

/-- Setting at an out-of-range index leaves `getD` unchanged. -/
theorem getD_set_ge {α : Type} (l : List α) (i : Nat) (a d : α)
    (h : l.length ≤ i) : (l.set i a).getD i d = l.getD i d := by
  rw [List.set_eq_of_length_le h]

/-- The single-element extractor leaves a `ys` entry alone or writes the
proved index's entry with an expression that is a subtree of the element
and (when an `x_part` was recorded) passed the occurrence check against
the element's own fresh x-name. -/
theorem extract_ys (index : Nat) (xn yn : List String) (xp : Option Expr)
    (e : Expr) (assoc : AssociativeOp) :
    ∀ i, ((extractAssociativeOpSingleElement index xn yn xp e assoc).2).ys.getD i
        ⟨"", none⟩ = assoc.ys.getD i ⟨"", none⟩ ∨
      (i = index ∧ ∃ B,
        ((extractAssociativeOpSingleElement index xn yn xp e assoc).2).ys.getD i
          ⟨"", none⟩ = ⟨yn.getD index "", some B⟩ ∧
        (∀ nm, B.usesVar nm = true → e.usesVar nm = true) ∧
        (xp.isSome = true → B.usesVar (xn.getD index "") = false)) := by
  intro i
  unfold extractAssociativeOpSingleElement
  cases xp with
  | none =>
    simp only []
    by_cases hi : i = index
    · subst hi
      by_cases hlen : i < assoc.ys.length
      · refine Or.inr ⟨rfl, e, ?_, fun nm h => h, by simp⟩
        exact getD_set_lt _ _ _ _ hlen
      · exact Or.inl (getD_set_ge _ _ _ _ (Nat.le_of_not_lt hlen))
    · left
      exact getD_set_ne _ _ _ _ _ (fun he => hi he.symm)
  | some xv =>
    simp only []
    rw [extractFallback_eq]
    cases e <;> simp only [] <;> try (left; trivial)
    case add a b =>
      unfold visitAssociativeBinaryOp
      cases a <;> (try dsimp only) <;> try exact Or.inl rfl
      rename_i t2 nm2
      by_cases h1 : nm2 ≠ xn.getD index ""
      · rw [if_pos h1]
        exact Or.inl rfl
      · rw [if_neg h1]
        by_cases h2 : b.usesVar (xn.getD index "") = true
        · rw [if_pos h2]
          exact Or.inl rfl
        · rw [if_neg h2]
          by_cases hi : i = index
          · subst hi
            by_cases hlen : i < assoc.ys.length
            · refine Or.inr ⟨rfl, b, ?_, ?_, ?_⟩
              · exact getD_set_lt _ _ _ _ hlen
              · intro nm hnm
                simp only [Expr.usesVar, Bool.or_eq_true]
                exact Or.inr hnm
              · intro _
                simpa using h2
            · exact Or.inl (getD_set_ge _ _ _ _ (Nat.le_of_not_lt hlen))
          · left
            exact getD_set_ne _ _ _ _ _ (fun he => hi he.symm)
    case sub a b =>
      unfold visitAssociativeBinaryOp
      cases a <;> (try dsimp only) <;> try exact Or.inl rfl
      rename_i t2 nm2
      by_cases h1 : nm2 ≠ xn.getD index ""
      · rw [if_pos h1]
        exact Or.inl rfl
      · rw [if_neg h1]
        by_cases h2 : b.usesVar (xn.getD index "") = true
        · rw [if_pos h2]
          exact Or.inl rfl
        · rw [if_neg h2]
          by_cases hi : i = index
          · subst hi
            by_cases hlen : i < assoc.ys.length
            · refine Or.inr ⟨rfl, b, ?_, ?_, ?_⟩
              · exact getD_set_lt _ _ _ _ hlen
              · intro nm hnm
                simp only [Expr.usesVar, Bool.or_eq_true]
                exact Or.inr hnm
              · intro _
                simpa using h2
            · exact Or.inl (getD_set_ge _ _ _ _ (Nat.le_of_not_lt hlen))
          · left
            exact getD_set_ne _ _ _ _ _ (fun he => hi he.symm)
    case mul a b =>
      unfold visitAssociativeBinaryOp
      cases a <;> (try dsimp only) <;> try exact Or.inl rfl
      rename_i t2 nm2
      by_cases h1 : nm2 ≠ xn.getD index ""
      · rw [if_pos h1]
        exact Or.inl rfl
      · rw [if_neg h1]
        by_cases h2 : b.usesVar (xn.getD index "") = true
        · rw [if_pos h2]
          exact Or.inl rfl
        · rw [if_neg h2]
          by_cases hi : i = index
          · subst hi
            by_cases hlen : i < assoc.ys.length
            · refine Or.inr ⟨rfl, b, ?_, ?_, ?_⟩
              · exact getD_set_lt _ _ _ _ hlen
              · intro nm hnm
                simp only [Expr.usesVar, Bool.or_eq_true]
                exact Or.inr hnm
              · intro _
                simpa using h2
            · exact Or.inl (getD_set_ge _ _ _ _ (Nat.le_of_not_lt hlen))
          · left
            exact getD_set_ne _ _ _ _ _ (fun he => hi he.symm)
    case min a b =>
      unfold visitAssociativeBinaryOp
      cases a <;> (try dsimp only) <;> try exact Or.inl rfl
      rename_i t2 nm2
      by_cases h1 : nm2 ≠ xn.getD index ""
      · rw [if_pos h1]
        exact Or.inl rfl
      · rw [if_neg h1]
        by_cases h2 : b.usesVar (xn.getD index "") = true
        · rw [if_pos h2]
          exact Or.inl rfl
        · rw [if_neg h2]
          by_cases hi : i = index
          · subst hi
            by_cases hlen : i < assoc.ys.length
            · refine Or.inr ⟨rfl, b, ?_, ?_, ?_⟩
              · exact getD_set_lt _ _ _ _ hlen
              · intro nm hnm
                simp only [Expr.usesVar, Bool.or_eq_true]
                exact Or.inr hnm
              · intro _
                simpa using h2
            · exact Or.inl (getD_set_ge _ _ _ _ (Nat.le_of_not_lt hlen))
          · left
            exact getD_set_ne _ _ _ _ _ (fun he => hi he.symm)
    case max a b =>
      unfold visitAssociativeBinaryOp
      cases a <;> (try dsimp only) <;> try exact Or.inl rfl
      rename_i t2 nm2
      by_cases h1 : nm2 ≠ xn.getD index ""
      · rw [if_pos h1]
        exact Or.inl rfl
      · rw [if_neg h1]
        by_cases h2 : b.usesVar (xn.getD index "") = true
        · rw [if_pos h2]
          exact Or.inl rfl
        · rw [if_neg h2]
          by_cases hi : i = index
          · subst hi
            by_cases hlen : i < assoc.ys.length
            · refine Or.inr ⟨rfl, b, ?_, ?_, ?_⟩
              · exact getD_set_lt _ _ _ _ hlen
              · intro nm hnm
                simp only [Expr.usesVar, Bool.or_eq_true]
                exact Or.inr hnm
              · intro _
                simpa using h2
            · exact Or.inl (getD_set_ge _ _ _ _ (Nat.le_of_not_lt hlen))
          · left
            exact getD_set_ne _ _ _ _ _ (fun he => hi he.symm)
    case and a b =>
      unfold visitAssociativeBinaryOp
      cases a <;> (try dsimp only) <;> try exact Or.inl rfl
      rename_i t2 nm2
      by_cases h1 : nm2 ≠ xn.getD index ""
      · rw [if_pos h1]
        exact Or.inl rfl
      · rw [if_neg h1]
        by_cases h2 : b.usesVar (xn.getD index "") = true
        · rw [if_pos h2]
          exact Or.inl rfl
        · rw [if_neg h2]
          by_cases hi : i = index
          · subst hi
            by_cases hlen : i < assoc.ys.length
            · refine Or.inr ⟨rfl, b, ?_, ?_, ?_⟩
              · exact getD_set_lt _ _ _ _ hlen
              · intro nm hnm
                simp only [Expr.usesVar, Bool.or_eq_true]
                exact Or.inr hnm
              · intro _
                simpa using h2
            · exact Or.inl (getD_set_ge _ _ _ _ (Nat.le_of_not_lt hlen))
          · left
            exact getD_set_ne _ _ _ _ _ (fun he => hi he.symm)
    case or a b =>
      unfold visitAssociativeBinaryOp
      cases a <;> (try dsimp only) <;> try exact Or.inl rfl
      rename_i t2 nm2
      by_cases h1 : nm2 ≠ xn.getD index ""
      · rw [if_pos h1]
        exact Or.inl rfl
      · rw [if_neg h1]
        by_cases h2 : b.usesVar (xn.getD index "") = true
        · rw [if_pos h2]
          exact Or.inl rfl
        · rw [if_neg h2]
          by_cases hi : i = index
          · subst hi
            by_cases hlen : i < assoc.ys.length
            · refine Or.inr ⟨rfl, b, ?_, ?_, ?_⟩
              · exact getD_set_lt _ _ _ _ hlen
              · intro nm hnm
                simp only [Expr.usesVar, Bool.or_eq_true]
                exact Or.inr hnm
              · intro _
                simpa using h2
            · exact Or.inl (getD_set_ge _ _ _ _ (Nat.le_of_not_lt hlen))
          · left
            exact getD_set_ne _ _ _ _ _ (fun he => hi he.symm)

/-- The per-index name lists produced by the fresh-name loop have one
entry per tuple element. -/
theorem genNamesGo_len (ext : Externals) :
    ∀ (l : List Nat) (st : List String × List String × Nat),
      (genNamesGo ext l st).1.length = st.1.length + l.length ∧
      (genNamesGo ext l st).2.1.length = st.2.1.length + l.length
  | [], st => ⟨by simp [genNamesGo], by simp [genNamesGo]⟩
  | i :: l, st => by
    simp only [genNamesGo]
    obtain ⟨h1, h2⟩ := genNamesGo_len ext l
      (st.1 ++ [(ext.uniqueName ("_x_" ++ toString i) st.2.2).1],
       st.2.1 ++ [(ext.uniqueName ("_y_" ++ toString i)
         (ext.uniqueName ("_x_" ++ toString i) st.2.2).2).1],
       (ext.uniqueName ("_y_" ++ toString i)
         (ext.uniqueName ("_x_" ++ toString i) st.2.2).2).2)
    constructor
    · rw [h1]
      simp only [List.length_append, List.length_cons, List.length_nil]
      omega
    · rw [h2]
      simp only [List.length_append, List.length_cons, List.length_nil]
      omega

theorem genNames_len (ext : Externals) (n c : Nat) :
    (genNames ext n c).1.length = n ∧ (genNames ext n c).2.1.length = n := by
  obtain ⟨h1, h2⟩ := genNamesGo_len ext (List.range n) ([], [], c)
  rw [genNames]
  constructor
  · rw [h1]
    simp
  · rw [h2]
    simp

/-- A successful candidate try writes every in-range `ys` entry with a
binding that passes the scope check and is a subtree of the subgraph's
last element. -/
theorem findMatchTry_ys (xn yn : List String) (xps : List (Option Expr))
    (exprs : List Expr) (scope : List String) (pattern : AssociativePattern)
    (assoc out : AssociativeOp)
    (hlen : assoc.ys.length = yn.length)
    (heqL : yn.length = exprs.length)
    (htable : ∀ j, j < yn.length →
      ∃ opl, pattern.ops.getD (exprs.length - 1) none = some opl ∧
        opl.usesVar ("y" ++ toString j) = true)
    (hwild : ∀ j, j < yn.length → isWildcardName ("y" ++ toString j) = true)
    (h : findMatchTry xn yn xps exprs scope pattern assoc = (true, out)) :
    ∀ j, j < yn.length → ∃ B,
      out.ys.getD j ⟨"", none⟩ = ⟨yn.getD j "", some B⟩ ∧
      exprUsesVars B scope = false ∧
      ∀ nm, B.usesVar nm = true →
        (exprs.getD (exprs.length - 1) (.intImm .i32 0)).usesVar nm = true := by
  intro j hj
  unfold findMatchTry at h
  simp only [] at h
  split at h
  · exact Bool.noConfusion (congrArg Prod.fst h)
  · rename_i pm hpm
    split at h
    · exact Bool.noConfusion (congrArg Prod.fst h)
    · rename_i repl a2 hyl
      injection h with h1 h2
      obtain ⟨B, hfind, hset⟩ := findMatchYLoop_written xn yn xps pm
        (List.range yn.length) assoc [] repl a2 hyl j (List.mem_range.mpr hj)
        (by rw [hlen]; exact hj)
      have hLpos : 0 < exprs.length := by omega
      obtain ⟨L0, hL0⟩ : ∃ L0, exprs.length = L0 + 1 :=
        ⟨exprs.length - 1, by omega⟩
      have hsplitrange : List.range exprs.length = List.range L0 ++ [L0] := by
        rw [hL0]
        exact List.range_succ L0
      rw [hsplitrange] at hpm
      obtain ⟨mid, hpm1, hpm2⟩ :=
        findMatchPm_append xn yn scope pattern exprs _ _ _ _ hpm
      simp only [findMatchPm] at hpm2
      split at hpm2
      · exact Option.noConfusion hpm2
      · rename_i opl hopl
        split at hpm2
        · exact Option.noConfusion hpm2
        · rename_i acc2 hacc2
          obtain rfl := Option.some.inj hpm2
          obtain ⟨opl2, hopl2, hocc⟩ := htable j hj
          have hL0e : exprs.length - 1 = L0 := by omega
          rw [hL0e, hopl] at hopl2
          obtain rfl := Option.some.inj hopl2
          obtain ⟨B2, hfind2, hscope2, hsub2⟩ :=
            patternMatch_y_binding (exprs.getD L0 (.intImm .i32 0)) opl xn yn scope
              mid acc2 j hj (hwild j hj) hocc hacc2
          rw [hfind] at hfind2
          obtain rfl := Option.some.inj hfind2
          refine ⟨B, ?_, hscope2, ?_⟩
          · rw [← h2, findMatchRebuild_ys]
            exact hset
          · rw [hL0e]
            exact hsub2

/-! ## Variable tracking through the per-element loop -/

/-- One step of the per-element loop preserves the tracking invariant:
lengths, the variable/dependency correspondence, sortedness of the rows,
the self-only shape of rows under `all_independent`, and the
`x_part`-recorded-for-self-dependency fact. -/
theorem proveLoop_step (ext : Externals) (f : String) (largs : ExprList)
    (names : List String) (orig : List Expr)
    (hsimp : ∀ e nm, (ext.simplify e).usesVar nm = true → e.usesVar nm = true)
    (hcse : ∀ e nm, (ext.cse e).usesVar nm = true → e.usesVar nm = true)
    (hlets : ∀ e nm, (ext.substituteInAllLets e).usesVar nm = true → e.usesVar nm = true)
    (hsolve : ∀ e v nm, (ext.solve e v).usesVar nm = true → e.usesVar nm = true)
    (idx : Nat) (exprs : List Expr) (deps : List (List Nat))
    (xps : List (Option Expr)) (ai : Bool)
    (hidxlt : idx < orig.length)
    (hprist : exprs.getD idx (.intImm .i32 0) = orig.getD idx (.intImm .i32 0))
    (hlene : exprs.length = orig.length)
    (hlend : deps.length = orig.length)
    (hlenx : xps.length = orig.length)
    (htrack : ∀ m nm, (exprs.getD m (.intImm .i32 0)).usesVar nm = true →
      (∃ e0 ∈ orig, e0.usesVar nm = true) ∨
      ∃ k ∈ deps.getD m [], nm = names.getD k "")
    (hsort : ∀ m, (deps.getD m []).Chain' (· < ·))
    (hai : ai = true → ∀ m, ∀ k ∈ deps.getD m [], k = m)
    (hxs : ∀ m, m ∈ deps.getD m [] → (xps.getD m none).isSome = true)
    (e3 : Expr)
    (he3 : e3 = ext.substituteInAllLets (ext.cse (ext.simplify
      (exprs.getD idx (.intImm .i32 0)))))
    (rcv : Expr × ConvState)
    (hrcv : rcv = convertSelfRef f largs idx names e3 ConvState.init)
    (e4 : Expr)
    (he4 : e4 = ext.substituteInAllLets (ext.solve (ext.simplify (ext.cse rcv.1))
      (names.getD idx "")))
    (deprow : List Nat)
    (hdeprow : deprow = if rcv.2.x_part.isSome then
      insertSorted idx rcv.2.x_dependencies else rcv.2.x_dependencies) :
    (exprs.set idx e4).length = orig.length ∧
    (deps.set idx deprow).length = orig.length ∧
    (xps.set idx rcv.2.x_part).length = orig.length ∧
    (∀ m nm, ((exprs.set idx e4).getD m (.intImm .i32 0)).usesVar nm = true →
      (∃ e0 ∈ orig, e0.usesVar nm = true) ∨
      ∃ k ∈ (deps.set idx deprow).getD m [], nm = names.getD k "") ∧
    (∀ m, ((deps.set idx deprow).getD m []).Chain' (· < ·)) ∧
    ((ai && rcv.2.x_dependencies.isEmpty) = true →
      ∀ m, ∀ k ∈ (deps.set idx deprow).getD m [], k = m) ∧
    (∀ m, m ∈ (deps.set idx deprow).getD m [] →
      ((xps.set idx rcv.2.x_part).getD m none).isSome = true) := by
  refine ⟨by rw [List.length_set]; exact hlene,
    by rw [List.length_set]; exact hlend,
    by rw [List.length_set]; exact hlenx, ?_, ?_, ?_, ?_⟩
  · intro m nm husev
    by_cases hm : m = idx
    · subst hm
      rw [getD_set_lt _ _ _ _ (by rw [hlene]; exact hidxlt)] at husev
      have h5 : (rcv.1).usesVar nm = true := by
        rw [he4] at husev
        exact hcse _ _ (hsimp _ _ (hsolve _ _ _ (hlets _ _ husev)))
      have h5a : ((convertSelfRef f largs m names e3 ConvState.init).1).usesVar nm = true := by
        rw [← hrcv]
        exact h5
      rcases convert_vars f largs m names e3 ConvState.init nm h5a with hc | hc | hc
      · have h6 : (exprs.getD m (Expr.intImm Ty.i32 0)).usesVar nm = true := by
          rw [he3] at hc
          exact hsimp _ _ (hcse _ _ (hlets _ _ hc))
        left
        rw [hprist] at h6
        exact ⟨orig.getD m (Expr.intImm Ty.i32 0), getD_mem _ _ _ hidxlt, h6⟩
      · right
        refine ⟨m, ?_, hc.2⟩
        rw [getD_set_lt _ _ _ _ (by rw [hlend]; exact hidxlt), hdeprow]
        have hsome : rcv.2.x_part.isSome = true := by
          rw [hrcv]
          exact hc.1
        rw [if_pos hsome]
        exact mem_insertSorted.mpr (Or.inl rfl)
      · obtain ⟨k, hk, hnm⟩ := hc
        right
        refine ⟨k, ?_, hnm⟩
        rw [getD_set_lt _ _ _ _ (by rw [hlend]; exact hidxlt), hdeprow]
        have hk2 : k ∈ rcv.2.x_dependencies := by
          rw [hrcv]
          exact hk
        split_ifs with hxp
        · exact mem_insertSorted.mpr (Or.inr hk2)
        · exact hk2
    · rw [getD_set_ne _ _ _ _ _ (fun he => hm he.symm)] at husev
      rcases htrack m nm husev with hl | ⟨k, hk, hnm⟩
      · exact Or.inl hl
      · right
        refine ⟨k, ?_, hnm⟩
        rw [getD_set_ne _ _ _ _ _ (fun he => hm he.symm)]
        exact hk
  · intro m
    by_cases hm : m = idx
    · subst hm
      by_cases hmlt : m < deps.length
      · rw [getD_set_lt _ _ _ _ hmlt, hdeprow]
        have hs2 : rcv.2.x_dependencies.Chain' (· < ·) := by
          rw [hrcv]
          exact convert_deps_sorted f largs m names e3 ConvState.init List.chain'_nil
        split_ifs with hxp
        · exact chain_insertSorted hs2
        · exact hs2
      · rw [getD_set_ge _ _ _ _ (Nat.le_of_not_lt hmlt)]
        exact hsort m
    · rw [getD_set_ne _ _ _ _ _ (fun he => hm he.symm)]
      exact hsort m
  · intro hA m k hk
    rw [Bool.and_eq_true] at hA
    by_cases hm : m = idx
    · subst hm
      by_cases hmlt : m < deps.length
      · rw [getD_set_lt _ _ _ _ hmlt, hdeprow] at hk
        have hde : rcv.2.x_dependencies = [] := List.isEmpty_iff.mp hA.2
        rw [hde] at hk
        split_ifs at hk with hxp
        · rcases mem_insertSorted.mp hk with rfl | hk2
          · rfl
          · exact absurd hk2 (List.not_mem_nil k)
        · exact absurd hk (List.not_mem_nil k)
      · rw [getD_set_ge _ _ _ _ (Nat.le_of_not_lt hmlt)] at hk
        exact hai hA.1 m k hk
    · rw [getD_set_ne _ _ _ _ _ (fun he => hm he.symm)] at hk
      exact hai hA.1 m k hk
  · intro m hmem
    by_cases hm : m = idx
    · subst hm
      by_cases hmlt : m < deps.length
      · rw [getD_set_lt _ _ _ _ hmlt, hdeprow] at hmem
        by_cases hxp : rcv.2.x_part.isSome = true
        · rw [getD_set_lt _ _ _ _ (by rw [hlenx, ← hlend]; exact hmlt)]
          exact hxp
        · rw [if_neg hxp] at hmem
          have hmem2 : m ∈ ((convertSelfRef f largs m names e3 ConvState.init).2).x_dependencies := by
            rw [← hrcv]
            exact hmem
          rcases convert_deps_noidx f largs m names e3 ConvState.init m hmem2 with h0 | hne
          · exact absurd h0 (List.not_mem_nil m)
          · exact absurd rfl hne
      · rw [getD_set_ge _ _ _ _ (Nat.le_of_not_lt hmlt)] at hmem
        rw [getD_set_ge _ _ _ _ (by rw [hlenx, ← hlend]; exact Nat.le_of_not_lt hmlt)]
        exact hxs m hmem
    · rw [getD_set_ne _ _ _ _ _ (fun he => hm he.symm)] at hmem
      rw [getD_set_ne _ _ _ _ _ (fun he => hm he.symm)]
      exact hxs m hmem

/-- The per-element loop establishes the tracking invariant for its final
state. -/
theorem proveLoop_tracked (ext : Externals) (f : String) (largs : ExprList)
    (names : List String) (orig : List Expr)
    (hsimp : ∀ e nm, (ext.simplify e).usesVar nm = true → e.usesVar nm = true)
    (hcse : ∀ e nm, (ext.cse e).usesVar nm = true → e.usesVar nm = true)
    (hlets : ∀ e nm, (ext.substituteInAllLets e).usesVar nm = true → e.usesVar nm = true)
    (hsolve : ∀ e v nm, (ext.solve e v).usesVar nm = true → e.usesVar nm = true) :
    ∀ (il : List Nat) (exprs : List Expr) (deps : List (List Nat))
      (xps : List (Option Expr)) (ai : Bool)
      (st2 : List Expr × List (List Nat) × List (Option Expr) × Bool),
      proveLoop ext f largs names il (exprs, deps, xps, ai) = some st2 →
      il.Nodup →
      (∀ i ∈ il, i < orig.length) →
      (∀ i ∈ il, exprs.getD i (.intImm .i32 0) = orig.getD i (.intImm .i32 0)) →
      exprs.length = orig.length →
      deps.length = orig.length →
      xps.length = orig.length →
      (∀ m nm, (exprs.getD m (.intImm .i32 0)).usesVar nm = true →
        (∃ e0 ∈ orig, e0.usesVar nm = true) ∨
        ∃ k ∈ deps.getD m [], nm = names.getD k "") →
      (∀ m, (deps.getD m []).Chain' (· < ·)) →
      (ai = true → ∀ m, ∀ k ∈ deps.getD m [], k = m) →
      (∀ m, m ∈ deps.getD m [] → (xps.getD m none).isSome = true) →
      (st2.1.length = orig.length ∧ st2.2.1.length = orig.length ∧
       st2.2.2.1.length = orig.length ∧
       (∀ m nm, (st2.1.getD m (.intImm .i32 0)).usesVar nm = true →
         (∃ e0 ∈ orig, e0.usesVar nm = true) ∨
         ∃ k ∈ st2.2.1.getD m [], nm = names.getD k "") ∧
       (∀ m, (st2.2.1.getD m []).Chain' (· < ·)) ∧
       (st2.2.2.2 = true → ∀ m, ∀ k ∈ st2.2.1.getD m [], k = m) ∧
       (∀ m, m ∈ st2.2.1.getD m [] → (st2.2.2.1.getD m none).isSome = true))
  | [], exprs, deps, xps, ai, st2, h, _, _, _, hlene, hlend, hlenx, htrack, hsort, hai, hxs => by
    obtain rfl := Option.some.inj h
    exact ⟨hlene, hlend, hlenx, htrack, hsort, hai, hxs⟩
  | idx :: rest, exprs, deps, xps, ai, st2, h, hnd, hbound, hprist, hlene, hlend, hlenx,
      htrack, hsort, hai, hxs => by
    simp only [proveLoop] at h
    split at h
    · exact Option.noConfusion h
    · rename_i hsolv
      have hidxlt : idx < orig.length := hbound idx (List.mem_cons_self idx rest)
      have hndr := (List.nodup_cons.mp hnd).2
      have hnin := (List.nodup_cons.mp hnd).1
      have step := proveLoop_step ext f largs names orig hsimp hcse hlets hsolve
        idx exprs deps xps ai hidxlt (hprist idx (List.mem_cons_self idx rest))
        hlene hlend hlenx htrack hsort hai hxs
        _ rfl _ rfl _ rfl _ rfl
      refine proveLoop_tracked ext f largs names orig hsimp hcse hlets hsolve rest
        _ _ _ _ st2 h hndr
        (fun i hi => hbound i (List.mem_cons_of_mem idx hi))
        ?_ step.1 step.2.1 step.2.2.1 step.2.2.2.1 step.2.2.2.2.1
        step.2.2.2.2.2.1 step.2.2.2.2.2.2
      intro i hi
      rw [getD_set_ne _ _ _ _ _ (fun he => hnin (by rw [he]; exact hi))]
      exact hprist i (List.mem_cons_of_mem idx hi)

/-! ## The x-replacement names are always fresh x-names or empty -/

/-- An in-list lookup with the empty default is empty or a member. -/
theorem getD_self_mem (xn : List String) (index : Nat) :
    xn.getD index "" = "" ∨ xn.getD index "" ∈ xn := by
  by_cases hxl : index < xn.length
  · exact Or.inr (getD_mem _ _ _ hxl)
  · exact Or.inl (List.getD_eq_default _ _ (Nat.le_of_not_lt hxl))

/-- Writing one slot whose name is empty-or-listed preserves the shape of
the whole `xs` vector. -/
theorem xsvar_set (xn : List String) (l : List Replacement) (i : Nat)
    (v : Replacement) (hv : v.var = "" ∨ v.var ∈ xn)
    (hold : ∀ m, (l.getD m ⟨"", none⟩).var = "" ∨ (l.getD m ⟨"", none⟩).var ∈ xn) :
    ∀ m, ((l.set i v).getD m ⟨"", none⟩).var = "" ∨
      ((l.set i v).getD m ⟨"", none⟩).var ∈ xn := by
  intro m
  by_cases hm : m = i
  · subst hm
    by_cases hlen : m < l.length
    · rw [getD_set_lt _ _ _ _ hlen]
      exact hv
    · rw [getD_set_ge _ _ _ _ (Nat.le_of_not_lt hlen)]
      exact hold m
  · rw [getD_set_ne _ _ _ _ _ (fun he => hm he.symm)]
    exact hold m

/-- The default result's `xs` entries all carry the empty name. -/
theorem mkSize_xs_var (n : Nat) :
    ∀ i, (((AssociativeOp.mkSize n).xs.getD i ⟨"", none⟩)).var = "" := by
  intro i
  show ((List.replicate n (⟨"", none⟩ : Replacement)).getD i ⟨"", none⟩).var = ""
  have : (List.replicate n (⟨"", none⟩ : Replacement)).getD i ⟨"", none⟩ =
      (⟨"", none⟩ : Replacement) := by
    simp [List.getD_eq_getElem?_getD, List.getElem?_replicate]
    split <;> rfl
  rw [this]

/-- Same for `ys`. -/
theorem mkSize_ys_expr (n : Nat) :
    ∀ i, (((AssociativeOp.mkSize n).ys.getD i ⟨"", none⟩)).expr = none := by
  intro i
  show ((List.replicate n (⟨"", none⟩ : Replacement)).getD i ⟨"", none⟩).expr = none
  have : (List.replicate n (⟨"", none⟩ : Replacement)).getD i ⟨"", none⟩ =
      (⟨"", none⟩ : Replacement) := by
    simp [List.getD_eq_getElem?_getD, List.getElem?_replicate]
    split <;> rfl
  rw [this]

/-- The sub-vector of names drawn from `xn` has entries that are empty or
members of `xn`. -/
theorem getSubvector_names (xn : List String) (sg : List Nat) :
    ∀ k, (getSubvector "" xn sg).getD k "" = "" ∨
      (getSubvector "" xn sg).getD k "" ∈ xn := by
  intro k
  by_cases hk : k < sg.length
  · have hv : (getSubvector "" xn sg).getD k "" = xn.getD (sg.getD k 0) "" := by
      unfold getSubvector
      rw [List.getD_eq_getElem?_getD, List.getElem?_map,
        List.getElem?_eq_getElem hk]
      simp [List.getD_eq_getElem?_getD, List.getElem?_eq_getElem hk]
    rw [hv]
    exact getD_self_mem xn _
  · rw [List.getD_eq_default]
    · exact Or.inl rfl
    · unfold getSubvector
      rw [List.length_map]
      omega

/-- The extractor writes only empty-or-own x-names. -/
theorem extract_xs (index : Nat) (xn yn : List String) (xp : Option Expr)
    (e : Expr) (assoc : AssociativeOp)
    (h : ∀ i, (assoc.xs.getD i ⟨"", none⟩).var = "" ∨
      (assoc.xs.getD i ⟨"", none⟩).var ∈ xn) :
    ∀ i, (((extractAssociativeOpSingleElement index xn yn xp e assoc).2).xs.getD i
        ⟨"", none⟩).var = "" ∨
      (((extractAssociativeOpSingleElement index xn yn xp e assoc).2).xs.getD i
        ⟨"", none⟩).var ∈ xn := by
  intro i
  unfold extractAssociativeOpSingleElement
  cases xp with
  | none =>
    simp only []
    exact xsvar_set xn _ index _ (Or.inl rfl) h i
  | some xv =>
    simp only []
    rw [extractFallback_eq]
    cases e <;> simp only [] <;> try exact h i
    case add a b =>
      unfold visitAssociativeBinaryOp
      cases a <;> (try dsimp only) <;> try exact h i
      rename_i t2 nm2
      by_cases h1 : nm2 ≠ xn.getD index ""
      · rw [if_pos h1]
        exact h i
      · rw [if_neg h1]
        by_cases h2 : b.usesVar (xn.getD index "") = true
        · rw [if_pos h2]
          exact h i
        · rw [if_neg h2]
          exact xsvar_set xn _ index _ (getD_self_mem xn index) h i
    case sub a b =>
      unfold visitAssociativeBinaryOp
      cases a <;> (try dsimp only) <;> try exact h i
      rename_i t2 nm2
      by_cases h1 : nm2 ≠ xn.getD index ""
      · rw [if_pos h1]
        exact h i
      · rw [if_neg h1]
        by_cases h2 : b.usesVar (xn.getD index "") = true
        · rw [if_pos h2]
          exact h i
        · rw [if_neg h2]
          exact xsvar_set xn _ index _ (getD_self_mem xn index) h i
    case mul a b =>
      unfold visitAssociativeBinaryOp
      cases a <;> (try dsimp only) <;> try exact h i
      rename_i t2 nm2
      by_cases h1 : nm2 ≠ xn.getD index ""
      · rw [if_pos h1]
        exact h i
      · rw [if_neg h1]
        by_cases h2 : b.usesVar (xn.getD index "") = true
        · rw [if_pos h2]
          exact h i
        · rw [if_neg h2]
          exact xsvar_set xn _ index _ (getD_self_mem xn index) h i
    case min a b =>
      unfold visitAssociativeBinaryOp
      cases a <;> (try dsimp only) <;> try exact h i
      rename_i t2 nm2
      by_cases h1 : nm2 ≠ xn.getD index ""
      · rw [if_pos h1]
        exact h i
      · rw [if_neg h1]
        by_cases h2 : b.usesVar (xn.getD index "") = true
        · rw [if_pos h2]
          exact h i
        · rw [if_neg h2]
          exact xsvar_set xn _ index _ (getD_self_mem xn index) h i
    case max a b =>
      unfold visitAssociativeBinaryOp
      cases a <;> (try dsimp only) <;> try exact h i
      rename_i t2 nm2
      by_cases h1 : nm2 ≠ xn.getD index ""
      · rw [if_pos h1]
        exact h i
      · rw [if_neg h1]
        by_cases h2 : b.usesVar (xn.getD index "") = true
        · rw [if_pos h2]
          exact h i
        · rw [if_neg h2]
          exact xsvar_set xn _ index _ (getD_self_mem xn index) h i
    case and a b =>
      unfold visitAssociativeBinaryOp
      cases a <;> (try dsimp only) <;> try exact h i
      rename_i t2 nm2
      by_cases h1 : nm2 ≠ xn.getD index ""
      · rw [if_pos h1]
        exact h i
      · rw [if_neg h1]
        by_cases h2 : b.usesVar (xn.getD index "") = true
        · rw [if_pos h2]
          exact h i
        · rw [if_neg h2]
          exact xsvar_set xn _ index _ (getD_self_mem xn index) h i
    case or a b =>
      unfold visitAssociativeBinaryOp
      cases a <;> (try dsimp only) <;> try exact h i
      rename_i t2 nm2
      by_cases h1 : nm2 ≠ xn.getD index ""
      · rw [if_pos h1]
        exact h i
      · rw [if_neg h1]
        by_cases h2 : b.usesVar (xn.getD index "") = true
        · rw [if_pos h2]
          exact h i
        · rw [if_neg h2]
          exact xsvar_set xn _ index _ (getD_self_mem xn index) h i

/-- The y-extraction loop writes only sub-vector x-names. -/
theorem findMatchYLoop_xs (xnall xn2 yn : List String) (xps : List (Option Expr))
    (pm : Bindings)
    (hxn2 : ∀ k, xn2.getD k "" = "" ∨ xn2.getD k "" ∈ xnall) :
    ∀ (il : List Nat) (assoc : AssociativeOp) (repl : List (Expr × Expr)),
      (∀ i, (assoc.xs.getD i ⟨"", none⟩).var = "" ∨
        (assoc.xs.getD i ⟨"", none⟩).var ∈ xnall) →
      ∀ i, ((((findMatchYLoop xn2 yn xps pm il assoc repl).2).xs.getD i
          ⟨"", none⟩).var = "" ∨
        (((findMatchYLoop xn2 yn xps pm il assoc repl).2).xs.getD i
          ⟨"", none⟩).var ∈ xnall)
  | [], assoc, repl, h, i => h i
  | idx :: il, assoc, repl, h, i => by
    simp only [findMatchYLoop]
    split
    · exact h i
    · exact findMatchYLoop_xs xnall xn2 yn xps pm hxn2 il _ _
        (xsvar_set xnall _ idx _ (hxn2 idx) h) i

/-- The rebuild loop never touches the `xs` replacements. -/
theorem findMatchRebuild_xs (exprs : List Expr) (pattern : AssociativePattern)
    (repl : List (Expr × Expr)) :
    ∀ (il : List Nat) (assoc : AssociativeOp),
      (findMatchRebuild exprs pattern repl il assoc).xs = assoc.xs
  | [], _ => rfl
  | i :: il, assoc => findMatchRebuild_xs exprs pattern repl il _

/-- A candidate try (successful or not) writes only sub-vector x-names. -/
theorem findMatchTry_xs (xnall xn2 yn : List String) (xps : List (Option Expr))
    (exprs : List Expr) (scope : List String) (pattern : AssociativePattern)
    (assoc : AssociativeOp)
    (hxn2 : ∀ k, xn2.getD k "" = "" ∨ xn2.getD k "" ∈ xnall)
    (h : ∀ i, (assoc.xs.getD i ⟨"", none⟩).var = "" ∨
      (assoc.xs.getD i ⟨"", none⟩).var ∈ xnall) :
    ∀ i, ((((findMatchTry xn2 yn xps exprs scope pattern assoc).2).xs.getD i
        ⟨"", none⟩).var = "" ∨
      (((findMatchTry xn2 yn xps exprs scope pattern assoc).2).xs.getD i
        ⟨"", none⟩).var ∈ xnall) := by
  intro i
  unfold findMatchTry
  simp only []
  split
  · exact h i
  · rename_i pm hpm
    have hy := findMatchYLoop_xs xnall xn2 yn xps pm hxn2
      (List.range yn.length) assoc [] h i
    split
    · rename_i a2 heq
      rw [heq] at hy
      exact hy
    · rename_i repl a2 heq
      rw [heq] at hy
      rw [findMatchRebuild_xs]
      exact hy

/-- The whole table loop writes only sub-vector x-names. -/
theorem findMatchGo_xs (xnall xn2 yn : List String) (xps : List (Option Expr))
    (exprs : List Expr) (scope : List String)
    (hxn2 : ∀ k, xn2.getD k "" = "" ∨ xn2.getD k "" ∈ xnall) :
    ∀ (tbl : List AssociativePattern) (assoc : AssociativeOp),
      (∀ i, (assoc.xs.getD i ⟨"", none⟩).var = "" ∨
        (assoc.xs.getD i ⟨"", none⟩).var ∈ xnall) →
      ∀ i, ((((findMatchGo xn2 yn xps exprs scope tbl assoc).2).xs.getD i
          ⟨"", none⟩).var = "" ∨
        (((findMatchGo xn2 yn xps exprs scope tbl assoc).2).xs.getD i
          ⟨"", none⟩).var ∈ xnall)
  | [], assoc, h, i => h i
  | p :: rest, assoc, h, i => by
    simp only [findMatchGo]
    have ht := findMatchTry_xs xnall xn2 yn xps exprs scope p assoc hxn2 h
    split
    · rename_i a2 heq
      have := ht i
      rw [heq] at this
      exact this
    · rename_i a2 heq
      refine findMatchGo_xs xnall xn2 yn xps exprs scope hxn2 rest a2 ?_ i
      intro i2
      have := ht i2
      rw [heq] at this
      exact this

/-- The merge loop copies only sub-result entries. -/
theorem mergeSubgraph_xs (xnall : List String) (sub : AssociativeOp)
    (hsub : ∀ j, (sub.xs.getD j ⟨"", none⟩).var = "" ∨
      (sub.xs.getD j ⟨"", none⟩).var ∈ xnall) :
    ∀ (pairs : List (Nat × Nat)) (assoc out : AssociativeOp),
      mergeSubgraph sub pairs assoc = some out →
      (∀ i, (assoc.xs.getD i ⟨"", none⟩).var = "" ∨
        (assoc.xs.getD i ⟨"", none⟩).var ∈ xnall) →
      ∀ i, ((out.xs.getD i ⟨"", none⟩).var = "" ∨
        (out.xs.getD i ⟨"", none⟩).var ∈ xnall)
  | [], assoc, out, h, ha => by
    obtain rfl := Option.some.inj h
    exact ha
  | (j, index) :: rest, assoc, out, h, ha => by
    simp only [mergeSubgraph] at h
    split_ifs at h with h1 h2 h3 <;>
      first
        | exact Option.noConfusion h
        | exact mergeSubgraph_xs xnall sub hsub rest _ out h
            (xsvar_set xnall _ index _ (hsub j) ha)

/-! ## Propagating the y-expression property through the two branches -/

/-- The independent branch: every y-expression written comes from the
single-element extractor and inherits its guarantees. -/
theorem proveIndependent_ys (xn yn : List String) (xps : List (Option Expr))
    (exprs : List Expr) (GOODP : Expr → Prop)
    (hgood : ∀ idx B, (∀ nm, B.usesVar nm = true →
        (exprs.getD idx (.intImm .i32 0)).usesVar nm = true) →
      ((xps.getD idx none).isSome = true → B.usesVar (xn.getD idx "") = false) →
      GOODP B) :
    ∀ (il : List Nat) (assoc out : AssociativeOp),
      proveIndependent xn yn xps exprs il assoc = some out →
      (∀ i B, (assoc.ys.getD i ⟨"", none⟩).expr = some B → GOODP B) →
      ∀ i B, (out.ys.getD i ⟨"", none⟩).expr = some B → GOODP B
  | [], assoc, out, h, ha => by
    obtain rfl := Option.some.inj h
    exact ha
  | idx :: rest, assoc, out, h, ha => by
    simp only [proveIndependent] at h
    split at h
    · exact Option.noConfusion h
    · refine proveIndependent_ys xn yn xps exprs GOODP hgood rest _ out h ?_
      intro i B hB
      rcases extract_ys idx xn yn (xps.getD idx none)
          (exprs.getD idx (.intImm .i32 0)) assoc i with
        hsame | ⟨hie, B2, hentry, hsub, hown⟩
      · rw [hsame] at hB
        exact ha i B hB
      · rw [hentry] at hB
        obtain rfl := Option.some.inj hB
        exact hgood idx B2 hsub hown

/-- The independent branch writes only empty-or-listed x-names. -/
theorem proveIndependent_xs (xn yn : List String) (xps : List (Option Expr))
    (exprs : List Expr) :
    ∀ (il : List Nat) (assoc out : AssociativeOp),
      proveIndependent xn yn xps exprs il assoc = some out →
      (∀ i, (assoc.xs.getD i ⟨"", none⟩).var = "" ∨
        (assoc.xs.getD i ⟨"", none⟩).var ∈ xn) →
      ∀ i, ((out.xs.getD i ⟨"", none⟩).var = "" ∨
        (out.xs.getD i ⟨"", none⟩).var ∈ xn)
  | [], assoc, out, h, ha => by
    obtain rfl := Option.some.inj h
    exact ha
  | idx :: rest, assoc, out, h, ha => by
    simp only [proveIndependent] at h
    split at h
    · exact Option.noConfusion h
    · exact proveIndependent_xs xn yn xps exprs rest _ out h
        (extract_xs idx xn yn _ _ assoc ha)

/-- Every y-entry after a merge is an untouched global entry or a
sub-result entry. -/
theorem mergeSubgraph_ys (sub : AssociativeOp) :
    ∀ (pairs : List (Nat × Nat)) (assoc out : AssociativeOp),
      mergeSubgraph sub pairs assoc = some out →
      ∀ i, out.ys.getD i ⟨"", none⟩ = assoc.ys.getD i ⟨"", none⟩ ∨
        ∃ j, out.ys.getD i ⟨"", none⟩ = sub.ys.getD j ⟨"", none⟩
  | [], assoc, out, h, i => by
    obtain rfl := Option.some.inj h
    exact Or.inl rfl
  | (j, index) :: rest, assoc, out, h, i => by
    simp only [mergeSubgraph] at h
    split_ifs at h with h1 h2 h3
    all_goals try exact Option.noConfusion h
    rcases mergeSubgraph_ys sub rest _ out h i with hsame | ⟨j2, hj2⟩
    · by_cases hm : i = index
      · subst hm
        by_cases hlen : i < assoc.ys.length
        · right
          refine ⟨j, ?_⟩
          rw [hsame]
          exact getD_set_lt _ _ _ _ hlen
        · left
          rw [hsame]
          exact getD_set_ge _ _ _ _ (Nat.le_of_not_lt hlen)
      · left
        rw [hsame]
        exact getD_set_ne _ _ _ _ _ (fun he => hm he.symm)
    · exact Or.inr ⟨j2, hj2⟩

/-- The subgraph branch: every y-expression written comes from a
successful table match on some subgraph. -/
theorem proveSubgraphs_ys (xn yn : List String) (xps : List (Option Expr))
    (exprs : List Expr) (GOODP : Expr → Prop) :
    ∀ (sgl : List (List Nat)) (assoc out : AssociativeOp),
      proveSubgraphs xn yn xps exprs sgl assoc = some out →
      (∀ sg ∈ sgl, ∀ sub : AssociativeOp,
        findMatch (getOpsTable (getSubvector (.intImm .i32 0) exprs sg))
          (getSubvector "" xn sg) (getSubvector "" yn sg)
          (getSubvector none xps sg)
          (getSubvector (.intImm .i32 0) exprs sg)
          (AssociativeOp.mkSize (getSubvector (.intImm .i32 0) exprs sg).length)
          = (true, sub) →
        ∀ j B, (sub.ys.getD j ⟨"", none⟩).expr = some B → GOODP B) →
      (∀ i B, (assoc.ys.getD i ⟨"", none⟩).expr = some B → GOODP B) →
      ∀ i B, (out.ys.getD i ⟨"", none⟩).expr = some B → GOODP B
  | [], assoc, out, h, hsgl, ha => by
    obtain rfl := Option.some.inj h
    exact ha
  | sg :: rest, assoc, out, h, hsgl, ha => by
    simp only [proveSubgraphs] at h
    by_cases hemp : sg = []
    case pos =>
      rw [if_pos hemp] at h
      exact proveSubgraphs_ys xn yn xps exprs GOODP rest assoc out h
        (fun sg2 hsg2 => hsgl sg2 (List.mem_cons_of_mem sg hsg2)) ha
    case neg =>
      rw [if_neg hemp] at h
      by_cases hbig : sg.length > 2
      case pos =>
        rw [if_pos hbig] at h
        exact Option.noConfusion h
      case neg =>
        rw [if_neg hbig] at h
        split at h
        · exact Option.noConfusion h
        · rename_i sub heq
          split at h
          · exact Option.noConfusion h
          · rename_i assoc2 heq2
            refine proveSubgraphs_ys xn yn xps exprs GOODP rest assoc2 out h
              (fun sg2 hsg2 => hsgl sg2 (List.mem_cons_of_mem sg hsg2)) ?_
            intro i B hB
            rcases mergeSubgraph_ys sub _ assoc assoc2 heq2 i with hsame | ⟨j2, hj2⟩
            · rw [hsame] at hB
              exact ha i B hB
            · rw [hj2] at hB
              exact hsgl sg (List.mem_cons_self sg rest) sub heq j2 B hB

/-- The subgraph branch writes only empty-or-listed x-names. -/
theorem proveSubgraphs_xs (xn yn : List String) (xps : List (Option Expr))
    (exprs : List Expr) :
    ∀ (sgl : List (List Nat)) (assoc out : AssociativeOp),
      proveSubgraphs xn yn xps exprs sgl assoc = some out →
      (∀ i, (assoc.xs.getD i ⟨"", none⟩).var = "" ∨
        (assoc.xs.getD i ⟨"", none⟩).var ∈ xn) →
      ∀ i, ((out.xs.getD i ⟨"", none⟩).var = "" ∨
        (out.xs.getD i ⟨"", none⟩).var ∈ xn)
  | [], assoc, out, h, ha => by
    obtain rfl := Option.some.inj h
    exact ha
  | sg :: rest, assoc, out, h, ha => by
    simp only [proveSubgraphs] at h
    by_cases hemp : sg = []
    case pos =>
      rw [if_pos hemp] at h
      exact proveSubgraphs_xs xn yn xps exprs rest assoc out h ha
    case neg =>
      rw [if_neg hemp] at h
      by_cases hbig : sg.length > 2
      case pos =>
        rw [if_pos hbig] at h
        exact Option.noConfusion h
      case neg =>
        rw [if_neg hbig] at h
        split at h
        · exact Option.noConfusion h
        · rename_i sub heq
          split at h
          · exact Option.noConfusion h
          · rename_i assoc2 heq2
            refine proveSubgraphs_xs xn yn xps exprs rest assoc2 out h ?_
            refine mergeSubgraph_xs xn sub ?_ _ assoc assoc2 heq2 ha
            intro j2
            have heq3 : findMatchGo (getSubvector "" xn sg) (getSubvector "" yn sg)
                (getSubvector none xps sg) (getSubvector (.intImm .i32 0) exprs sg)
                (getSubvector "" xn sg)
                (getOpsTable (getSubvector (.intImm .i32 0) exprs sg))
                (AssociativeOp.mkSize (getSubvector (.intImm .i32 0) exprs sg).length)
                = (true, sub) := heq
            have hxp := findMatchGo_xs xn (getSubvector "" xn sg)
              (getSubvector "" yn sg) (getSubvector none xps sg)
              (getSubvector (.intImm .i32 0) exprs sg) (getSubvector "" xn sg)
              (getSubvector_names xn sg)
              (getOpsTable (getSubvector (.intImm .i32 0) exprs sg))
              (AssociativeOp.mkSize (getSubvector (.intImm .i32 0) exprs sg).length)
              (fun i2 => Or.inl (mkSize_xs_var _ i2)) j2
            rw [heq3] at hxp
            exact hxp

/-! ## The y-expressions of a successful prover run avoid all fresh x-names -/

theorem replicate_getD_self {α : Type} (n i : Nat) (a : α) :
    (List.replicate n a).getD i a = a := by
  rw [List.getD_eq_getElem?_getD, List.getElem?_replicate]
  split <;> rfl

theorem mkSize_ys_len (n : Nat) : (AssociativeOp.mkSize n).ys.length = n := by
  simp [AssociativeOp.mkSize]

theorem getSubvector_len {α : Type} (d : α) (v : List α) (sg : List Nat) :
    (getSubvector d v sg).length = sg.length := by
  unfold getSubvector
  rw [List.length_map]

theorem getSubvector_getD {α : Type} (d : α) (v : List α) (sg : List Nat) (k : Nat)
    (hk : k < sg.length) :
    (getSubvector d v sg).getD k d = v.getD (sg.getD k 0) d := by
  unfold getSubvector
  rw [List.getD_eq_getElem?_getD, List.getElem?_map, List.getElem?_eq_getElem hk]
  simp [List.getD_eq_getElem?_getD, List.getElem?_eq_getElem hk]

/-- Every x-replacement name of a successful core run is empty or one of
the generated x-names. -/
theorem proveCore_xs (ext : Externals) (f : String) (args exprs : List Expr)
    (xn yn : List String) (out : AssociativeOp)
    (h : proveCore ext f args exprs xn yn = some out) :
    ∀ j, (out.xs.getD j ⟨"", none⟩).var = "" ∨
      (out.xs.getD j ⟨"", none⟩).var ∈ xn := by
  unfold proveCore at h
  simp only [] at h
  split at h
  · exact Option.noConfusion h
  · rename_i exprs2 deps2 xps2 ai2 heq
    split at h
    · split at h
      · exact Option.noConfusion h
      · rename_i a2 heq2
        obtain rfl := Option.some.inj h
        intro j
        exact proveIndependent_xs xn yn xps2 exprs2 (List.range exprs2.length)
          (AssociativeOp.mkSize exprs.length) a2 heq2
          (fun i => Or.inl (mkSize_xs_var _ i)) j
    · split at h
      · exact Option.noConfusion h
      · rename_i a2 heq2
        obtain rfl := Option.some.inj h
        intro j
        exact proveSubgraphs_xs xn yn xps2 exprs2
          (computeSubgraphs (addTransitiveDependencies deps2))
          (AssociativeOp.mkSize exprs.length) a2 heq2
          (fun i => Or.inl (mkSize_xs_var _ i)) j

/-- Every y-replacement expression of a successful core run avoids every
nonempty generated x-name, provided the externals introduce no variables
and the generated names are fresh for the inputs. -/
theorem proveCore_ys (ext : Externals) (f : String) (args exprs : List Expr)
    (xn yn : List String) (out : AssociativeOp)
    (hsimp : ∀ e nm, (ext.simplify e).usesVar nm = true → e.usesVar nm = true)
    (hcse : ∀ e nm, (ext.cse e).usesVar nm = true → e.usesVar nm = true)
    (hlets : ∀ e nm, (ext.substituteInAllLets e).usesVar nm = true → e.usesVar nm = true)
    (hsolve : ∀ e v nm, (ext.solve e v).usesVar nm = true → e.usesVar nm = true)
    (hxlen : xn.length = exprs.length)
    (hfresh : ∀ nm ∈ xn, ∀ e0 ∈ exprs, e0.usesVar nm = false)
    (h : proveCore ext f args exprs xn yn = some out) :
    ∀ i B, (out.ys.getD i ⟨"", none⟩).expr = some B →
      ∀ nm, nm ≠ "" → nm ∈ xn → B.usesVar nm = false := by
  unfold proveCore at h
  simp only [] at h
  split at h
  · exact Option.noConfusion h
  · rename_i exprs2 deps2 xps2 ai2 heq
    have hinv := proveLoop_tracked ext f
      (ExprList.ofList (args.map (fun a =>
        ext.substituteInAllLets (ext.simplify (ext.cse a))))) xn exprs
      hsimp hcse hlets hsolve
      (List.range exprs.length).reverse exprs
      (List.replicate exprs.length []) (List.replicate exprs.length none) true
      (exprs2, deps2, xps2, ai2) heq
      (by rw [List.nodup_reverse]; exact List.nodup_range _)
      (fun i hi => by
        rw [List.mem_reverse] at hi
        exact List.mem_range.mp hi)
      (fun i _ => rfl) rfl (by simp) (by simp)
      (by
        intro m nm husev
        left
        by_cases hm : m < exprs.length
        · exact ⟨exprs.getD m (Expr.intImm Ty.i32 0), getD_mem _ _ _ hm, husev⟩
        · rw [List.getD_eq_default _ _ (Nat.le_of_not_lt hm)] at husev
          simp [Expr.usesVar] at husev)
      (fun m => by
        rw [replicate_getD_self]
        exact List.chain'_nil)
      (fun _ m k hk => by
        rw [replicate_getD_self] at hk
        exact absurd hk (List.not_mem_nil k))
      (fun m hm => by
        rw [replicate_getD_self] at hm
        exact absurd hm (List.not_mem_nil m))
    obtain ⟨hlen2e, hlen2d, hlen2x, htrack2, hsort2, hai2f, hxs2f⟩ := hinv
    simp only [] at hlen2e hlen2d hlen2x htrack2 hsort2 hai2f hxs2f
    split at h
    case isTrue hcond =>
      split at h
      · exact Option.noConfusion h
      · rename_i a2 heq2
        obtain rfl := Option.some.inj h
        intro i B hB
        refine proveIndependent_ys xn yn xps2 exprs2
          (fun B2 => ∀ nm, nm ≠ "" → nm ∈ xn → B2.usesVar nm = false) ?_
          (List.range exprs2.length) (AssociativeOp.mkSize exprs.length) a2 heq2
          (fun i2 B2 hB2 => by
            rw [mkSize_ys_expr] at hB2
            exact Option.noConfusion hB2) i B hB
        intro idx B2 hsub hown nm hne hmem
        by_cases huse : B2.usesVar nm = true
        · exfalso
          have h6 := hsub nm huse
          rcases htrack2 idx nm h6 with ⟨e0, he0, hu0⟩ | ⟨k, hk, hnm⟩
          · rw [hfresh nm hmem e0 he0] at hu0
            exact Bool.noConfusion hu0
          · have hcond2 : ai2 = true ∨ exprs2.length = 1 := by simpa using hcond
            rcases hcond2 with hA | hL
            · have hki : k = idx := hai2f hA idx k hk
              subst hki
              have hks : (xps2.getD k none).isSome = true := hxs2f k hk
              have hoo := hown hks
              rw [← hnm] at hoo
              rw [hoo] at huse
              exact Bool.noConfusion huse
            · have hlen1 : exprs2.length = 1 := hL
              by_cases hki : k = idx
              · subst hki
                have hks : (xps2.getD k none).isSome = true := hxs2f k hk
                have hoo := hown hks
                rw [← hnm] at hoo
                rw [hoo] at huse
                exact Bool.noConfusion huse
              · have hd1 : deps2.length = 1 := by omega
                by_cases hidx1 : idx < 1
                · have hidx0 : idx = 0 := by omega
                  subst hidx0
                  have hk1 : xn.length ≤ k := by omega
                  rw [List.getD_eq_default _ _ hk1] at hnm
                  exact hne hnm
                · rw [List.getD_eq_default _ _ (by omega)] at hk
                  exact absurd hk (List.not_mem_nil k)
        · simpa using huse
    case isFalse hcond =>
      split at h
      · exact Option.noConfusion h
      · rename_i a2 heq2
        obtain rfl := Option.some.inj h
        intro i B hB
        refine proveSubgraphs_ys xn yn xps2 exprs2
          (fun B2 => ∀ nm, nm ≠ "" → nm ∈ xn → B2.usesVar nm = false)
          (computeSubgraphs (addTransitiveDependencies deps2))
          (AssociativeOp.mkSize exprs.length) a2 heq2 ?_
          (fun i2 B2 hB2 => by
            rw [mkSize_ys_expr] at hB2
            exact Option.noConfusion hB2) i B hB
        intro sg hsg sub hfm j B2 hB2 nm hne hmem
        have hfm2 : findMatchGo (getSubvector "" xn sg) (getSubvector "" yn sg)
            (getSubvector none xps2 sg) (getSubvector (.intImm .i32 0) exprs2 sg)
            (getSubvector "" xn sg)
            (getOpsTable (getSubvector (.intImm .i32 0) exprs2 sg))
            (AssociativeOp.mkSize (getSubvector (.intImm .i32 0) exprs2 sg).length)
            = (true, sub) := hfm
        have hyL : (getSubvector "" yn sg).length = sg.length := getSubvector_len _ _ _
        have heL : (getSubvector (.intImm .i32 0) exprs2 sg).length = sg.length :=
          getSubvector_len _ _ _
        have hmk : (AssociativeOp.mkSize
            (getSubvector (.intImm .i32 0) exprs2 sg).length).ys.length =
            (getSubvector "" yn sg).length := by
          rw [mkSize_ys_len, hyL, heL]
        obtain ⟨p, hp, a0, ha0len, htry⟩ := findMatchGo_success _ _ _ _ _ _ _ _ hfm2 hmk
        have hsublen : sub.ys.length = (getSubvector "" yn sg).length := by
          have hten := findMatchTry_len (getSubvector "" xn sg) (getSubvector "" yn sg)
            (getSubvector none xps2 sg) (getSubvector (.intImm .i32 0) exprs2 sg)
            (getSubvector "" xn sg) p a0
          rw [htry] at hten
          rw [← ha0len]
          exact hten
        by_cases hj : j < (getSubvector "" yn sg).length
        case neg =>
          rw [List.getD_eq_default _ _ (by rw [hsublen]; omega)] at hB2
          exact Option.noConfusion hB2
        case pos =>
          have hes2 : (getSubvector (.intImm .i32 0) exprs2 sg).length = 2 := by
            have hp2 := hp
            unfold getOpsTable at hp2
            split_ifs at hp2 with he2
            · exact he2
            · exact absurd hp2 (List.not_mem_nil p)
          have htable := getOpsTable_last_y (getSubvector (.intImm .i32 0) exprs2 sg) p hp
          obtain ⟨B3, hentry, hscope, hsubt⟩ :=
            findMatchTry_ys (getSubvector "" xn sg) (getSubvector "" yn sg)
              (getSubvector none xps2 sg) (getSubvector (.intImm .i32 0) exprs2 sg)
              (getSubvector "" xn sg) p a0 sub ha0len (by rw [hyL, heL])
              (fun j2 hj2 => htable j2 (by rw [hes2]; rw [hyL] at hj2; rw [heL] at hes2; omega))
              (fun j2 hj2 => ywildcard_small j2 (by rw [hyL] at hj2; rw [heL] at hes2; omega))
              htry j hj
          rw [hentry] at hB2
          obtain rfl := Option.some.inj hB2
          by_cases huse : B3.usesVar nm = true
          case neg => simpa using huse
          case pos =>
            exfalso
            have h7 := hsubt nm huse
            have hgd : (getSubvector (.intImm .i32 0) exprs2 sg).getD
                ((getSubvector (.intImm .i32 0) exprs2 sg).length - 1) (.intImm .i32 0) =
                exprs2.getD (sg.getD (sg.length - 1) 0) (.intImm .i32 0) := by
              rw [heL]
              exact getSubvector_getD _ _ _ _ (by rw [heL] at hes2; omega)
            rw [hgd] at h7
            rcases htrack2 _ nm h7 with ⟨e0, he0, hu0⟩ | ⟨k, hk, hnm⟩
            · rw [hfresh nm hmem e0 he0] at hu0
              exact Bool.noConfusion hu0
            · rcases computeSubgraphs_rows (addTransitiveDependencies deps2) sg hsg with
                hnil | ⟨i0, hsg0⟩
              · rw [hnil] at hes2
                simp [getSubvector] at hes2
              · have hsgne : sg ≠ [] := by
                  intro hh
                  rw [hh] at hes2
                  simp [getSubvector] at hes2
                have hchain : sg.Chain' (· < ·) := by
                  rw [hsg0]
                  exact addTransitive_sorted deps2 hsort2 i0
                have hmstar : sg.getD (sg.length - 1) 0 ∈
                    (addTransitiveDependencies deps2).getD i0 [] := by
                  rw [← hsg0]
                  exact last_mem hsgne
                have hmax : ∀ x ∈ (addTransitiveDependencies deps2).getD i0 [],
                    x ≤ sg.getD (sg.length - 1) 0 := by
                  rw [← hsg0]
                  exact sorted_le_last hchain
                have hclosed := addTransitive_max_closed deps2 i0
                  (sg.getD (sg.length - 1) 0) hmstar hmax k hk
                have hksg : k ∈ sg := by
                  rw [hsg0]
                  exact hclosed
                have hnmem : nm ∈ getSubvector "" xn sg := by
                  unfold getSubvector
                  rw [hnm]
                  exact List.mem_map.mpr ⟨k, hksg, rfl⟩
                have hall := List.any_eq_false.mp hscope
                have hfalse := hall nm hnmem
                exact hfalse huse

/-- C3: for every input on which `prove_associativity` reports
`is_associative == true`, and for every pair of indices `i` and `j`, the
returned `ys[i].expr` does not syntactically reference any variable whose
name equals `xs[j].var`.  The external collaborators (simplifier, CSE,
let substitution, solver) are assumed not to introduce occurrences of
variables absent from their input, and the fresh names produced by the
`unique_name` generator are assumed not to occur in the input expressions
— the contracts those externals satisfy in the source tree. -/
theorem c3_y_independent_of_x (ext : Externals) (c : Nat) (f : String)
    (args exprs : List Expr)
    (hsimp : ∀ e nm, (ext.simplify e).usesVar nm = true → e.usesVar nm = true)
    (hcse : ∀ e nm, (ext.cse e).usesVar nm = true → e.usesVar nm = true)
    (hlets : ∀ e nm, (ext.substituteInAllLets e).usesVar nm = true → e.usesVar nm = true)
    (hsolve : ∀ e v nm, (ext.solve e v).usesVar nm = true → e.usesVar nm = true)
    (hfresh : ∀ nm ∈ (genNames ext exprs.length c).1, ∀ e0 ∈ exprs,
      e0.usesVar nm = false)
    (hassoc : (proveAssociativity ext c f args exprs).1.is_associative = true) :
    ∀ i j e,
      ((proveAssociativity ext c f args exprs).1.ys.getD i ⟨"", none⟩).expr = some e →
      ((proveAssociativity ext c f args exprs).1.xs.getD j ⟨"", none⟩).var ≠ "" →
      e.usesVar
        (((proveAssociativity ext c f args exprs).1.xs.getD j ⟨"", none⟩).var) = false := by
  intro i j e hyse hxvar
  unfold proveAssociativity at hyse hxvar ⊢
  simp only [] at hyse hxvar ⊢
  rcases hpc : proveCore ext f args exprs (genNames ext exprs.length c).1
      (genNames ext exprs.length c).2.1 with _ | out
  · rw [hpc] at hxvar
    simp only [] at hxvar
    exact absurd rfl hxvar
  · rw [hpc] at hyse hxvar
    simp only [] at hyse hxvar ⊢
    rcases proveCore_xs ext f args exprs _ _ out hpc j with hempty | hmem
    · exact absurd hempty hxvar
    · exact proveCore_ys ext f args exprs _ _ out hsimp hcse hlets hsolve
        ((genNames_len ext exprs.length c).1) hfresh hpc i e hyse _ hxvar hmem

/-- The 1-D argmin run (which exercises the subgraph branch end to end)
witnesses the y-independence theorem: the proved result stores
`g(rx)[0]` in `ys[0]` and it avoids the fresh name held in `xs[1].var`. -/
theorem c3_y_independent_of_x_witness :
    (proveAssociativity idExt 0 "f" [vx] amInput).1.is_associative = true ∧
    ((proveAssociativity idExt 0 "f" [vx] amInput).1.ys.getD 0 ⟨"", none⟩).expr =
      some (gcall 0) ∧
    ((proveAssociativity idExt 0 "f" [vx] amInput).1.xs.getD 1 ⟨"", none⟩).var ≠ "" ∧
    (gcall 0).usesVar
      (((proveAssociativity idExt 0 "f" [vx] amInput).1.xs.getD 1 ⟨"", none⟩).var)
      = false :=
  ⟨by decide, by decide, by decide,
   c3_y_independent_of_x idExt 0 "f" [vx] amInput
     (fun _ _ h => h) (fun _ _ h => h) (fun _ _ h => h) (fun _ _ _ h => h)
     (by decide) (by decide) 0 1 (gcall 0) (by decide) (by decide)⟩

end HalideAssoc
